import Mathlib

/-!
# Verification development for `src/tparse.c` (lubridate date-time parser)

The C functions `parse_dt` and `parse_hms` are embedded as pure Lean functions.

Conventions of the embedding
* A C string (`const char *`) is a `List Char`; `*c` is `cur c` (the head, or the
  terminating NUL when the list is empty) and `c++` is `List.tail`.  A NUL inside a
  list therefore acts as the end of the text, exactly as in C.
* `int` variables are `Int`; the places where an `int` computation can leave the
  32-bit range (the year accumulator and the leap-day products) go through `wrap32`
  (two's complement wrap-around).
* A finite `double` is the rational number it denotes; every operation on `double`s is
  the exact operation followed by rounding to the nearest `double` (`roundDouble`,
  IEEE 754 binary64, ties to even).
* `NA_REAL` is `none`; a call to R's `error` is `Except.error`.
-/

namespace Tparse

/-! ## Constants (tparse.c lines 34-46) -/

/-- start of each month in seconds in a common year (1 indexed) -/
def sm : List Int :=
  [0, 0, 2678400, 5097600, 7776000, 10368000, 13046400, 15638400,
   18316800, 20995200, 23587200, 26265600, 28857600, 31536000]

/-- days in months -/
def mdays : List Int := [0, 31, 28, 31, 30, 31, 30, 31, 31, 30, 31, 30, 31]

/-- seconds in a day: 24*60*60 -/
def daylen : Int := 86400

/-- seconds between 2000-01-01 and 1970-01-01 -/
def d30 : Int := 946684800

/-- common year in sec: 365*24*60*60 -/
def yearlen : Int := 31536000

/-! ## Characters and cursors -/

/-- The terminating NUL of a C string. -/
def NUL : Char := Char.ofNat 0

/-- The character under a cursor: `*c`. -/
def cur (c : List Char) : Char := c.headD NUL

/-- Macro `DIGIT(X)`: `(X) >= '0' && (X) <= '9'`. -/
def DIGIT (x : Char) : Bool := decide (48 ≤ x.toNat) && decide (x.toNat ≤ 57)

/-- Value of `*c - '0'`. -/
def digitVal (x : Char) : Int := (x.toNat : Int) - 48

/-- Two's complement wrap-around of a 32-bit `int`. -/
def wrap32 (x : Int) : Int := (x + 2147483648) % 4294967296 - 2147483648

/-! ## Arithmetic on `double`

The accumulators `secs`, `ms`, `msfact` of `parse_dt` and `S`, `ms`, `msfact` of `parse_hms`
are C `double`s.  A finite `double` is modelled by the rational number it denotes, and every
arithmetic operation by the exact operation followed by `roundDouble`: IEEE 754 binary64,
round to nearest, ties to even, each operation rounded on its own (no extended intermediate
precision, no fused multiply-add).  Overflow to infinity is not modelled (beyond the largest
finite `double` the exponent is taken as unbounded); in `tparse.c` only the accumulator `S`
of `parse_hms` can get there, on a run of more than 308 digits.  Converting an `int` to
`double` is exact (an `int` has at most 31 significant bits) and is written as a cast. -/

/-- Rounding of a rational to the nearest integer, ties to the even one. -/
def roundHalfEven (q : ℚ) : Int :=
  let f := ⌊q⌋
  let r := q - f
  if r < 1 / 2 then f else if 1 / 2 < r then f + 1 else if f % 2 = 0 then f else f + 1

/-- The `double` nearest to a rational `x` (ties to even): with `e` the binary exponent of
`x`, at least -1022 (below that the numbers are subnormal), `x` is rounded to a multiple of
`2^(e-52)`. -/
def roundDouble (x : ℚ) : ℚ :=
  if x = 0 then 0
  else
    let e := max (Int.log 2 |x|) (-1022)
    let ulp : ℚ := 2 ^ (e - 52)
    (roundHalfEven (x / ulp) : ℚ) * ulp

/-- Sum `x + y` of two `double`s. -/
def dadd (x y : ℚ) : ℚ := roundDouble (x + y)

/-- Difference `x - y` of two `double`s. -/
def dsub (x y : ℚ) : ℚ := roundDouble (x - y)

/-- Product `x * y` of two `double`s. -/
def dmul (x y : ℚ) : ℚ := roundDouble (x * y)

/-- The literal `0.1`: the `double` nearest to one tenth. -/
def tenth : ℚ := roundDouble (1 / 10)

/-- Macro `PARSENUM(X, N)`:
`tN = N; while (DIGIT(*c) && tN > 0) { X = X * 10 + (*c - '0'); c++; tN--; }`.
Returns the new `X` and the advanced cursor. -/
def PARSENUM : Nat → Int → List Char → Int × List Char
  | 0, x, c => (x, c)
  | _ + 1, x, [] => (x, [])
  | n + 1, x, ch :: rest =>
    if DIGIT ch then PARSENUM n (wrap32 (x * 10 + digitVal ch)) rest else (x, ch :: rest)

/-- Loop `while (*c && !DIGIT(*c)) c++;` (skip non-digits). -/
def skipNonDigits : List Char → List Char
  | [] => []
  | ch :: rest => if ch != NUL && !DIGIT ch then skipNonDigits rest else ch :: rest

/-- Loop `while (*c && *c != '+' && *c != '-' && *c != 'Z') c++;` (line 170). -/
def skipToSignZ : List Char → List Char
  | [] => []
  | ch :: rest =>
    if ch != NUL && ch != '+' && ch != '-' && ch != 'Z' then skipToSignZ rest else ch :: rest

/-- Loop `while (*c && *c != '+' && *c != '-') c++;` (line 200). -/
def skipToSign : List Char → List Char
  | [] => []
  | ch :: rest => if ch != NUL && ch != '+' && ch != '-' then skipToSign rest else ch :: rest

/-- Loop `while (DIGIT(*c)) { ms = ms + (*c - '0')*msfact; msfact *= 0.1; c++; }`
(lines 152 and 333).  Returns the final `ms` and the advanced cursor. -/
def parseFrac : ℚ → ℚ → List Char → ℚ × List Char
  | ms, _, [] => (ms, [])
  | ms, msfact, ch :: rest =>
    if DIGIT ch then
      parseFrac (dadd ms (dmul (digitVal ch : ℚ) msfact)) (dmul msfact tenth) rest
    else (ms, ch :: rest)

/-! ## Per-entry state of `parse_dt` (lines 76-81) -/

/-- The local variables of one iteration of the `for` loop of `parse_dt`. -/
structure St where
  /-- input cursor -/
  c : List Char
  /-- format cursor -/
  o : List Char
  y : Int
  m : Int
  d : Int
  H : Int
  M : Int
  S : Int
  succeed : Bool
  /-- main accumulator -/
  secs : ℚ

/-- The reasons for which the embedded `parse_dt` delivers no result vector. -/
inductive Abort where
  /-- R's `error("Unrecognized format %c supplied", *o)`: the whole call is aborted -/
  | unrecognized (letter : Char)
  /-- the bounded unrolling of the `while` loop was too short (never happens with the
  bound used by `parse_dt_entry`, see `scan_never_fuel`) -/
  | fuel
  deriving DecidableEq, Repr

/-- Initial state (lines 76-81). -/
def St.init (c O : List Char) : St :=
  { c := c, o := O, y := 0, m := 0, d := 0, H := 0, M := 0, S := 0, succeed := true, secs := 0 }

/-! ## The field handlers: the `switch (*o)` of lines 108-223 -/

/-- `case 'Y'` (lines 109-111). -/
def field_Y (st : St) : St :=
  let r := PARSENUM 4 st.y st.c
  { st with y := r.1, c := r.2 }

/-- `case 'y'` (lines 112-118). -/
def field_y (st : St) : St :=
  let r := PARSENUM 2 st.y st.c
  { st with y := if r.1 ≤ 68 then wrap32 (r.1 + 2000) else wrap32 (r.1 + 1900), c := r.2 }

/-- `case 'm'` (lines 119-123). -/
def field_m (st : St) : St :=
  let r := PARSENUM 2 st.m st.c
  if 0 < r.1 ∧ r.1 < 13 then
    { st with m := r.1, c := r.2, secs := dadd st.secs ((sm.getD r.1.toNat 0 : Int) : ℚ) }
  else { st with m := r.1, c := r.2, succeed := false }

/-- `case 'd'` (lines 124-128). -/
def field_d (st : St) : St :=
  let r := PARSENUM 2 st.d st.c
  if 0 < r.1 ∧ r.1 < 32 then
    { st with d := r.1, c := r.2, secs := dadd st.secs (((r.1 - 1) * 86400 : Int) : ℚ) }
  else { st with d := r.1, c := r.2, succeed := false }

/-- `case 'H'` (lines 129-133). -/
def field_H (st : St) : St :=
  let r := PARSENUM 2 st.H st.c
  if r.1 < 25 then { st with H := r.1, c := r.2, secs := dadd st.secs ((r.1 * 3600 : Int) : ℚ) }
  else { st with H := r.1, c := r.2, succeed := false }

/-- `case 'M'` (lines 134-138). -/
def field_M (st : St) : St :=
  let r := PARSENUM 2 st.M st.c
  if r.1 < 61 then { st with M := r.1, c := r.2, secs := dadd st.secs ((r.1 * 60 : Int) : ℚ) }
  else { st with M := r.1, c := r.2, succeed := false }

/-- `case 'S'` (lines 139-157). -/
def field_S (is_fmt O_format : Bool) (st : St) : St :=
  let c0 := if O_format && !is_fmt then skipNonDigits st.c else st.c
  if O_format && !is_fmt && cur c0 == NUL then { st with c := c0, succeed := false }
  else
    let r := PARSENUM 2 st.S c0
    if r.1 < 62 then
      let secs := dadd st.secs ((r.1 : Int) : ℚ)
      if O_format then
        if cur r.2 == '.' || cur r.2 == ',' then
          let f := parseFrac 0 tenth r.2.tail
          { st with S := r.1, c := f.2, secs := dadd secs f.1 }
        else { st with S := r.1, c := r.2, secs := secs }
      else { st with S := r.1, c := r.2, secs := secs }
    else { st with S := r.1, c := r.2, succeed := false }

/-- `case 'u'` (lines 159-165). -/
def field_u (O_format : Bool) (st : St) : St :=
  if O_format then
    if cur st.c == 'Z' || cur st.c == 'z' then { st with c := st.c.tail }
    else { st with succeed := false }
  else { st with succeed := false }

/-- `case 'z'` without the `O` prefix (lines 168-194). -/
def field_z (is_fmt : Bool) (st : St) : St :=
  let c0 := if !is_fmt then skipToSignZ st.c else st.c
  if !is_fmt && cur c0 == NUL then { st with c := c0, succeed := false }
  else if cur c0 == 'Z' then { st with c := c0.tail }
  else if cur c0 == '+' || cur c0 == '-' then
    let sig : Int := if cur c0 == '+' then -1 else 1
    let r := PARSENUM 2 0 c0.tail
    let secs := dadd st.secs ((sig * r.1 * 3600 : Int) : ℚ)
    if cur r.2 == ':' then
      if !DIGIT (cur r.2.tail) then { st with c := r.2.tail, secs := secs, succeed := false }
      else
        let r2 := PARSENUM 2 0 r.2.tail
        { st with c := r2.2, secs := dadd secs ((sig * r2.1 * 60 : Int) : ℚ) }
    else if DIGIT (cur r.2) then
      let r2 := PARSENUM 2 0 r.2
      { st with c := r2.2, secs := dadd secs ((sig * r2.1 * 60 : Int) : ℚ) }
    else { st with c := r.2, secs := secs }
  else { st with c := c0, succeed := false }

/-- The body shared by `%Oz` (fall-through), `case 'O'` and `case 'o'` when the `O`
prefix was seen (lines 199-218); `letter` is `*o`. -/
def field_O (letter : Char) (st : St) : St :=
  let c0 := skipToSign st.c
  if cur c0 == '+' || cur c0 == '-' then
    let sig : Int := if cur c0 == '+' then -1 else 1
    let r := PARSENUM 2 0 c0.tail
    let secs := dadd st.secs ((sig * r.1 * 3600 : Int) : ℚ)
    if letter == 'O' && cur r.2 != ':' then { st with c := r.2, secs := secs, succeed := false }
    else
      let c1 := if letter == 'O' then r.2.tail else r.2
      if letter != 'o' then
        let r2 := PARSENUM 2 0 c1
        { st with c := r2.2, secs := dadd secs ((sig * r2.1 * 60 : Int) : ℚ) }
      else { st with c := c1, secs := secs }
  else { st with c := c0, succeed := false }

/-- The `switch (*o)` of lines 108-223. -/
def field (is_fmt O_format : Bool) (letter : Char) (st : St) : Except Abort St :=
  if letter = 'Y' then .ok (field_Y st)
  else if letter = 'y' then .ok (field_y st)
  else if letter = 'm' then .ok (field_m st)
  else if letter = 'd' then .ok (field_d st)
  else if letter = 'H' then .ok (field_H st)
  else if letter = 'M' then .ok (field_M st)
  else if letter = 'S' then .ok (field_S is_fmt O_format st)
  else if letter = 'u' then .ok (field_u O_format st)
  else if letter = 'z' then
    if !O_format then .ok (field_z is_fmt st) else .ok (field_O letter st)
  else if letter = 'O' ∨ letter = 'o' then
    if O_format then .ok (field_O letter st) else .error (.unrecognized letter)
  else .error (.unrecognized letter)

/-! ## The scanning loop (lines 83-227) -/

/-- One execution of the body of `while (*o && succeed)` (lines 85-226). -/
def body (is_fmt : Bool) (st : St) : Except Abort St :=
  if is_fmt && cur st.o != '%' then
    -- with formats, non formatting characters should match exactly
    if cur st.c == cur st.o then .ok { st with c := st.c.tail, o := st.o.tail }
    else .ok { st with succeed := false }
  else
    let o1 := if is_fmt then st.o.tail else st.o
    let c1 :=
      if is_fmt then st.c
      else if cur st.o != 'O' && cur st.o != 'z' then skipNonDigits st.c
      else st.c
    let O_format := cur o1 == 'O'
    let o2 := if O_format then o1.tail else o1
    if !(DIGIT (cur c1) || O_format || cur o2 == 'z') then
      .ok { st with c := c1, o := o2, succeed := false }
    else
      match field is_fmt O_format (cur o2) { st with c := c1, o := o2 } with
      | .error e => .error e
      | .ok st2 => .ok { st2 with o := st2.o.tail }

/-- The loop `while (*o && succeed) { ... }`, unrolled at most `fuel` times. -/
def scan (is_fmt : Bool) : Nat → St → Except Abort St
  | 0, st => if cur st.o != NUL && st.succeed then .error .fuel else .ok st
  | fuel + 1, st =>
    if cur st.o != NUL && st.succeed then
      match body is_fmt st with
      | .error e => .error e
      | .ok st2 => scan is_fmt fuel st2
    else .ok st

/-! ## After the scan (lines 229-278) -/

/-- `int leap = (y % 4 == 0) && !(y % 100 == 0 && y % 400 != 0);` (line 239). -/
def leapOf (y : Int) : Bool :=
  (Int.tmod y 4 == 0) && !(Int.tmod y 100 == 0 && Int.tmod y 400 != 0)

/-- Step "1) process year" (lines 241-259) on the accumulator `secs`, for the year `y0`
(as parsed) and month `m`: `y * yearlen` is a `long long`, converted to `double` with
rounding; the leap-day terms are `int`s. -/
def yearStep (secs : ℚ) (y0 m : Int) : ℚ :=
  let leap := leapOf y0
  let y := wrap32 (y0 - 2000)
  let s0 := dadd secs (roundDouble ((y * yearlen : Int) : ℚ))
  if y ≥ 0 then
    -- ordinary leap days before 2000-01-01 00:00:00
    let s1 := dadd s0 ((wrap32 (wrap32 (Int.tdiv y 4 * daylen) + daylen) : Int) : ℚ)
    let s2 :=
      if y > 99 then
        dadd s1 ((wrap32 (wrap32 (Int.tdiv y 400 - Int.tdiv y 100) * daylen) : Int) : ℚ)
      else s1
    -- adjust if within leap year
    if leap ∧ m < 3 then dsub s2 (daylen : ℚ) else s2
  else
    let s1 := dadd s0 ((wrap32 (Int.tdiv y 4 * daylen) : Int) : ℚ)
    let s2 :=
      if y < -99 then
        dadd s1 ((wrap32 (wrap32 (Int.tdiv y 400 - Int.tdiv y 100) * daylen) : Int) : ℚ)
      else s1
    if leap ∧ m > 2 then dadd s2 (daylen : ℚ) else s2

/-- Step "2) check month" (lines 263-271). -/
def checkMonth (y0 m d : Int) : Bool :=
  if m = 2 then
    if leapOf y0 then decide (d < 30) else decide (d < 29)
  else decide (d ≤ mdays.getD m.toNat 0)

/-- Lines 229-278: the final separator skip, the check that both cursors are
exhausted, the year arithmetic, the day-of-month check, and the result. -/
def finish (is_fmt : Bool) (st : St) : Option ℚ :=
  let c := if !is_fmt then skipNonDigits st.c else st.c
  let succeed := if cur c != NUL || cur st.o != NUL then false else st.succeed
  if succeed then
    if checkMonth st.y st.m st.d then
      some (dadd (yearStep st.secs st.y st.m) (d30 : ℚ))
    else none
  else none

/-- The body of the `for` loop of `parse_dt` for one input text `c` (lines 76-278). -/
def parse_dt_entry (O : List Char) (is_fmt : Bool) (c : List Char) :
    Except Abort (Option ℚ) :=
  match scan is_fmt O.length (St.init c O) with
  | .error e => .error e
  | .ok st => .ok (finish is_fmt st)

/-- Function `parse_dt(str, ord, formats)`: one result per input text, or no result at
all when R's `error` is reached while some entry is processed. -/
def parse_dt : List (List Char) → List Char → Bool → Except Abort (List (Option ℚ))
  | [], _, _ => .ok []
  | s :: rest, ord, formats =>
    match parse_dt_entry ord formats s with
    | .error e => .error e
    | .ok v =>
      match parse_dt rest ord formats with
      | .error e => .error e
      | .ok vs => .ok (v :: vs)

/-! ## `parse_hms` (lines 288-357) -/

/-- One cell of the result vector of `parse_hms`.  The vector comes from
`allocVector(REALSXP, len)`, which does not initialise its cells: a cell the function
never assigns is `unset`.  `na` is `NA_REAL`. -/
inductive Slot where
  | unset
  | na
  | val (v : ℚ)
  deriving DecidableEq

/-- The local variables of one iteration of the `for` loop of `parse_hms`, with the three
cells `data[j]`, `data[j+1]`, `data[j+2]` of the entry. -/
structure HSt where
  /-- input cursor -/
  c : List Char
  /-- order cursor -/
  o : List Char
  H : Int
  M : Int
  S : ℚ
  dH : Slot
  dM : Slot
  dS : Slot

/-- Loop `while (DIGIT(*c)) { H = H * 10 + (*c - '0'); c++; }` on an `int` (lines 318, 323). -/
def parseInt : Int → List Char → Int × List Char
  | x, [] => (x, [])
  | x, ch :: rest =>
    if DIGIT ch then parseInt (wrap32 (x * 10 + digitVal ch)) rest else (x, ch :: rest)

/-- Loop `while (DIGIT(*c)) { S = S * 10 + (*c - '0'); c++; }` on a `double` (line 328). -/
def parseNum : ℚ → List Char → ℚ × List Char
  | x, [] => (x, [])
  | x, ch :: rest =>
    if DIGIT ch then parseNum (dadd (dmul x 10) (digitVal ch : ℚ)) rest else (x, ch :: rest)

/-- The `switch (*o)` of `parse_hms` (lines 314-340). -/
def hmsField (letter : Char) (st : HSt) : Except Abort HSt :=
  if letter = 'H' then
    if !DIGIT (cur st.c) then .ok { st with dH := .na }
    else
      let r := parseInt st.H st.c
      .ok { st with H := r.1, c := r.2, dH := .val (r.1 : ℚ) }
  else if letter = 'M' then
    if !DIGIT (cur st.c) then .ok { st with dM := .na }
    else
      let r := parseInt st.M st.c
      .ok { st with M := r.1, c := r.2, dM := .val (r.1 : ℚ) }
  else if letter = 'S' then
    if !DIGIT (cur st.c) then .ok { st with dS := .na }
    else
      let r := parseNum st.S st.c
      -- both . and , as decimal Seconds separator are allowed
      if cur r.2 == '.' || cur r.2 == ',' then
        let f := parseFrac 0 tenth r.2.tail
        .ok { st with S := dadd r.1 f.1, c := f.2, dS := .val (dadd r.1 f.1) }
      else .ok { st with S := r.1, c := r.2, dS := .val r.1 }
  else .error (.unrecognized letter)

/-- The loop `while (*o) { switch ...; while (*c && !DIGIT(*c)) c++; o++; }`
(lines 312-345).  Every iteration advances the order cursor by one character, so the
loop is a recursion over the order string; the first argument is the part of the order
string still to be read (equal to `st.o`). -/
def hmsScan : List Char → HSt → Except Abort HSt
  | [], st => .ok st
  | letter :: rest, st =>
    if letter = NUL then .ok st
    else
      match hmsField letter st with
      | .error e => .error e
      | .ok st2 => hmsScan rest { st2 with c := skipNonDigits st2.c, o := rest }

/-- The body of the `for` loop of `parse_hms` for one input text (lines 304-353):
the three cells (hour, minute, second) of the entry. -/
def parse_hms_entry (O : List Char) (c : List Char) : Except Abort (Slot × Slot × Slot) :=
  let c0 := skipNonDigits c
  let st0 : HSt :=
    { c := c0, o := O, H := 0, M := 0, S := 0, dH := .unset, dM := .unset, dS := .unset }
  match (if DIGIT (cur c0) then hmsScan O st0 else .ok st0) with
  | .error e => .error e
  | .ok st =>
    -- unfinished parsing, return NA
    if cur st.c != NUL || cur st.o != NUL then .ok (.na, .na, .na)
    else .ok (st.dH, st.dM, st.dS)

/-- Function `parse_hms(str, ord)`: the vector `(H1 M1 S1 H2 M2 S2 ...)`, or no result
at all when R's `error` is reached. -/
def parse_hms : List (List Char) → List Char → Except Abort (List Slot)
  | [], _ => .ok []
  | s :: rest, ord =>
    match parse_hms_entry ord s with
    | .error e => .error e
    | .ok (h, m, sec) =>
      match parse_hms rest ord with
      | .error e => .error e
      | .ok vs => .ok (h :: m :: sec :: vs)

/-! ## Reference definitions used to state the properties

These follow the wording of the specification, not the code. -/

/-- The increments of the year step (`yearStep`) summed in exact arithmetic: what the step
adds to the accumulator whenever none of its additions rounds. -/
def yearSecs (y0 m : Int) : ℚ :=
  let leap := leapOf y0
  let y := wrap32 (y0 - 2000)
  let s0 : ℚ := ((y * yearlen : Int) : ℚ)
  if y ≥ 0 then
    let s1 := s0 + ((wrap32 (wrap32 (Int.tdiv y 4 * daylen) + daylen) : Int) : ℚ)
    let s2 :=
      if y > 99 then
        s1 + ((wrap32 (wrap32 (Int.tdiv y 400 - Int.tdiv y 100) * daylen) : Int) : ℚ)
      else s1
    if leap ∧ m < 3 then s2 - (daylen : ℚ) else s2
  else
    let s1 := s0 + ((wrap32 (Int.tdiv y 4 * daylen) : Int) : ℚ)
    let s2 :=
      if y < -99 then
        s1 + ((wrap32 (wrap32 (Int.tdiv y 400 - Int.tdiv y 100) * daylen) : Int) : ℚ)
      else s1
    if leap ∧ m > 2 then s2 + (daylen : ℚ) else s2

/-- The decimal digit character of `k` (for `k < 10`). -/
def digitChar (k : Nat) : Char := Char.ofNat (48 + k)

/-- Zero-padded two-digit text of `n` (for `n ≤ 99`). -/
def pad2 (n : Nat) : List Char := [digitChar (n / 10 % 10), digitChar (n % 10)]

/-- Zero-padded four-digit text of `n` (for `n ≤ 9999`). -/
def pad4 (n : Nat) : List Char :=
  [digitChar (n / 1000 % 10), digitChar (n / 100 % 10), digitChar (n / 10 % 10),
   digitChar (n % 10)]

/-- The text `YYYY-mm-dd`. -/
def dateText (Y m d : Nat) : List Char :=
  pad4 Y ++ ('-' :: (pad2 m ++ ('-' :: pad2 d)))

/-- The text `HH:MM:SS`. -/
def timeText (H M S : Nat) : List Char :=
  pad2 H ++ (':' :: (pad2 M ++ (':' :: pad2 S)))

/-- The text `YYYY-mm-dd HH:MM:SS`. -/
def dateTimeText (Y m d H M S : Nat) : List Char :=
  dateText Y m d ++ (' ' :: timeText H M S)

/-- Gregorian leap-year rule: divisible by 4 and (not divisible by 100 or divisible
by 400). -/
def isLeapYear (Y : Nat) : Bool :=
  decide (Y % 4 = 0) && (decide (Y % 100 ≠ 0) || decide (Y % 400 = 0))

/-- Number of days of month `m` (1..12) in year `Y`. -/
def daysInMonth (Y m : Nat) : Nat :=
  if m = 2 then (if isLeapYear Y then 29 else 28)
  else if m = 4 ∨ m = 6 ∨ m = 9 ∨ m = 11 then 30
  else 31

/-- Number of days of year `Y`. -/
def daysInYear (Y : Nat) : Nat := if isLeapYear Y then 366 else 365

/-- Number of days of the years `0 .. Y-1` (proleptic Gregorian calendar). -/
def daysBeforeYear : Nat → Nat
  | 0 => 0
  | Y + 1 => daysBeforeYear Y + daysInYear Y

/-- Number of days of the months `1 .. m-1` of year `Y`. -/
def daysBeforeMonth (Y : Nat) : Nat → Nat
  | 0 => 0
  | 1 => 0
  | m + 2 => daysBeforeMonth Y (m + 1) + daysInMonth Y (m + 1)

/-- Signed number of days from 1970-01-01 to `Y-m-d`, counted day by day in the
proleptic Gregorian calendar. -/
def daysFromEpoch (Y m d : Nat) : Int :=
  ((daysBeforeYear Y + daysBeforeMonth Y m + d : Nat) : Int) - 1 - (daysBeforeYear 1970 : Nat)

/-- The four-digit year meant by a two-digit year: `2000 + yy` up to 68, `1900 + yy`
above. -/
def pivotYear (yy : Nat) : Nat := if yy ≤ 68 then 2000 + yy else 1900 + yy

/-- The sum of the digits of `f` weighted by successive powers of one tenth:
`f[0]/10 + f[1]/100 + ...`. -/
def fracValue (f : List Char) : ℚ :=
  ((List.range f.length).map fun i => (digitVal (f.getD i NUL) : ℚ) * (1 / 10) ^ (i + 1)).sum

/-- The weight of the fraction digit at position `i` (from 0) in `double` arithmetic: the
`(i+1)`-th power of one tenth, by repeated multiplication with the literal `0.1`. -/
def tenthPow : Nat → ℚ
  | 0 => tenth
  | i + 1 => dmul (tenthPow i) tenth

/-- The fraction denoted by a digit text in `double` arithmetic: the digits weighted by
successive powers of one tenth and summed from left to right, every product and every
partial sum rounded. -/
def floatFrac (f : List Char) : ℚ :=
  (List.range f.length).foldl
    (fun acc i => dadd acc (dmul (digitVal (f.getD i NUL) : ℚ) (tenthPow i))) 0

/-- The decimal value of a digit text. -/
def decValue (s : List Char) : ℚ := s.foldl (fun a ch => a * 10 + (digitVal ch : ℚ)) 0

/-- The text `D1 s1 D2 s2 ... Dk` made of the runs `D1 .. Dk` and the separators
`s1 .. s(k-1)`. -/
def joinRuns : List (List Char) → List (List Char) → List Char
  | [], _ => []
  | [D], _ => D
  | D :: _ :: _, [] => D
  | D :: D2 :: Ds, s :: ss => D ++ (s ++ joinRuns (D2 :: Ds) ss)

/-- A digit text: every character is a decimal digit. -/
def IsDigits (t : List Char) : Prop := ∀ ch ∈ t, DIGIT ch = true

/-- A separator text: no character is a digit (nor the string terminator). -/
def IsSeparator (t : List Char) : Prop := ∀ ch ∈ t, DIGIT ch = false ∧ ch ≠ NUL

/-- The plain field letters of `parse_dt`. -/
def PlainLetter (L : Char) : Prop :=
  L = 'Y' ∨ L = 'y' ∨ L = 'm' ∨ L = 'd' ∨ L = 'H' ∨ L = 'M' ∨ L = 'S'

/-- Two texts that differ only in which (non-empty) separators stand between their digit
runs: same digits, and wherever one has a separator run the other has one too. -/
inductive SepEq : List Char → List Char → Prop where
  | nil : SepEq [] []
  | digit (ch : Char) (a b : List Char) : DIGIT ch = true → SepEq a b →
      SepEq (ch :: a) (ch :: b)
  | sep (s t : List Char) (ch : Char) (a b : List Char) : s ≠ [] → t ≠ [] →
      IsSeparator s → IsSeparator t → DIGIT ch = true → SepEq a b →
      SepEq (s ++ ch :: a) (t ++ ch :: b)

/-- Two scanner states that agree on everything but the separators of the remaining
input. -/
def StEq (s1 s2 : St) : Prop :=
  SepEq s1.c s2.c ∧ s1.o = s2.o ∧ s1.y = s2.y ∧ s1.m = s2.m ∧ s1.d = s2.d ∧ s1.H = s2.H ∧
    s1.M = s2.M ∧ s1.S = s2.S ∧ s1.succeed = s2.succeed ∧ s1.secs = s2.secs

/-- The C string denoted by a list of characters: the characters before the first NUL. -/
def cstr (l : List Char) : List Char := l.takeWhile (fun ch => ch != NUL)

/-- The letters that the `switch` of `parse_dt` has a case for. -/
def Recognised (L : Char) : Prop :=
  L = 'Y' ∨ L = 'y' ∨ L = 'm' ∨ L = 'd' ∨ L = 'H' ∨ L = 'M' ∨ L = 'S' ∨ L = 'u' ∨ L = 'z' ∨
    L = 'O' ∨ L = 'o'

/-- The letters an order string of `parse_hms` is made of. -/
def HMSLetter (L : Char) : Prop := L = 'H' ∨ L = 'M' ∨ L = 'S'

/-- The cell of a result triple (hour, minute, second) that belongs to a letter. -/
def slotOf (L : Char) (r : Slot × Slot × Slot) : Slot :=
  if L = 'H' then r.1 else if L = 'M' then r.2.1 else r.2.2

/-- The cell of the state of `parse_hms` that belongs to a letter. -/
def HSt.slot (st : HSt) (L : Char) : Slot :=
  if L = 'H' then st.dH else if L = 'M' then st.dM else st.dS

/-- The accumulator (`H`, `M` or `S`) of a letter still has its initial value 0. -/
def HSt.fresh (st : HSt) (L : Char) : Prop :=
  if L = 'H' then st.H = 0 else if L = 'M' then st.M = 0 else st.S = 0

/-- The letters that a complete scan of a format (strict mode, `true`) or order string
(`false`) hands to the `switch`: in strict mode the character after each `%` (after `%O`
when the `O` prefix is present), other characters being literals; in order mode every
character (the one after `O` when the prefix is present).  The string ends at its first
NUL. -/
def fieldLetters : Bool → List Char → List Char
  | _, [] => []
  | true, c :: rest =>
    if c = NUL then []
    else if c ≠ '%' then fieldLetters true rest
    else
      match rest with
      | [] => []
      | L :: rest2 =>
        if L = NUL then []
        else if L = 'O' then
          match rest2 with
          | [] => []
          | L2 :: rest3 => if L2 = NUL then [] else L2 :: fieldLetters true rest3
        else L :: fieldLetters true rest2
  | false, c :: rest =>
    if c = NUL then []
    else if c = 'O' then
      match rest with
      | [] => []
      | L :: rest2 => if L = NUL then [] else L :: fieldLetters false rest2
    else c :: fieldLetters false rest
/-! ## Facts about the rounding of `double` arithmetic -/

theorem roundHalfEven_intCast (k : Int) : roundHalfEven (k : ℚ) = k := by
  simp [roundHalfEven]

theorem roundHalfEven_near (q : ℚ) (m : Int) (h : |q - m| < 1 / 2) : roundHalfEven q = m := by
  have h1 := (abs_lt.mp h).1
  have h2 := (abs_lt.mp h).2
  unfold roundHalfEven
  simp only []
  by_cases hq : (m : ℚ) ≤ q
  · have hf : ⌊q⌋ = m := by
      rw [Int.floor_eq_iff]
      constructor
      · exact hq
      · linarith
    rw [hf, if_pos (by linarith)]
  · have hq2 : q < m := lt_of_not_le hq
    have hf : ⌊q⌋ = m - 1 := by
      rw [Int.floor_eq_iff]
      push_cast
      constructor <;> linarith
    rw [hf]
    push_cast
    rw [if_neg (by linarith), if_pos (by linarith)]
    ring

theorem roundHalfEven_tie_up (m : Int) (hm : m % 2 = 0) :
    roundHalfEven ((m : ℚ) - 1 / 2) = m := by
  have hf : ⌊(m : ℚ) - 1 / 2⌋ = m - 1 := by
    rw [Int.floor_eq_iff]
    push_cast
    constructor <;> linarith
  unfold roundHalfEven
  simp only [hf]
  push_cast
  have hr : (m : ℚ) - 1 / 2 - ((m : ℚ) - 1) = 1 / 2 := by ring
  rw [hr, if_neg (lt_irrefl _), if_neg (lt_irrefl _), if_neg (by omega)]
  ring

theorem roundHalfEven_tie_down (m : Int) (hm : m % 2 = 0) :
    roundHalfEven ((m : ℚ) + 1 / 2) = m := by
  have hf : ⌊(m : ℚ) + 1 / 2⌋ = m := by
    rw [Int.floor_eq_iff]
    constructor <;> linarith
  unfold roundHalfEven
  simp only [hf]
  have hr : (m : ℚ) + 1 / 2 - (m : ℚ) = 1 / 2 := by ring
  rw [hr, if_neg (lt_irrefl _), if_neg (lt_irrefl _), if_pos hm]

/-- The binary exponent of a non-zero rational. -/
theorem log2_eq (x : ℚ) (e : Int) (h1 : (2 : ℚ) ^ e ≤ |x|) (h2 : |x| < (2 : ℚ) ^ (e + 1)) :
    Int.log 2 |x| = e := by
  have hpos : 0 < |x| := lt_of_lt_of_le (by positivity) h1
  have hb : 1 < (2 : ℕ) := by norm_num
  have hc : ((2 : ℕ) : ℚ) = 2 := by norm_num
  apply le_antisymm
  · have := (Int.lt_zpow_iff_log_lt (R := ℚ) hb hpos).mp (by rw [hc]; exact h2)
    omega
  · exact (Int.zpow_le_iff_le_log (R := ℚ) hb hpos).mp (by rw [hc]; exact h1)

theorem roundDouble_eval (x : ℚ) (e m : Int) (he : -1022 ≤ e) (h1 : (2 : ℚ) ^ e ≤ |x|)
    (h2 : |x| < (2 : ℚ) ^ (e + 1)) (hm : roundHalfEven (x / 2 ^ (e - 52)) = m) :
    roundDouble x = (m : ℚ) * 2 ^ (e - 52) := by
  have hpos : 0 < |x| := lt_of_lt_of_le (by positivity) h1
  have hx : x ≠ 0 := abs_pos.mp hpos
  unfold roundDouble
  rw [if_neg hx]
  simp only [log2_eq x e h1 h2, max_eq_left he, hm]

/-- A rational `k * 2^j` with `|k| < 2^53` and `j ≥ -1074` is a double. -/
theorem roundDouble_repr (k j : Int) (hk : |k| < 2 ^ 53) (hj : -1074 ≤ j) :
    roundDouble ((k : ℚ) * 2 ^ j) = (k : ℚ) * 2 ^ j := by
  by_cases hk0 : k = 0
  · subst hk0
    simp [roundDouble]
  have h2j : (0 : ℚ) < 2 ^ j := by positivity
  have hx : (k : ℚ) * 2 ^ j ≠ 0 := by
    have : (k : ℚ) ≠ 0 := by exact_mod_cast hk0
    exact mul_ne_zero this (ne_of_gt h2j)
  have hpos : 0 < |(k : ℚ) * 2 ^ j| := abs_pos.mpr hx
  have hb : 1 < (2 : ℕ) := by norm_num
  have hc : ((2 : ℕ) : ℚ) = 2 := by norm_num
  have hlt : |(k : ℚ) * 2 ^ j| < (2 : ℚ) ^ (j + 53) := by
    rw [abs_mul, abs_of_pos h2j, zpow_add₀ (by norm_num : (2 : ℚ) ≠ 0), mul_comm]
    apply mul_lt_mul_of_pos_left _ h2j
    have : ((|k| : Int) : ℚ) < ((2 ^ 53 : Int) : ℚ) := by exact_mod_cast hk
    rw [Int.cast_abs] at this
    calc |(k : ℚ)| < ((2 ^ 53 : Int) : ℚ) := this
      _ = (2 : ℚ) ^ (53 : Int) := by norm_num
  have hlog : Int.log 2 |(k : ℚ) * 2 ^ j| < j + 53 :=
    (Int.lt_zpow_iff_log_lt (R := ℚ) hb hpos).mp (by rw [hc]; exact hlt)
  unfold roundDouble
  rw [if_neg hx]
  simp only []
  generalize he : max (Int.log 2 |(k : ℚ) * 2 ^ j|) (-1022) = e
  have hele : e ≤ j + 52 := by
    rw [← he]
    apply max_le <;> omega
  obtain ⟨n, hn⟩ : ∃ n : ℕ, (n : Int) = j + 52 - e := ⟨(j + 52 - e).toNat, by omega⟩
  have hdiv : (k : ℚ) * 2 ^ j / 2 ^ (e - 52) = ((k * 2 ^ n : Int) : ℚ) := by
    have hj2 : j = (n : Int) + (e - 52) := by omega
    rw [hj2, zpow_add₀ (by norm_num : (2 : ℚ) ≠ 0), zpow_natCast]
    have : (0 : ℚ) < 2 ^ (e - 52) := by positivity
    field_simp
    ring
  rw [hdiv, roundHalfEven_intCast]
  have hj2 : j = (n : Int) + (e - 52) := by omega
  conv_rhs => rw [hj2, zpow_add₀ (by norm_num : (2 : ℚ) ≠ 0), zpow_natCast]
  push_cast
  ring

theorem roundDouble_int (n : Int) (h : |n| < 2 ^ 53) : roundDouble (n : ℚ) = n := by
  have := roundDouble_repr n 0 h (by norm_num)
  simpa using this

theorem dadd_int (a b : Int) (h : |a + b| < 2 ^ 53) :
    dadd (a : ℚ) (b : ℚ) = ((a + b : Int) : ℚ) := by
  unfold dadd
  rw [← Int.cast_add, roundDouble_int _ h]

theorem dmul_int (a b : Int) (h : |a * b| < 2 ^ 53) :
    dmul (a : ℚ) (b : ℚ) = ((a * b : Int) : ℚ) := by
  unfold dmul
  rw [← Int.cast_mul, roundDouble_int _ h]

theorem tenth_eq : tenth = 3602879701896397 / 36028797018963968 := by
  unfold tenth
  rw [roundDouble_eval (1 / 10) (-4) 7205759403792794 (by norm_num) (by norm_num [abs_of_pos])
    (by norm_num [abs_of_pos])
    (roundHalfEven_near _ _ (by norm_num [abs_lt]))]
  norm_num

/-! ## Basic facts about characters, digits and the scanning loop -/

theorem DIGIT_digitChar (k : Nat) (h : k < 10) : DIGIT (digitChar k) = true := by
  interval_cases k <;> rfl

theorem digitVal_digitChar (k : Nat) (h : k < 10) : digitVal (digitChar k) = (k : Int) := by
  interval_cases k <;> rfl

theorem wrap32_eq (x : Int) (h1 : -2147483648 ≤ x) (h2 : x < 2147483648) : wrap32 x = x := by
  unfold wrap32; omega

theorem PARSENUM_digit (n k : Nat) (hk : k < 10) (x : Int) (hx1 : 0 ≤ x) (hx2 : x ≤ 100000000)
    (rest : List Char) :
    PARSENUM (n + 1) x (digitChar k :: rest) = PARSENUM n (x * 10 + k) rest := by
  simp only [PARSENUM, DIGIT_digitChar _ hk, digitVal_digitChar _ hk, if_true]
  rw [wrap32_eq _ (by omega) (by omega)]

theorem PARSENUM_pad2 (n : Nat) (h : n ≤ 99) (x : Int) (hx1 : 0 ≤ x) (hx2 : x ≤ 100000)
    (rest : List Char) : PARSENUM 2 x (pad2 n ++ rest) = (x * 100 + n, rest) := by
  have h1 : n / 10 % 10 < 10 := Nat.mod_lt _ (by norm_num)
  have h2 : n % 10 < 10 := Nat.mod_lt _ (by norm_num)
  simp only [pad2, List.cons_append, List.nil_append]
  rw [PARSENUM_digit _ _ h1 _ (by omega) (by omega), PARSENUM_digit _ _ h2 _ (by omega) (by omega)]
  simp only [PARSENUM]
  congr 1
  omega

theorem PARSENUM_pad4 (n : Nat) (h : n ≤ 9999) (rest : List Char) :
    PARSENUM 4 0 (pad4 n ++ rest) = ((n : Int), rest) := by
  have h1 : n / 1000 % 10 < 10 := Nat.mod_lt _ (by norm_num)
  have h2 : n / 100 % 10 < 10 := Nat.mod_lt _ (by norm_num)
  have h3 : n / 10 % 10 < 10 := Nat.mod_lt _ (by norm_num)
  have h4 : n % 10 < 10 := Nat.mod_lt _ (by norm_num)
  simp only [pad4, List.cons_append, List.nil_append]
  rw [PARSENUM_digit _ _ h1 _ (by omega) (by omega), PARSENUM_digit _ _ h2 _ (by omega) (by omega),
    PARSENUM_digit _ _ h3 _ (by omega) (by omega), PARSENUM_digit _ _ h4 _ (by omega) (by omega)]
  simp only [PARSENUM]
  congr 1
  omega

theorem cur_pad2 (n : Nat) (rest : List Char) : cur (pad2 n ++ rest) = digitChar (n / 10 % 10) := rfl
theorem cur_pad4 (n : Nat) (rest : List Char) : cur (pad4 n ++ rest) = digitChar (n / 1000 % 10) := rfl

theorem DIGIT_cur_pad2 (n : Nat) (rest : List Char) : DIGIT (cur (pad2 n ++ rest)) = true := by
  rw [cur_pad2]; exact DIGIT_digitChar _ (Nat.mod_lt _ (by norm_num))

theorem DIGIT_cur_pad4 (n : Nat) (rest : List Char) : DIGIT (cur (pad4 n ++ rest)) = true := by
  rw [cur_pad4]; exact DIGIT_digitChar _ (Nat.mod_lt _ (by norm_num))

@[simp] theorem cur_cons (a : Char) (l : List Char) : cur (a :: l) = a := rfl
@[simp] theorem cur_nil : cur [] = NUL := rfl

/-- literal match in strict mode -/
theorem scan_lit (n : Nat) (oc : Char) (h1 : oc ≠ '%') (h0 : oc ≠ NUL) (cr or : List Char)
    (y m d H M S : Int) (secs : ℚ) :
    scan true (n + 1) ⟨oc :: cr, oc :: or, y, m, d, H, M, S, true, secs⟩
      = scan true n ⟨cr, or, y, m, d, H, M, S, true, secs⟩ := by
  simp [scan, body, h1, h0]

theorem scan_field (n : Nat) (L : Char) (hL : L ≠ 'O') (c or : List Char)
    (hc : DIGIT (cur c) = true ∨ L = 'z')
    (y m d H M S : Int) (secs : ℚ) :
    scan true (n + 1) ⟨c, '%' :: L :: or, y, m, d, H, M, S, true, secs⟩
      = match field true false L ⟨c, L :: or, y, m, d, H, M, S, true, secs⟩ with
        | .error e => .error e
        | .ok st2 => scan true n { st2 with o := st2.o.tail } := by
  have hp : ('%' : Char) ≠ NUL := by decide
  have hLb : (L == 'O') = false := by simpa using hL
  rcases hc with hc | hc
  · cases hf : field true false L ⟨c, L :: or, y, m, d, H, M, S, true, secs⟩ <;>
      simp [scan, body, hLb, hp, hc, hf]
  · subst hc
    cases hf : field true false 'z' ⟨c, 'z' :: or, y, m, d, H, M, S, true, secs⟩ <;>
      simp [scan, body, hp, hf]

theorem scan_done (is_fmt : Bool) (n : Nat) (c : List Char) (y m d H M S : Int) (b : Bool) (secs : ℚ) :
    scan is_fmt n ⟨c, [], y, m, d, H, M, S, b, secs⟩ = .ok ⟨c, [], y, m, d, H, M, S, b, secs⟩ := by
  cases n <;> simp [scan]

theorem scan_failed (is_fmt : Bool) (n : Nat) (c o : List Char) (y m d H M S : Int) (secs : ℚ) :
    scan is_fmt n ⟨c, o, y, m, d, H, M, S, false, secs⟩ = .ok ⟨c, o, y, m, d, H, M, S, false, secs⟩ := by
  cases n <;> simp [scan]

theorem scan_Y (n Y : Nat) (hY : Y ≤ 9999) (cr or : List Char) (m d H M S : Int) (secs : ℚ) :
    scan true (n + 1) ⟨pad4 Y ++ cr, '%' :: 'Y' :: or, 0, m, d, H, M, S, true, secs⟩
      = scan true n ⟨cr, or, Y, m, d, H, M, S, true, secs⟩ := by
  rw [scan_field _ _ (by decide) _ _ (Or.inl (DIGIT_cur_pad4 _ _))]
  simp [field, field_Y, PARSENUM_pad4 _ hY]

theorem scan_m (n k : Nat) (hk : 1 ≤ k ∧ k ≤ 12) (cr or : List Char) (y d H M S : Int) (secs : ℚ) :
    scan true (n + 1) ⟨pad2 k ++ cr, '%' :: 'm' :: or, y, 0, d, H, M, S, true, secs⟩
      = scan true n ⟨cr, or, y, k, d, H, M, S, true, dadd secs ((sm.getD k 0 : Int) : ℚ)⟩ := by
  rw [scan_field _ _ (by decide) _ _ (Or.inl (DIGIT_cur_pad2 _ _))]
  have h1 : (0 : Int) < k := by omega
  have h2 : (k : Int) < 13 := by omega
  simp [field, field_m, PARSENUM_pad2 _ (by omega : k ≤ 99), h1, h2]

theorem scan_d (n k : Nat) (hk : 1 ≤ k ∧ k ≤ 31) (cr or : List Char) (y m H M S : Int) (secs : ℚ) :
    scan true (n + 1) ⟨pad2 k ++ cr, '%' :: 'd' :: or, y, m, 0, H, M, S, true, secs⟩
      = scan true n ⟨cr, or, y, m, k, H, M, S, true, dadd secs ((((k : Int) - 1) * 86400 : Int) : ℚ)⟩ := by
  rw [scan_field _ _ (by decide) _ _ (Or.inl (DIGIT_cur_pad2 _ _))]
  have h1 : (0 : Int) < k := by omega
  have h2 : (k : Int) < 32 := by omega
  simp [field, field_d, PARSENUM_pad2 _ (by omega : k ≤ 99), h1, h2]

theorem scan_H (n k : Nat) (hk : k ≤ 24) (cr or : List Char) (y m d M S : Int) (secs : ℚ) :
    scan true (n + 1) ⟨pad2 k ++ cr, '%' :: 'H' :: or, y, m, d, 0, M, S, true, secs⟩
      = scan true n ⟨cr, or, y, m, d, k, M, S, true, dadd secs (((k : Int) * 3600 : Int) : ℚ)⟩ := by
  rw [scan_field _ _ (by decide) _ _ (Or.inl (DIGIT_cur_pad2 _ _))]
  have h2 : (k : Int) < 25 := by omega
  simp [field, field_H, PARSENUM_pad2 _ (by omega : k ≤ 99), h2]

theorem scan_M (n k : Nat) (hk : k ≤ 60) (cr or : List Char) (y m d H S : Int) (secs : ℚ) :
    scan true (n + 1) ⟨pad2 k ++ cr, '%' :: 'M' :: or, y, m, d, H, 0, S, true, secs⟩
      = scan true n ⟨cr, or, y, m, d, H, k, S, true, dadd secs (((k : Int) * 60 : Int) : ℚ)⟩ := by
  rw [scan_field _ _ (by decide) _ _ (Or.inl (DIGIT_cur_pad2 _ _))]
  have h2 : (k : Int) < 61 := by omega
  simp [field, field_M, PARSENUM_pad2 _ (by omega : k ≤ 99), h2]

theorem scan_S (n k : Nat) (hk : k ≤ 61) (cr or : List Char) (y m d H M : Int) (secs : ℚ) :
    scan true (n + 1) ⟨pad2 k ++ cr, '%' :: 'S' :: or, y, m, d, H, M, 0, true, secs⟩
      = scan true n ⟨cr, or, y, m, d, H, M, k, true, dadd secs (((k : Int) : Int) : ℚ)⟩ := by
  rw [scan_field _ _ (by decide) _ _ (Or.inl (DIGIT_cur_pad2 _ _))]
  have h2 : (k : Int) < 62 := by omega
  simp [field, field_S, PARSENUM_pad2 _ (by omega : k ≤ 99), h2]

/-! ## Calendar arithmetic -/

theorem daysBeforeYear_closed (Y : Nat) :
    (daysBeforeYear Y : Int) = 365 * Y + ((Y : Int) + 3) / 4 - ((Y : Int) + 99) / 100 + ((Y : Int) + 399) / 400 := by
  induction Y with
  | zero => simp [daysBeforeYear]
  | succ n ih =>
    simp only [daysBeforeYear, daysInYear, isLeapYear]
    push_cast
    rw [ih]
    by_cases h4 : n % 4 = 0 <;> by_cases h100 : n % 100 = 0 <;> by_cases h400 : n % 400 = 0 <;>
      simp [h4, h100, h400] <;> omega

theorem leapOf_nat (Y : Nat) : leapOf (Y : Int) = isLeapYear Y := by
  have h0 : (0 : Int) ≤ Y := by omega
  simp only [leapOf, isLeapYear, Int.tmod_eq_emod h0 (by norm_num : (0:Int) ≤ 4),
    Int.tmod_eq_emod h0 (by norm_num : (0:Int) ≤ 100), Int.tmod_eq_emod h0 (by norm_num : (0:Int) ≤ 400)]
  by_cases h4 : Y % 4 = 0 <;> by_cases h100 : Y % 100 = 0 <;> by_cases h400 : Y % 400 = 0 <;>
    simp [h4, h100, h400] <;> omega

theorem tdiv_nonneg_lit (y b : Int) (hy : 0 ≤ y) (hb : 0 ≤ b) : Int.tdiv y b = y / b :=
  Int.tdiv_eq_ediv hy hb

theorem tdiv_neg_lit (y b : Int) (hy : y < 0) (hb : 0 ≤ b) : Int.tdiv y b = -((-y) / b) := by
  have h : y = -(-y) := by omega
  rw [h, Int.neg_tdiv, Int.tdiv_eq_ediv (by omega) hb]
  simp

theorem leapDays_nonneg (Yi : Int) (h0 : 2000 ≤ Yi) (hY : Yi ≤ 9999) :
    (Yi - 2000) / 4 + 1 + (if Yi - 2000 > 99 then (Yi - 2000) / 400 - (Yi - 2000) / 100 else 0)
      = (Yi + 3) / 4 - (Yi + 99) / 100 + (Yi + 399) / 400 - 485
        + (if Yi % 4 = 0 ∧ (Yi % 100 ≠ 0 ∨ Yi % 400 = 0) then 1 else 0) := by
  have e1 : (Yi - 2000) / 4 = Yi / 4 - 500 := by omega
  have e2 : (Yi - 2000) / 100 = Yi / 100 - 20 := by omega
  have e3 : (Yi - 2000) / 400 = Yi / 400 - 5 := by omega
  have e7 : (Yi + 3) / 4 = Yi / 4 + (if Yi % 4 = 0 then 0 else 1) := by split_ifs <;> omega
  have e8 : (Yi + 99) / 100 = Yi / 100 + (if Yi % 100 = 0 then 0 else 1) := by
    split_ifs <;> omega
  have e9 : (Yi + 399) / 400 = Yi / 400 + (if Yi % 400 = 0 then 0 else 1) := by
    split_ifs <;> omega
  rw [e1, e2, e3, e7, e8, e9]
  by_cases h4 : Yi % 4 = 0 <;> by_cases h100 : Yi % 100 = 0 <;> by_cases h400 : Yi % 400 = 0 <;>
    by_cases h99 : Yi - 2000 > 99 <;>
    simp only [h4, h100, h400, h99, if_true, if_false, true_and, false_and, not_true, not_false_iff,
      or_true, or_false, true_or, false_or, ne_eq] <;> omega

theorem leapDays_neg (Yi : Int) (h0 : 0 ≤ Yi) (hY : Yi < 2000) :
    -(-(Yi - 2000) / 4) + (if Yi - 2000 < -99 then -(-(Yi - 2000) / 400) - -(-(Yi - 2000) / 100) else 0)
      = (Yi + 3) / 4 - (Yi + 99) / 100 + (Yi + 399) / 400 - 485 := by
  have e4 : -(Yi - 2000) / 4 = 500 - (Yi + 3) / 4 := by omega
  have e5 : -(Yi - 2000) / 100 = 20 - (Yi + 99) / 100 := by omega
  have e6 : -(Yi - 2000) / 400 = 5 - (Yi + 399) / 400 := by omega
  rw [e4, e5, e6]
  by_cases h99 : Yi - 2000 < -99 <;> simp only [h99, if_true, if_false] <;> omega

theorem yearSecs_int (Yi D m : Int) (L : Bool) (h0 : 0 ≤ Yi) (hY : Yi ≤ 9999)
    (hc : D = 365 * Yi + (Yi + 3) / 4 - (Yi + 99) / 100 + (Yi + 399) / 400)
    (hl : leapOf Yi = L)
    (hleap : L = true ↔ (Yi % 4 = 0 ∧ (Yi % 100 ≠ 0 ∨ Yi % 400 = 0))) :
    yearSecs Yi m = ((86400 * (D - 730485 + (if L = true ∧ 3 ≤ m then 1 else 0)) : Int) : ℚ) := by
  simp only [yearSecs, hl, daylen, yearlen]
  rw [wrap32_eq (Yi - 2000) (by omega) (by omega)]
  by_cases hy : Yi - 2000 ≥ 0
  · rw [tdiv_nonneg_lit _ 4 hy (by norm_num), tdiv_nonneg_lit _ 400 hy (by norm_num),
      tdiv_nonneg_lit _ 100 hy (by norm_num)]
    rw [wrap32_eq ((Yi - 2000) / 4 * 86400) (by omega) (by omega),
      wrap32_eq ((Yi - 2000) / 4 * 86400 + 86400) (by omega) (by omega),
      wrap32_eq ((Yi - 2000) / 400 - (Yi - 2000) / 100) (by omega) (by omega),
      wrap32_eq (((Yi - 2000) / 400 - (Yi - 2000) / 100) * 86400) (by omega) (by omega)]
    have key := congrArg (Int.cast : Int → ℚ) (leapDays_nonneg Yi (by omega) hY)
    simp only [hy, if_true, hleap, hc]
    push_cast at key ⊢
    split_ifs at key ⊢ <;> first | (exfalso; omega) | linear_combination 86400 * key
  · have hy2 : Yi - 2000 < 0 := by omega
    rw [tdiv_neg_lit _ 4 hy2 (by norm_num), tdiv_neg_lit _ 400 hy2 (by norm_num),
      tdiv_neg_lit _ 100 hy2 (by norm_num)]
    rw [wrap32_eq (-(-(Yi - 2000) / 4) * 86400) (by omega) (by omega),
      wrap32_eq (-(-(Yi - 2000) / 400) - -(-(Yi - 2000) / 100)) (by omega) (by omega),
      wrap32_eq ((-(-(Yi - 2000) / 400) - -(-(Yi - 2000) / 100)) * 86400)
        (by omega) (by omega)]
    have key := congrArg (Int.cast : Int → ℚ) (leapDays_neg Yi h0 (by omega))
    simp only [hy, if_false, hleap, hc]
    push_cast at key ⊢
    split_ifs at key ⊢ <;> first | (exfalso; omega) | linear_combination 86400 * key

theorem yearSecs_eq (Y : Nat) (hY : Y ≤ 9999) (m : Int) :
    yearSecs Y m = ((86400 * ((daysBeforeYear Y : Int) - 730485
      + (if isLeapYear Y = true ∧ 3 ≤ m then 1 else 0)) : Int) : ℚ) := by
  apply yearSecs_int (Y : Int) _ m (isLeapYear Y) (by omega) (by omega)
    (daysBeforeYear_closed Y) (leapOf_nat Y)
  simp only [isLeapYear, Bool.and_eq_true, Bool.or_eq_true, decide_eq_true_eq]
  omega
theorem dsub_int (a b : Int) (h : |a - b| < 2 ^ 53) :
    dsub (a : ℚ) (b : ℚ) = ((a - b : Int) : ℚ) := by
  unfold dsub
  rw [← Int.cast_sub, roundDouble_int _ h]

theorem abs_lt_53 (n : Int) (h1 : -9007199254740992 < n) (h2 : n < 9007199254740992) :
    |n| < 2 ^ 53 := by
  rw [abs_lt]
  constructor <;> norm_num <;> omega

theorem wrap32_range (x : Int) : -2147483648 ≤ wrap32 x ∧ wrap32 x < 2147483648 := by
  unfold wrap32; omega

theorem sm_range (k : Nat) : 0 ≤ sm.getD k 0 ∧ sm.getD k 0 ≤ 31536000 := by
  by_cases hk : k < 14
  · interval_cases k <;> simp [sm]
  · have : sm.getD k 0 = 0 := by
      apply List.getD_eq_default
      simp [sm]; omega
    rw [this]; omega

/-- In the range of the four-digit years, no addition of the year step rounds. -/
theorem yearStep_exact (s : Int) (hs1 : -1000000000000 ≤ s) (hs2 : s ≤ 1000000000000)
    (y0 : Int) (hy1 : 0 ≤ y0) (hy2 : y0 ≤ 9999) (m : Int) :
    ∃ t : Int, yearStep (s : ℚ) y0 m = (t : ℚ) ∧ (t : ℚ) = (s : ℚ) + yearSecs y0 m ∧
      -2000000000000 ≤ t ∧ t ≤ 2000000000000 := by
  have hy : wrap32 (y0 - 2000) = y0 - 2000 := wrap32_eq _ (by omega) (by omega)
  unfold yearStep yearSecs
  simp only [hy]
  have hA1 : -2000 * 31536000 ≤ (y0 - 2000) * yearlen := by unfold yearlen; omega
  have hA2 : (y0 - 2000) * yearlen ≤ 8000 * 31536000 := by unfold yearlen; omega
  generalize hA : (y0 - 2000) * yearlen = A at hA1 hA2
  have hB := wrap32_range (wrap32 (Int.tdiv (y0 - 2000) 4 * daylen) + daylen)
  generalize wrap32 (wrap32 (Int.tdiv (y0 - 2000) 4 * daylen) + daylen) = B at hB
  have hC := wrap32_range (wrap32 (Int.tdiv (y0 - 2000) 400 - Int.tdiv (y0 - 2000) 100) * daylen)
  generalize wrap32 (wrap32 (Int.tdiv (y0 - 2000) 400 - Int.tdiv (y0 - 2000) 100) * daylen) = C
    at hC
  have hD := wrap32_range (Int.tdiv (y0 - 2000) 4 * daylen)
  generalize wrap32 (Int.tdiv (y0 - 2000) 4 * daylen) = D at hD
  have hdl : daylen = 86400 := rfl
  rw [roundDouble_int A (abs_lt_53 _ (by omega) (by omega)),
    dadd_int s A (abs_lt_53 _ (by omega) (by omega))]
  by_cases h0 : y0 - 2000 ≥ 0
  · simp only [h0, if_true]
    rw [dadd_int (s + A) B (abs_lt_53 _ (by omega) (by omega))]
    by_cases h99 : y0 - 2000 > 99
    · simp only [h99, if_true]
      rw [dadd_int (s + A + B) C (abs_lt_53 _ (by omega) (by omega))]
      by_cases hl : leapOf y0 = true ∧ m < 3
      · simp only [hl, and_self, if_true]
        rw [dsub_int (s + A + B + C) daylen (abs_lt_53 _ (by omega) (by omega))]
        exact ⟨_, rfl, by push_cast; ring, by omega, by omega⟩
      · simp only [hl, if_false]
        exact ⟨_, rfl, by push_cast; ring, by omega, by omega⟩
    · simp only [h99, if_false]
      by_cases hl : leapOf y0 = true ∧ m < 3
      · simp only [hl, and_self, if_true]
        rw [dsub_int (s + A + B) daylen (abs_lt_53 _ (by omega) (by omega))]
        exact ⟨_, rfl, by push_cast; ring, by omega, by omega⟩
      · simp only [hl, if_false]
        exact ⟨_, rfl, by push_cast; ring, by omega, by omega⟩
  · simp only [h0, if_false]
    rw [dadd_int (s + A) D (abs_lt_53 _ (by omega) (by omega))]
    by_cases h99 : y0 - 2000 < -99
    · simp only [h99, if_true]
      rw [dadd_int (s + A + D) C (abs_lt_53 _ (by omega) (by omega))]
      by_cases hl : leapOf y0 = true ∧ m > 2
      · simp only [hl, and_self, if_true]
        rw [dadd_int (s + A + D + C) daylen (abs_lt_53 _ (by omega) (by omega))]
        exact ⟨_, rfl, by push_cast; ring, by omega, by omega⟩
      · simp only [hl, if_false]
        exact ⟨_, rfl, by push_cast; ring, by omega, by omega⟩
    · simp only [h99, if_false]
      by_cases hl : leapOf y0 = true ∧ m > 2
      · simp only [hl, and_self, if_true]
        rw [dadd_int (s + A + D) daylen (abs_lt_53 _ (by omega) (by omega))]
        exact ⟨_, rfl, by push_cast; ring, by omega, by omega⟩
      · simp only [hl, if_false]
        exact ⟨_, rfl, by push_cast; ring, by omega, by omega⟩

/-- The result of an entry whose scan ended with both cursors exhausted, for an integral
accumulator and a four-digit year: no addition rounds. -/
theorem finish_done (is_fmt : Bool) (y m d H M S : Int) (s : Int) (hs1 : -1000000000000 ≤ s)
    (hs2 : s ≤ 1000000000000) (hy1 : 0 ≤ y) (hy2 : y ≤ 9999) :
    finish is_fmt ⟨[], [], y, m, d, H, M, S, true, (s : ℚ)⟩
      = if checkMonth y m d then some ((s : ℚ) + yearSecs y m + (d30 : ℚ)) else none := by
  obtain ⟨t, h1, h2, h3, h4⟩ := yearStep_exact s hs1 hs2 y hy1 hy2 m
  have hd : d30 = 946684800 := rfl
  have h5 : dadd (yearStep (s : ℚ) y m) (d30 : ℚ) = (s : ℚ) + yearSecs y m + (d30 : ℚ) := by
    rw [h1, dadd_int t d30 (abs_lt_53 _ (by omega) (by omega)), ← h2]
    push_cast; ring
  cases is_fmt <;> simp [finish, skipNonDigits, h5]

theorem dadd_zero_small (a : Int) (h1 : -9007199254740992 < a) (h2 : a < 9007199254740992) :
    dadd 0 (a : ℚ) = (a : ℚ) := by
  have h := dadd_int 0 a (abs_lt_53 _ (by omega) (by omega))
  simpa using h

theorem dadd_small (a b : Int) (h1 : -9007199254740992 < a + b)
    (h2 : a + b < 9007199254740992) : dadd (a : ℚ) (b : ℚ) = ((a + b : Int) : ℚ) :=
  dadd_int a b (abs_lt_53 _ h1 h2)

theorem dadd_small_zero (a : Int) (h1 : -9007199254740992 < a) (h2 : a < 9007199254740992) :
    dadd (a : ℚ) 0 = (a : ℚ) := by
  have h := dadd_int a 0 (abs_lt_53 _ (by omega) (by omega))
  simpa using h

theorem daysBeforeYear_1970 : (daysBeforeYear 1970 : Int) = 719528 := by
  rw [daysBeforeYear_closed]; norm_num

theorem month_secs (Y m : Nat) (hm : 1 ≤ m ∧ m ≤ 12) :
    sm.getD m 0 + 86400 * (if isLeapYear Y = true ∧ 3 ≤ (m : Int) then 1 else 0)
      = 86400 * (daysBeforeMonth Y m : Int) := by
  obtain ⟨h1, h2⟩ := hm
  interval_cases m <;> cases hL : isLeapYear Y <;>
    simp [sm, daysBeforeMonth, daysInMonth, hL]

theorem checkMonth_eq (Y m d : Nat) (hm : 1 ≤ m ∧ m ≤ 12) :
    checkMonth (Y : Int) (m : Int) (d : Int) = decide (d ≤ daysInMonth Y m) := by
  obtain ⟨h1, h2⟩ := hm
  interval_cases m <;> cases hL : isLeapYear Y <;>
    simp [checkMonth, mdays, daysInMonth, hL, leapOf_nat] <;> omega

theorem dateText_append (Y m d : Nat) (t : List Char) :
    dateText Y m d ++ t = pad4 Y ++ ('-' :: (pad2 m ++ ('-' :: (pad2 d ++ t)))) := by
  simp [dateText, List.append_assoc]

theorem timeText_append (H M S : Nat) (t : List Char) :
    timeText H M S ++ t = pad2 H ++ (':' :: (pad2 M ++ (':' :: (pad2 S ++ t)))) := by
  simp [timeText, List.append_assoc]

theorem fmt_dt : "%Y-%m-%d %H:%M:%S".toList =
    ['%', 'Y', '-', '%', 'm', '-', '%', 'd', ' ', '%', 'H', ':', '%', 'M', ':', '%', 'S'] := rfl

theorem scan_dt (Y m d H M S : Nat) (hY : Y ≤ 9999) (hm : 1 ≤ m ∧ m ≤ 12) (hd : 1 ≤ d ∧ d ≤ 31)
    (hH : H ≤ 24) (hM : M ≤ 60) (hS : S ≤ 61) :
    scan true 17 (St.init (dateTimeText Y m d H M S) "%Y-%m-%d %H:%M:%S".toList)
      = .ok ⟨[], [], Y, m, d, H, M, S, true,
          ((sm.getD m 0 + ((d : Int) - 1) * 86400 + (H : Int) * 3600 + (M : Int) * 60
            + (S : Int) : Int) : ℚ)⟩ := by
  rw [fmt_dt, dateTimeText, St.init, dateText_append, ← List.append_nil (timeText H M S),
    timeText_append]
  rw [scan_Y _ _ hY, scan_lit _ _ (by decide) (by decide), scan_m _ _ hm,
    scan_lit _ _ (by decide) (by decide), scan_d _ _ hd, scan_lit _ _ (by decide) (by decide),
    scan_H _ _ hH, scan_lit _ _ (by decide) (by decide), scan_M _ _ hM,
    scan_lit _ _ (by decide) (by decide), scan_S _ _ hS, scan_done]
  have hsm := sm_range m
  rw [dadd_zero_small _ (by omega) (by omega), dadd_small _ _ (by omega) (by omega),
    dadd_small _ _ (by omega) (by omega), dadd_small _ _ (by omega) (by omega),
    dadd_small _ _ (by omega) (by omega)]

theorem C1_strict_datetime_exact (Y m d H M S : Nat) (hY : Y ≤ 9999) (hm : 1 ≤ m ∧ m ≤ 12)
    (hd : 1 ≤ d ∧ d ≤ daysInMonth Y m) (hH : H ≤ 23) (hM : M ≤ 59) (hS : S ≤ 59) :
    parse_dt [dateTimeText Y m d H M S] "%Y-%m-%d %H:%M:%S".toList true
      = .ok [some (((86400 * daysFromEpoch Y m d + 3600 * H + 60 * M + S : Int)) : ℚ)] := by
  have hd31 : d ≤ 31 := by
    have : daysInMonth Y m ≤ 31 := by
      unfold daysInMonth; split_ifs <;> omega
    omega
  have hs := scan_dt Y m d H M S hY hm ⟨hd.1, hd31⟩ (by omega) (by omega) (by omega)
  have hlen : "%Y-%m-%d %H:%M:%S".toList.length = 17 := rfl
  have hsm := sm_range m
  have hfin := finish_done true Y m d H M S
    (sm.getD m 0 + ((d : Int) - 1) * 86400 + (H : Int) * 3600 + (M : Int) * 60 + (S : Int))
    (by omega) (by omega) (by omega) (by omega)
  simp only [parse_dt, parse_dt_entry, hlen, hs, hfin, checkMonth_eq Y m d hm, hd.2,
    decide_True, if_true]
  refine congrArg (fun q => Except.ok [some q]) ?_
  rw [yearSecs_eq Y hY]
  have hms := congrArg (Int.cast : Int → ℚ) (month_secs Y m hm)
  have h1970 : ((daysBeforeYear 1970 : Nat) : ℚ) = 719528 := by
    exact_mod_cast daysBeforeYear_1970
  simp only [daysFromEpoch, d30]
  push_cast at hms ⊢
  rw [h1970]
  linear_combination hms

theorem C1_witness :
    parse_dt [dateTimeText 2013 4 16 4 59 59] "%Y-%m-%d %H:%M:%S".toList true
      = .ok [some (((86400 * daysFromEpoch 2013 4 16 + 3600 * (4 : Nat) + 60 * (59 : Nat) + (59 : Nat) : Int)) : ℚ)] :=
  C1_strict_datetime_exact 2013 4 16 4 59 59 (by decide) (by decide) (by decide) (by decide)
    (by decide) (by decide)

theorem fmt_date : "%Y-%m-%d".toList = ['%', 'Y', '-', '%', 'm', '-', '%', 'd'] := rfl

theorem fmt_date2 : "%y-%m-%d".toList = ['%', 'y', '-', '%', 'm', '-', '%', 'd'] := rfl

/-- Seconds contributed by year and month, against the day-by-day count. -/
theorem epoch_secs (Y m : Nat) (hY : Y ≤ 9999) (hm : 1 ≤ m ∧ m ≤ 12) :
    ((sm.getD m 0 : Int) : ℚ) + yearSecs Y m + (d30 : ℚ)
      = 86400 * ((daysBeforeYear Y : ℚ) + (daysBeforeMonth Y m : ℚ) - 719528) := by
  rw [yearSecs_eq Y hY]
  have hms := congrArg (Int.cast : Int → ℚ) (month_secs Y m hm)
  simp only [d30]
  push_cast at hms ⊢
  linear_combination hms

theorem daysFromEpoch_cast (Y m d : Nat) :
    ((daysFromEpoch Y m d : Int) : ℚ)
      = (daysBeforeYear Y : ℚ) + (daysBeforeMonth Y m : ℚ) + (d : ℚ) - 1 - 719528 := by
  have h1970 : ((daysBeforeYear 1970 : Nat) : ℚ) = 719528 := by
    exact_mod_cast daysBeforeYear_1970
  simp only [daysFromEpoch]
  push_cast
  rw [h1970]

/-- The strict scan of `%Y-%m-%d` over `YYYY-mm-dd` followed by any text `t`. -/
theorem scan_date (n Y m d : Nat) (hY : Y ≤ 9999) (hm : 1 ≤ m ∧ m ≤ 12) (hd : 1 ≤ d ∧ d ≤ 31)
    (t : List Char) :
    scan true (n + 5) (St.init (dateText Y m d ++ t) "%Y-%m-%d".toList)
      = .ok ⟨t, [], Y, m, d, 0, 0, 0, true,
          ((sm.getD m 0 + ((d : Int) - 1) * 86400 : Int) : ℚ)⟩ := by
  rw [fmt_date, St.init, dateText_append]
  rw [scan_Y _ _ hY, scan_lit _ _ (by decide) (by decide), scan_m _ _ hm,
    scan_lit _ _ (by decide) (by decide), scan_d _ _ hd, scan_done]
  have hsm := sm_range m
  rw [dadd_zero_small _ (by omega) (by omega), dadd_small _ _ (by omega) (by omega)]

theorem parse_date (Y m d : Nat) (hY : Y ≤ 9999) (hm : 1 ≤ m ∧ m ≤ 12) (hd : 1 ≤ d ∧ d ≤ 31) :
    parse_dt [dateText Y m d] "%Y-%m-%d".toList true
      = .ok [if d ≤ daysInMonth Y m then some ((86400 * daysFromEpoch Y m d : Int) : ℚ)
             else none] := by
  have hs := scan_date 3 Y m d hY hm hd []
  rw [List.append_nil] at hs
  have hlen : "%Y-%m-%d".toList.length = 3 + 5 := rfl
  have hsm := sm_range m
  have hfin := finish_done true Y m d 0 0 0 (sm.getD m 0 + ((d : Int) - 1) * 86400)
    (by omega) (by omega) (by omega) (by omega)
  simp only [parse_dt, parse_dt_entry, hlen, hs, hfin, checkMonth_eq Y m d hm]
  by_cases hle : d ≤ daysInMonth Y m
  · simp only [hle, decide_True, if_true]
    refine congrArg (fun q => Except.ok [some q]) ?_
    have h1 := epoch_secs Y m hY hm
    have h2 := daysFromEpoch_cast Y m d
    push_cast at h1 h2 ⊢
    linear_combination h1 - 86400 * h2
  · simp only [hle, decide_False, if_false, Bool.false_eq_true]

/-- C2: in strict-format mode with format `%Y-%m-%d`, the zero-padded text `YYYY-mm-dd`
(year 0..9999, month 1..12, day 1..31) gets a non-missing value exactly when the day is at
most the number of days of the month in that year (February has 29 days in leap years:
divisible by 4 and not by 100, or divisible by 400); the value is then the epoch second of
the date.  In particular 2000-02-29 and 2096-02-29 parse, 1900-02-29 and 2100-02-29 give
the missing value. -/
theorem C2_day_of_month_leap_years (Y m d : Nat) (hY : Y ≤ 9999) (hm : 1 ≤ m ∧ m ≤ 12)
    (hd : 1 ≤ d ∧ d ≤ 31) :
    ((d ≤ daysInMonth Y m →
        parse_dt [dateText Y m d] "%Y-%m-%d".toList true
          = .ok [some ((86400 * daysFromEpoch Y m d : Int) : ℚ)]) ∧
      (¬ d ≤ daysInMonth Y m →
        parse_dt [dateText Y m d] "%Y-%m-%d".toList true = .ok [none])) ∧
    (∃ v, parse_dt ["2000-02-29".toList] "%Y-%m-%d".toList true = .ok [some v]) ∧
    (∃ v, parse_dt ["2096-02-29".toList] "%Y-%m-%d".toList true = .ok [some v]) ∧
    parse_dt ["1900-02-29".toList] "%Y-%m-%d".toList true = .ok [none] ∧
    parse_dt ["2100-02-29".toList] "%Y-%m-%d".toList true = .ok [none] := by
  refine ⟨⟨fun h => ?_, fun h => ?_⟩, ?_, ?_, ?_, ?_⟩
  · rw [parse_date Y m d hY hm hd, if_pos h]
  · rw [parse_date Y m d hY hm hd, if_neg h]
  · have h := parse_date 2000 2 29 (by decide) (by decide) (by decide)
    rw [if_pos (by decide)] at h
    exact ⟨_, h⟩
  · have h := parse_date 2096 2 29 (by decide) (by decide) (by decide)
    rw [if_pos (by decide)] at h
    exact ⟨_, h⟩
  · have h := parse_date 1900 2 29 (by decide) (by decide) (by decide)
    rw [if_neg (by decide)] at h
    exact h
  · have h := parse_date 2100 2 29 (by decide) (by decide) (by decide)
    rw [if_neg (by decide)] at h
    exact h

theorem C2_witness :
    ((29 ≤ daysInMonth 2000 2 →
        parse_dt [dateText 2000 2 29] "%Y-%m-%d".toList true
          = .ok [some ((86400 * daysFromEpoch 2000 2 29 : Int) : ℚ)]) ∧
      (¬ 29 ≤ daysInMonth 2000 2 →
        parse_dt [dateText 2000 2 29] "%Y-%m-%d".toList true = .ok [none])) ∧
    (∃ v, parse_dt ["2000-02-29".toList] "%Y-%m-%d".toList true = .ok [some v]) ∧
    (∃ v, parse_dt ["2096-02-29".toList] "%Y-%m-%d".toList true = .ok [some v]) ∧
    parse_dt ["1900-02-29".toList] "%Y-%m-%d".toList true = .ok [none] ∧
    parse_dt ["2100-02-29".toList] "%Y-%m-%d".toList true = .ok [none] :=
  C2_day_of_month_leap_years 2000 2 29 (by decide) (by decide) (by decide)

theorem scan_y2 (n k : Nat) (hk : k ≤ 99) (cr or : List Char) (m d H M S : Int) (secs : ℚ) :
    scan true (n + 1) ⟨pad2 k ++ cr, '%' :: 'y' :: or, 0, m, d, H, M, S, true, secs⟩
      = scan true n ⟨cr, or, (pivotYear k : Nat), m, d, H, M, S, true, secs⟩ := by
  rw [scan_field _ _ (by decide) _ _ (Or.inl (DIGIT_cur_pad2 _ _))]
  have h : (if k ≤ 68 then wrap32 ((k : Int) + 2000) else wrap32 ((k : Int) + 1900))
      = ((pivotYear k : Nat) : Int) := by
    unfold pivotYear
    by_cases h68 : k ≤ 68
    · simp only [h68, if_true]
      rw [wrap32_eq _ (by omega) (by omega)]
      push_cast; ring
    · simp only [h68, if_false]
      rw [wrap32_eq _ (by omega) (by omega)]
      push_cast; ring
  simp [field, field_y, PARSENUM_pad2 _ hk, h]

/-- C3: in strict-format mode, format `%y-%m-%d` on `yy-mm-dd` gives the same result (value
or missing) as format `%Y-%m-%d` on `YYYY-mm-dd`, where `YYYY = 2000 + yy` for `yy ≤ 68`
and `1900 + yy` otherwise, for every two-digit year text `yy` (00..99) and all two-digit
month and day texts (`pad2` of any number is a two-digit text, and every such text is one). -/
theorem C3_two_digit_year_pivot (yy mm dd : Nat) (hy : yy ≤ 99) :
    parse_dt [pad2 yy ++ ('-' :: (pad2 mm ++ ('-' :: pad2 dd)))] "%y-%m-%d".toList true
      = parse_dt [dateText (if yy ≤ 68 then 2000 + yy else 1900 + yy) mm dd]
          "%Y-%m-%d".toList true := by
  have hp : pivotYear yy ≤ 9999 := by unfold pivotYear; split_ifs <;> omega
  have hl1 : "%y-%m-%d".toList.length = 7 + 1 := rfl
  have hl2 : "%Y-%m-%d".toList.length = 7 + 1 := rfl
  have e : (if yy ≤ 68 then 2000 + yy else 1900 + yy) = pivotYear yy := rfl
  simp only [parse_dt, parse_dt_entry, hl1, hl2, e]
  rw [fmt_date, fmt_date2, St.init, St.init, dateText, scan_y2 _ _ hy, scan_Y _ _ hp]

theorem C3_witness :
    parse_dt [pad2 69 ++ ('-' :: (pad2 12 ++ ('-' :: pad2 31)))] "%y-%m-%d".toList true
      = parse_dt [dateText (if 69 ≤ 68 then 2000 + 69 else 1900 + 69) 12 31]
          "%Y-%m-%d".toList true :=
  C3_two_digit_year_pivot 69 12 31 (by decide)

/-- A field with the `O` prefix in strict mode: no digit is required before the switch. -/
theorem scan_fieldO (n : Nat) (L : Char) (c or : List Char) (y m d H M S : Int) (secs : ℚ) :
    scan true (n + 1) ⟨c, '%' :: 'O' :: L :: or, y, m, d, H, M, S, true, secs⟩
      = match field true true L ⟨c, L :: or, y, m, d, H, M, S, true, secs⟩ with
        | .error e => .error e
        | .ok st2 => scan true n { st2 with o := st2.o.tail } := by
  have hp : ('%' : Char) ≠ NUL := by decide
  cases hf : field true true L ⟨c, L :: or, y, m, d, H, M, S, true, secs⟩ <;>
    simp [scan, body, hp, hf]

/-- The strict scan of `%H:%M:%S` over `HH:MM:SS`, followed by more format and text. -/
theorem scan_time (n H M S : Nat) (hH : H ≤ 24) (hM : M ≤ 60) (hS : S ≤ 61)
    (t or : List Char) (y m d : Int) (s : Int) (hs1 : -1000000000 ≤ s) (hs2 : s ≤ 1000000000) :
    scan true (n + 5)
        ⟨timeText H M S ++ t, '%' :: 'H' :: ':' :: '%' :: 'M' :: ':' :: '%' :: 'S' :: or,
          y, m, d, 0, 0, 0, true, (s : ℚ)⟩
      = scan true n ⟨t, or, y, m, d, H, M, S, true,
          ((s + (H : Int) * 3600 + (M : Int) * 60 + (S : Int) : Int) : ℚ)⟩ := by
  rw [timeText_append]
  rw [scan_H _ _ hH, scan_lit _ _ (by decide) (by decide), scan_M _ _ hM,
    scan_lit _ _ (by decide) (by decide), scan_S _ _ hS]
  rw [dadd_small _ _ (by omega) (by omega), dadd_small _ _ (by omega) (by omega),
    dadd_small _ _ (by omega) (by omega)]

theorem checkMonth_zero (y : Int) : checkMonth y 0 0 = true := by
  simp [checkMonth, mdays]

/-- The sign factor of an offset: `+` subtracts, `-` adds. -/
theorem field_z_strict (sgn : Char) (hs : sgn = '+' ∨ sgn = '-') (hh mm : Nat) (hh99 : hh ≤ 99)
    (hmm : mm ≤ 99) (t o : List Char) (y m d H M S : Int) (secs : ℚ) :
    field_z true ⟨sgn :: (pad2 hh ++ (':' :: (pad2 mm ++ t))), o, y, m, d, H, M, S, true, secs⟩
      = ⟨t, o, y, m, d, H, M, S, true,
          dadd (dadd secs ((((if sgn = '+' then -1 else 1) * (hh : Int) * 3600 : Int)) : ℚ))
            ((((if sgn = '+' then -1 else 1) * (mm : Int) * 60 : Int)) : ℚ)⟩ := by
  rcases hs with hs | hs <;> subst hs <;>
    simp [field_z, PARSENUM_pad2 _ hh99, PARSENUM_pad2 _ hmm, DIGIT_cur_pad2]

theorem field_O_strict (sgn : Char) (hs : sgn = '+' ∨ sgn = '-') (hh mm : Nat) (hh99 : hh ≤ 99)
    (hmm : mm ≤ 99) (t o : List Char) (y m d H M S : Int) (secs : ℚ) :
    field_O 'O' ⟨sgn :: (pad2 hh ++ (':' :: (pad2 mm ++ t))), o, y, m, d, H, M, S, true, secs⟩
      = ⟨t, o, y, m, d, H, M, S, true,
          dadd (dadd secs ((((if sgn = '+' then -1 else 1) * (hh : Int) * 3600 : Int)) : ℚ))
            ((((if sgn = '+' then -1 else 1) * (mm : Int) * 60 : Int)) : ℚ)⟩ := by
  rcases hs with hs | hs <;> subst hs <;>
    simp [field_O, skipToSign, PARSENUM_pad2 _ hh99, PARSENUM_pad2 _ hmm]

theorem fmt_time_z : "%H:%M:%S%z".toList
    = '%' :: 'H' :: ':' :: '%' :: 'M' :: ':' :: '%' :: 'S' :: ['%', 'z'] := rfl

theorem fmt_time_OO : "%H:%M:%S%OO".toList
    = '%' :: 'H' :: ':' :: '%' :: 'M' :: ':' :: '%' :: 'S' :: ['%', 'O', 'O'] := rfl

/-- Value of a time with offset under `%H:%M:%S%z` (strict mode). -/
theorem parse_time_z (H M S hh mm : Nat) (hH : H ≤ 24) (hM : M ≤ 60) (hS : S ≤ 61)
    (hh99 : hh ≤ 99) (hmm : mm ≤ 99) (sgn : Char) (hs : sgn = '+' ∨ sgn = '-') :
    parse_dt [timeText H M S ++ (sgn :: (pad2 hh ++ (':' :: pad2 mm)))] "%H:%M:%S%z".toList true
      = .ok [some (yearSecs 0 0 + (d30 : ℚ) + (3600 * H + 60 * M + S : ℚ)
          + (if sgn = '+' then -1 else 1) * (3600 * hh + 60 * mm : ℚ))] := by
  have hlen : "%H:%M:%S%z".toList.length = 5 + 5 := rfl
  simp only [parse_dt, parse_dt_entry, hlen]
  rw [fmt_time_z, St.init, ← Int.cast_zero (R := ℚ),
    scan_time _ _ _ _ hH hM hS _ _ _ _ _ 0 (by omega) (by omega), ← List.append_nil (pad2 mm),
    scan_field _ _ (by decide) _ _ (Or.inr rfl)]
  simp only [field, field_z_strict sgn hs hh mm hh99 hmm]
  simp only [Char.reduceEq, if_false, if_true, Bool.not_false, List.tail_cons, scan_done]
  rcases hs with hs | hs <;> subst hs
  · simp only [if_true]
    rw [dadd_small, dadd_small, finish_done]
    · simp only [checkMonth_zero, if_true]
      refine congrArg (fun q => Except.ok [some q]) ?_
      push_cast; ring
    all_goals omega
  · simp only [Char.reduceEq, if_false]
    rw [dadd_small, dadd_small, finish_done]
    · simp only [checkMonth_zero, if_true]
      refine congrArg (fun q => Except.ok [some q]) ?_
      push_cast; ring
    all_goals omega

/-- Value of a time with offset under `%H:%M:%S%OO` (strict mode). -/
theorem parse_time_OO (H M S hh mm : Nat) (hH : H ≤ 24) (hM : M ≤ 60) (hS : S ≤ 61)
    (hh99 : hh ≤ 99) (hmm : mm ≤ 99) (sgn : Char) (hs : sgn = '+' ∨ sgn = '-') :
    parse_dt [timeText H M S ++ (sgn :: (pad2 hh ++ (':' :: pad2 mm)))] "%H:%M:%S%OO".toList true
      = .ok [some (yearSecs 0 0 + (d30 : ℚ) + (3600 * H + 60 * M + S : ℚ)
          + (if sgn = '+' then -1 else 1) * (3600 * hh + 60 * mm : ℚ))] := by
  have hlen : "%H:%M:%S%OO".toList.length = 6 + 5 := rfl
  simp only [parse_dt, parse_dt_entry, hlen]
  rw [fmt_time_OO, St.init, ← Int.cast_zero (R := ℚ),
    scan_time _ _ _ _ hH hM hS _ _ _ _ _ 0 (by omega) (by omega), ← List.append_nil (pad2 mm),
    scan_fieldO]
  simp only [field, field_O_strict sgn hs hh mm hh99 hmm]
  simp only [Char.reduceEq, if_false, if_true, Bool.not_false, List.tail_cons, scan_done, true_or, or_true]
  rcases hs with hs | hs <;> subst hs
  · simp only [if_true]
    rw [dadd_small, dadd_small, finish_done]
    · simp only [checkMonth_zero, if_true]
      refine congrArg (fun q => Except.ok [some q]) ?_
      push_cast; ring
    all_goals omega
  · simp only [Char.reduceEq, if_false]
    rw [dadd_small, dadd_small, finish_done]
    · simp only [checkMonth_zero, if_true]
      refine congrArg (fun q => Except.ok [some q]) ?_
      push_cast; ring
    all_goals omega

/-- C4: offset sign convention.  For a valid zero-padded time `HH:MM:SS` and two-digit
offset texts `hh`, `mm`, in strict mode with format `%H:%M:%S%z` and likewise with
`%H:%M:%S%OO`: the text with `+00:00` has a value `v0`, the text with `+hh:mm` has the value
`v0 - (3600*hh + 60*mm)` and the text with `-hh:mm` has the value `v0 + (3600*hh + 60*mm)`. -/
theorem C4_offset_sign_convention (H M S hh mm : Nat) (hH : H ≤ 23) (hM : M ≤ 59) (hS : S ≤ 59)
    (hh99 : hh ≤ 99) (hmm : mm ≤ 99) (fmt : List Char)
    (hfmt : fmt = "%H:%M:%S%z".toList ∨ fmt = "%H:%M:%S%OO".toList) :
    ∃ v0 : ℚ,
      parse_dt [timeText H M S ++ ('+' :: (pad2 0 ++ (':' :: pad2 0)))] fmt true
        = .ok [some v0] ∧
      parse_dt [timeText H M S ++ ('+' :: (pad2 hh ++ (':' :: pad2 mm)))] fmt true
        = .ok [some (v0 - (3600 * hh + 60 * mm))] ∧
      parse_dt [timeText H M S ++ ('-' :: (pad2 hh ++ (':' :: pad2 mm)))] fmt true
        = .ok [some (v0 + (3600 * hh + 60 * mm))] := by
  refine ⟨yearSecs 0 0 + (d30 : ℚ) + (3600 * H + 60 * M + S : ℚ), ?_, ?_, ?_⟩
  · rcases hfmt with h | h <;> subst h
    · rw [parse_time_z H M S 0 0 (by omega) (by omega) (by omega) (by omega) (by omega) '+'
        (Or.inl rfl)]
      simp
    · rw [parse_time_OO H M S 0 0 (by omega) (by omega) (by omega) (by omega) (by omega) '+'
        (Or.inl rfl)]
      simp
  · rcases hfmt with h | h <;> subst h
    · rw [parse_time_z H M S hh mm (by omega) (by omega) (by omega) hh99 hmm '+' (Or.inl rfl)]
      refine congrArg (fun q => Except.ok [some q]) ?_
      simp; ring
    · rw [parse_time_OO H M S hh mm (by omega) (by omega) (by omega) hh99 hmm '+' (Or.inl rfl)]
      refine congrArg (fun q => Except.ok [some q]) ?_
      simp; ring
  · rcases hfmt with h | h <;> subst h
    · rw [parse_time_z H M S hh mm (by omega) (by omega) (by omega) hh99 hmm '-' (Or.inr rfl)]
      refine congrArg (fun q => Except.ok [some q]) ?_
      simp
    · rw [parse_time_OO H M S hh mm (by omega) (by omega) (by omega) hh99 hmm '-' (Or.inr rfl)]
      refine congrArg (fun q => Except.ok [some q]) ?_
      simp

theorem C4_witness :
    ∃ v0 : ℚ,
      parse_dt [timeText 12 0 0 ++ ('+' :: (pad2 0 ++ (':' :: pad2 0)))] "%H:%M:%S%z".toList true
        = .ok [some v0] ∧
      parse_dt [timeText 12 0 0 ++ ('+' :: (pad2 1 ++ (':' :: pad2 0)))] "%H:%M:%S%z".toList true
        = .ok [some (v0 - (3600 * (1 : Nat) + 60 * (0 : Nat)))] ∧
      parse_dt [timeText 12 0 0 ++ ('-' :: (pad2 1 ++ (':' :: pad2 0)))] "%H:%M:%S%z".toList true
        = .ok [some (v0 + (3600 * (1 : Nat) + 60 * (0 : Nat)))] :=
  C4_offset_sign_convention 12 0 0 1 0 (by decide) (by decide) (by decide) (by decide)
    (by decide) _ (Or.inl rfl)

theorem skipNonDigits_digit (l : List Char) (h : DIGIT (cur l) = true) : skipNonDigits l = l := by
  cases l with
  | nil => rfl
  | cons ch rest =>
    have h' : DIGIT ch = true := h
    simp [skipNonDigits, h']

theorem skipNonDigits_sep (ch : Char) (l : List Char) (h0 : ch ≠ NUL) (hd : DIGIT ch = false) :
    skipNonDigits (ch :: l) = skipNonDigits l := by
  simp [skipNonDigits, h0, hd]

/-- A plain field in order mode: separators are skipped first, then a digit is required. -/
theorem scanO_field (n : Nat) (L : Char) (hL : L ≠ 'O') (hz : L ≠ 'z') (h0 : L ≠ NUL)
    (c c1 or : List Char) (hsk : skipNonDigits c = c1) (hc : DIGIT (cur c1) = true)
    (y m d H M S : Int) (secs : ℚ) :
    scan false (n + 1) ⟨c, L :: or, y, m, d, H, M, S, true, secs⟩
      = match field false false L ⟨c1, L :: or, y, m, d, H, M, S, true, secs⟩ with
        | .error e => .error e
        | .ok st2 => scan false n { st2 with o := st2.o.tail } := by
  have hLb : (L == 'O') = false := by simpa using hL
  subst hsk
  cases hf : field false false L ⟨skipNonDigits c, L :: or, y, m, d, H, M, S, true, secs⟩ <;>
    simp [scan, body, hLb, hL, hz, h0, hc, hf]

theorem scanO_Y (n Y : Nat) (hY : Y ≤ 9999) (c cr or : List Char)
    (hsk : skipNonDigits c = pad4 Y ++ cr) (m d H M S : Int) (secs : ℚ) :
    scan false (n + 1) ⟨c, 'Y' :: or, 0, m, d, H, M, S, true, secs⟩
      = scan false n ⟨cr, or, Y, m, d, H, M, S, true, secs⟩ := by
  rw [scanO_field _ _ (by decide) (by decide) (by decide) _ _ _ hsk (DIGIT_cur_pad4 _ _)]
  simp [field, field_Y, PARSENUM_pad4 _ hY]

theorem scanO_m (n k : Nat) (hk : 1 ≤ k ∧ k ≤ 12) (c cr or : List Char)
    (hsk : skipNonDigits c = pad2 k ++ cr) (y d H M S : Int) (secs : ℚ) :
    scan false (n + 1) ⟨c, 'm' :: or, y, 0, d, H, M, S, true, secs⟩
      = scan false n ⟨cr, or, y, k, d, H, M, S, true, dadd secs ((sm.getD k 0 : Int) : ℚ)⟩ := by
  rw [scanO_field _ _ (by decide) (by decide) (by decide) _ _ _ hsk (DIGIT_cur_pad2 _ _)]
  have h1 : (0 : Int) < k := by omega
  have h2 : (k : Int) < 13 := by omega
  simp [field, field_m, PARSENUM_pad2 _ (by omega : k ≤ 99), h1, h2]

theorem scanO_d (n k : Nat) (hk : 1 ≤ k ∧ k ≤ 31) (c cr or : List Char)
    (hsk : skipNonDigits c = pad2 k ++ cr) (y m H M S : Int) (secs : ℚ) :
    scan false (n + 1) ⟨c, 'd' :: or, y, m, 0, H, M, S, true, secs⟩
      = scan false n ⟨cr, or, y, m, k, H, M, S, true,
          dadd secs ((((k : Int) - 1) * 86400 : Int) : ℚ)⟩ := by
  rw [scanO_field _ _ (by decide) (by decide) (by decide) _ _ _ hsk (DIGIT_cur_pad2 _ _)]
  have h1 : (0 : Int) < k := by omega
  have h2 : (k : Int) < 32 := by omega
  simp [field, field_d, PARSENUM_pad2 _ (by omega : k ≤ 99), h1, h2]

theorem scanO_H (n k : Nat) (hk : k ≤ 24) (c cr or : List Char)
    (hsk : skipNonDigits c = pad2 k ++ cr) (y m d M S : Int) (secs : ℚ) :
    scan false (n + 1) ⟨c, 'H' :: or, y, m, d, 0, M, S, true, secs⟩
      = scan false n ⟨cr, or, y, m, d, k, M, S, true, dadd secs (((k : Int) * 3600 : Int) : ℚ)⟩ := by
  rw [scanO_field _ _ (by decide) (by decide) (by decide) _ _ _ hsk (DIGIT_cur_pad2 _ _)]
  have h2 : (k : Int) < 25 := by omega
  simp [field, field_H, PARSENUM_pad2 _ (by omega : k ≤ 99), h2]

theorem scanO_M (n k : Nat) (hk : k ≤ 60) (c cr or : List Char)
    (hsk : skipNonDigits c = pad2 k ++ cr) (y m d H S : Int) (secs : ℚ) :
    scan false (n + 1) ⟨c, 'M' :: or, y, m, d, H, 0, S, true, secs⟩
      = scan false n ⟨cr, or, y, m, d, H, k, S, true, dadd secs (((k : Int) * 60 : Int) : ℚ)⟩ := by
  rw [scanO_field _ _ (by decide) (by decide) (by decide) _ _ _ hsk (DIGIT_cur_pad2 _ _)]
  have h2 : (k : Int) < 61 := by omega
  simp [field, field_M, PARSENUM_pad2 _ (by omega : k ≤ 99), h2]

theorem scanO_S (n k : Nat) (hk : k ≤ 61) (c cr or : List Char)
    (hsk : skipNonDigits c = pad2 k ++ cr) (y m d H M : Int) (secs : ℚ) :
    scan false (n + 1) ⟨c, 'S' :: or, y, m, d, H, M, 0, true, secs⟩
      = scan false n ⟨cr, or, y, m, d, H, M, k, true, dadd secs (((k : Int) : Int) : ℚ)⟩ := by
  rw [scanO_field _ _ (by decide) (by decide) (by decide) _ _ _ hsk (DIGIT_cur_pad2 _ _)]
  have h2 : (k : Int) < 62 := by omega
  simp [field, field_S, PARSENUM_pad2 _ (by omega : k ≤ 99), h2]

theorem skip_pad2 (k : Nat) (l : List Char) : skipNonDigits (pad2 k ++ l) = pad2 k ++ l :=
  skipNonDigits_digit _ (DIGIT_cur_pad2 _ _)

theorem skip_pad4 (k : Nat) (l : List Char) : skipNonDigits (pad4 k ++ l) = pad4 k ++ l :=
  skipNonDigits_digit _ (DIGIT_cur_pad4 _ _)

theorem skip_sep_pad2 (s : Char) (h0 : s ≠ NUL) (hd : DIGIT s = false) (k : Nat)
    (l : List Char) : skipNonDigits (s :: (pad2 k ++ l)) = pad2 k ++ l := by
  rw [skipNonDigits_sep _ _ h0 hd, skip_pad2]

/-- The order-mode scan of `YmdHMS` over a date-time whose fields are separated by single
non-digit characters. -/
theorem scanO_datetime (n Y m d H M S : Nat) (hY : Y ≤ 9999) (hm : 1 ≤ m ∧ m ≤ 12)
    (hd : 1 ≤ d ∧ d ≤ 31) (hH : H ≤ 24) (hM : M ≤ 60) (hS : S ≤ 61) (s : Char)
    (hs0 : s ≠ NUL) (hsd : DIGIT s = false) (t or : List Char) :
    scan false (n + 6)
        (St.init (dateText Y m d ++ (s :: (timeText H M S ++ t)))
          ('Y' :: 'm' :: 'd' :: 'H' :: 'M' :: 'S' :: or))
      = scan false n ⟨t, or, Y, m, d, H, M, S, true,
          ((sm.getD m 0 + ((d : Int) - 1) * 86400 + (H : Int) * 3600 + (M : Int) * 60
            + (S : Int) : Int) : ℚ)⟩ := by
  rw [St.init, dateText_append, timeText_append]
  rw [scanO_Y _ _ hY _ _ _ (skip_pad4 _ _),
    scanO_m _ _ hm _ _ _ (skip_sep_pad2 _ (by decide) (by decide) _ _),
    scanO_d _ _ hd _ _ _ (skip_sep_pad2 _ (by decide) (by decide) _ _),
    scanO_H _ _ hH _ _ _ (skip_sep_pad2 _ hs0 hsd _ _),
    scanO_M _ _ hM _ _ _ (skip_sep_pad2 _ (by decide) (by decide) _ _),
    scanO_S _ _ hS _ _ _ (skip_sep_pad2 _ (by decide) (by decide) _ _)]
  have hsm := sm_range m
  rw [dadd_zero_small _ (by omega) (by omega), dadd_small _ _ (by omega) (by omega),
    dadd_small _ _ (by omega) (by omega), dadd_small _ _ (by omega) (by omega),
    dadd_small _ _ (by omega) (by omega)]

/-- The epoch second of a valid date-time, from the accumulator left by the scan. -/
theorem datetime_value (Y m d H M S : Nat) (hY : Y ≤ 9999) (hm : 1 ≤ m ∧ m ≤ 12) :
    ((sm.getD m 0 + ((d : Int) - 1) * 86400 + (H : Int) * 3600 + (M : Int) * 60
        + (S : Int) : Int) : ℚ) + yearSecs Y m + (d30 : ℚ)
      = (((86400 * daysFromEpoch Y m d + 3600 * H + 60 * M + S : Int)) : ℚ) := by
  have h1 := epoch_secs Y m hY hm
  have h2 := daysFromEpoch_cast Y m d
  push_cast at h1 h2 ⊢
  linear_combination h1 - 86400 * h2

theorem ord_ou : "YmdHMSOu".toList = 'Y' :: 'm' :: 'd' :: 'H' :: 'M' :: 'S' :: ['O', 'u'] := rfl

theorem ord_z : "YmdHMSz".toList = 'Y' :: 'm' :: 'd' :: 'H' :: 'M' :: 'S' :: ['z'] := rfl

/-- C5: UTC marker equals zero offset.  For every valid zero-padded date-time, order mode
with order `YmdHMSOu` on `YYYY-mm-ddTHH:MM:SSZ` and order mode with order `YmdHMSz` on
`YYYY-mm-dd HH:MM:SS +0000` return the same non-missing value (the epoch second of the
date-time). -/
theorem C5_utc_marker_equals_zero_offset (Y m d H M S : Nat) (hY : Y ≤ 9999)
    (hm : 1 ≤ m ∧ m ≤ 12) (hd : 1 ≤ d ∧ d ≤ daysInMonth Y m) (hH : H ≤ 23) (hM : M ≤ 59)
    (hS : S ≤ 59) :
    ∃ v : ℚ,
      parse_dt [dateText Y m d ++ ('T' :: (timeText H M S ++ ['Z']))] "YmdHMSOu".toList false
        = .ok [some v] ∧
      parse_dt [dateTimeText Y m d H M S ++ " +0000".toList] "YmdHMSz".toList false
        = .ok [some v] ∧
      v = (((86400 * daysFromEpoch Y m d + 3600 * H + 60 * M + S : Int)) : ℚ) := by
  have hd31 : d ≤ 31 := by
    have : daysInMonth Y m ≤ 31 := by
      unfold daysInMonth; split_ifs <;> omega
    omega
  have hck : checkMonth (Y : Int) (m : Int) (d : Int) = true := by
    rw [checkMonth_eq Y m d hm]; simpa using hd.2
  have hsm := sm_range m
  have hfin := finish_done false Y m d H M S
    (sm.getD m 0 + ((d : Int) - 1) * 86400 + (H : Int) * 3600 + (M : Int) * 60 + (S : Int))
    (by omega) (by omega) (by omega) (by omega)
  refine ⟨_, ?_, ?_, rfl⟩
  · have hlen : "YmdHMSOu".toList.length = 2 + 6 := rfl
    simp only [parse_dt, parse_dt_entry, hlen]
    rw [ord_ou, scanO_datetime _ Y m d H M S hY hm ⟨hd.1, hd31⟩ (by omega) (by omega) (by omega)
      'T' (by decide) (by decide)]
    have hstep : ∀ (secs : ℚ), scan false 2 ⟨['Z'], ['O', 'u'], Y, m, d, H, M, S, true, secs⟩
        = .ok ⟨[], [], Y, m, d, H, M, S, true, secs⟩ := by
      intro secs
      simp [scan, body, field, field_u]
      decide
    rw [hstep]
    simp only [hfin, hck, if_true, datetime_value Y m d H M S hY hm]
  · have hlen : "YmdHMSz".toList.length = 1 + 6 := rfl
    simp only [parse_dt, parse_dt_entry, hlen]
    have htxt : dateTimeText Y m d H M S ++ " +0000".toList
        = dateText Y m d ++ (' ' :: (timeText H M S ++ " +0000".toList)) := by
      simp [dateTimeText, List.append_assoc]
    rw [ord_z, htxt, scanO_datetime _ Y m d H M S hY hm ⟨hd.1, hd31⟩ (by omega) (by omega)
      (by omega) ' ' (by decide) (by decide)]
    have hstep : ∀ (s : Int), -9007199254740992 < s → s < 9007199254740992 →
        scan false 1 ⟨" +0000".toList, ['z'], Y, m, d, H, M, S, true, (s : ℚ)⟩
          = .ok ⟨[], [], Y, m, d, H, M, S, true, (s : ℚ)⟩ := by
      intro s hs1 hs2
      have hp : PARSENUM 2 0 ['0', '0', '0', '0'] = (0, ['0', '0']) := by decide
      have hp2 : PARSENUM 2 0 ['0', '0'] = (0, []) := by decide
      have hsk : skipToSignZ [' ', '+', '0', '0', '0', '0'] = ['+', '0', '0', '0', '0'] := by
        decide
      have hD : DIGIT '0' = true := by decide
      have hN : ¬ ('z' : Char) = NUL := by decide
      have hN2 : ¬ ('+' : Char) = NUL := by decide
      simp [scan, body, field, field_z, hsk, hp, hp2, hD, hN, hN2]
      rw [dadd_small_zero s hs1 hs2, dadd_small_zero s hs1 hs2]
    rw [hstep _ (by omega) (by omega)]
    simp only [hfin, hck, if_true, datetime_value Y m d H M S hY hm]

theorem C5_witness :
    ∃ v : ℚ,
      parse_dt [dateText 2013 4 16 ++ ('T' :: (timeText 4 59 59 ++ ['Z']))] "YmdHMSOu".toList
        false = .ok [some v] ∧
      parse_dt [dateTimeText 2013 4 16 4 59 59 ++ " +0000".toList] "YmdHMSz".toList false
        = .ok [some v] ∧
      v = (((86400 * daysFromEpoch 2013 4 16 + 3600 * (4 : Nat) + 60 * (59 : Nat)
            + (59 : Nat) : Int)) : ℚ) :=
  C5_utc_marker_equals_zero_offset 2013 4 16 4 59 59 (by decide) (by decide) (by decide)
    (by decide) (by decide) (by decide)
theorem DIGIT_ne_NUL (ch : Char) (h : DIGIT ch = true) : ch ≠ NUL := by
  intro h0
  rw [h0] at h
  exact absurd h (by decide)

theorem digitVal_range (ch : Char) (h : DIGIT ch = true) : 0 ≤ digitVal ch ∧ digitVal ch ≤ 9 := by
  simp only [DIGIT, Bool.and_eq_true, decide_eq_true_eq] at h
  unfold digitVal
  omega

/-- One step of the digit loop on a `double` that holds an integer below `2^53`. -/
theorem parseNum_step (x : Int) (hx0 : 0 ≤ x) (ch : Char) (hd : DIGIT ch = true)
    (hb : x * 10 + digitVal ch < 9007199254740992) (rest : List Char) :
    parseNum (x : ℚ) (ch :: rest) = parseNum ((x * 10 + digitVal ch : Int) : ℚ) rest := by
  obtain ⟨hv0, hv9⟩ := digitVal_range ch hd
  have h10 : (10 : ℚ) = ((10 : Int) : ℚ) := by norm_num
  simp only [parseNum, hd, if_true]
  rw [h10, dmul_int x 10 (abs_lt_53 _ (by omega) (by omega)),
    dadd_small _ _ (by omega) (by omega)]

/-- The `double` digit loop is exact as long as the number read stays below `2^53`. -/
theorem parseNum_int (ds : List Char) (hds : ∀ ch ∈ ds, DIGIT ch = true) (x : Int)
    (hx0 : 0 ≤ x) (hb : (x + 1) * 10 ^ ds.length ≤ 9007199254740992) (rest : List Char) :
    ∃ v : Int, parseNum (x : ℚ) (ds ++ rest) = parseNum (v : ℚ) rest ∧
      (v : ℚ) = ds.foldl (fun a ch => a * 10 + (digitVal ch : ℚ)) (x : ℚ) := by
  induction ds generalizing x with
  | nil => exact ⟨x, rfl, rfl⟩
  | cons ch ds ih =>
    have h1 : DIGIT ch = true := hds ch (List.mem_cons_self _ _)
    have h2 : ∀ c ∈ ds, DIGIT c = true := fun c hc => hds c (List.mem_cons_of_mem _ hc)
    obtain ⟨hv0, hv9⟩ := digitVal_range ch h1
    have hp0 : (0 : Int) < 10 ^ ds.length := by positivity
    have hp : (1 : Int) ≤ 10 ^ ds.length := by omega
    have hb2 : (x + 1) * 10 * 10 ^ ds.length ≤ 9007199254740992 := by
      have : (x + 1) * 10 ^ (ch :: ds).length = (x + 1) * 10 * 10 ^ ds.length := by
        simp only [List.length_cons, pow_succ]; ring
      rw [← this]; exact hb
    have hb3 : (x * 10 + digitVal ch + 1) * 10 ^ ds.length ≤ 9007199254740992 := by
      have h3 : (x * 10 + digitVal ch + 1) * 10 ^ ds.length ≤ (x + 1) * 10 * 10 ^ ds.length := by
        apply mul_le_mul_of_nonneg_right _ (by omega)
        omega
      omega
    have hlt : x * 10 + digitVal ch < 9007199254740992 := by
      have h3 : (x * 10 + digitVal ch + 1) * 1 ≤ (x * 10 + digitVal ch + 1) * 10 ^ ds.length := by
        apply mul_le_mul_of_nonneg_left hp (by omega)
      omega
    obtain ⟨v, e, hv⟩ := ih h2 (x * 10 + digitVal ch) (by omega) hb3
    refine ⟨v, ?_, ?_⟩
    · rw [List.cons_append, parseNum_step x hx0 ch h1 hlt]
      exact e
    · rw [hv]
      simp only [List.foldl_cons]
      push_cast
      rfl

theorem parseNum_stop (x : ℚ) (rest : List Char) (hr : DIGIT (cur rest) = false) :
    parseNum x rest = (x, rest) := by
  cases rest with
  | nil => rfl
  | cons r rs =>
    have hr2 : DIGIT r = false := hr
    simp [parseNum, hr2]

/-- The `double` digit loop reads the decimal value of a run of at most 15 digits. -/
theorem parseNum_digits (ds : List Char) (hds : ∀ ch ∈ ds, DIGIT ch = true)
    (hlen : ds.length ≤ 15) (rest : List Char) (hr : DIGIT (cur rest) = false) :
    parseNum 0 (ds ++ rest) = (decValue ds, rest) := by
  have hp : (10 : Int) ^ ds.length ≤ 10 ^ 15 := pow_le_pow_right₀ (by norm_num) hlen
  obtain ⟨v, e, hv⟩ := parseNum_int ds hds 0 (le_refl _) (by norm_num at hp ⊢; omega) rest
  have h0 : (0 : ℚ) = ((0 : Int) : ℚ) := by norm_num
  rw [h0, e, parseNum_stop _ _ hr, hv]
  simp [decValue]

/-- The digit loop does not look beyond the run of digits. -/
theorem parseNum_append (ds : List Char) (hds : ∀ ch ∈ ds, DIGIT ch = true) (x : ℚ)
    (rest : List Char) (hr : DIGIT (cur rest) = false) :
    parseNum x (ds ++ rest) = ((parseNum x ds).1, rest) := by
  induction ds generalizing x with
  | nil => rw [List.nil_append, parseNum_stop _ _ hr]; rfl
  | cons ch ds ih =>
    have h1 : DIGIT ch = true := hds ch (List.mem_cons_self _ _)
    have h2 : ∀ c ∈ ds, DIGIT c = true := fun c hc => hds c (List.mem_cons_of_mem _ hc)
    simp only [List.cons_append, parseNum, h1, if_true]
    exact ih h2 _

/-- The fraction loop computes the weighted digit sum in `double` arithmetic. -/
theorem parseFrac_fold (f : List Char) (hf : ∀ ch ∈ f, DIGIT ch = true) (ms : ℚ) (j : Nat) :
    parseFrac ms (tenthPow j) f
      = ((List.range f.length).foldl
          (fun acc i => dadd acc (dmul (digitVal (f.getD i NUL) : ℚ) (tenthPow (j + i)))) ms,
        []) := by
  induction f generalizing ms j with
  | nil => simp [parseFrac]
  | cons ch rest ih =>
    have h1 : DIGIT ch = true := hf ch (List.mem_cons_self _ _)
    have h2 : ∀ c ∈ rest, DIGIT c = true := fun c hc => hf c (List.mem_cons_of_mem _ hc)
    have hw : dmul (tenthPow j) tenth = tenthPow (j + 1) := rfl
    simp only [parseFrac, h1, if_true, hw, ih h2, List.length_cons, List.range_succ_eq_map,
      List.foldl_cons, List.foldl_map, List.getD_cons_zero, List.getD_cons_succ, Nat.add_zero]
    congr 1
    apply congrArg (fun g => List.foldl g _ _)
    funext acc i
    have : j + 1 + i = j + (i + 1) := by omega
    rw [this]

theorem parseFrac_digits (f : List Char) (hf : ∀ ch ∈ f, DIGIT ch = true) :
    parseFrac 0 tenth f = (floatFrac f, []) := by
  have h := parseFrac_fold f hf 0 0
  simpa [floatFrac, tenthPow] using h

/-- A field with the `O` prefix in order mode. -/
theorem scanO_fieldO (n : Nat) (L : Char) (c or : List Char) (y m d H M S : Int) (secs : ℚ) :
    scan false (n + 1) ⟨c, 'O' :: L :: or, y, m, d, H, M, S, true, secs⟩
      = match field false true L ⟨c, L :: or, y, m, d, H, M, S, true, secs⟩ with
        | .error e => .error e
        | .ok st2 => scan false n { st2 with o := st2.o.tail } := by
  have hp : ('O' : Char) ≠ NUL := by decide
  cases hf : field false true L ⟨c, L :: or, y, m, d, H, M, S, true, secs⟩ <;>
    simp [scan, body, hp, hf]

/-- The epoch second of 0000-01-01T00:00:00, the value of an entry without date fields. -/
theorem base_value : yearSecs 0 0 + (d30 : ℚ) = -62167219200 := by
  have h := yearSecs_eq 0 (by omega) 0
  simp only [Nat.cast_zero] at h
  rw [h]
  simp [daysBeforeYear, d30]
  norm_num

theorem field_S_ext (is_fmt : Bool) (s : Nat) (hs : s ≤ 61) (sep : Char)
    (hsep : sep = '.' ∨ sep = ',') (f : List Char) (hf : ∀ ch ∈ f, DIGIT ch = true)
    (o : List Char) (y m d H M : Int) (secs : ℚ) :
    field_S is_fmt true ⟨pad2 s ++ (sep :: f), o, y, m, d, H, M, 0, true, secs⟩
      = ⟨[], o, y, m, d, H, M, s, true, dadd (dadd secs ((s : Int) : ℚ)) (floatFrac f)⟩ := by
  have h0 : cur (pad2 s ++ (sep :: f)) ≠ NUL := DIGIT_ne_NUL _ (DIGIT_cur_pad2 _ _)
  have h62 : (s : Int) < 62 := by omega
  have hsepb : (sep == '.' || sep == ',') = true := by
    rcases hsep with h | h <;> subst h <;> decide
  cases is_fmt <;>
    simp [field_S, skip_pad2, h0, PARSENUM_pad2 _ (by omega : s ≤ 99), h62, hsepb,
      parseFrac_digits f hf]

/-- The extended seconds field on `ss.f` or `ss,f`: the seconds, then the fraction, are
added to the accumulator, then the year step and the epoch offset. -/
theorem parse_dt_OS (is_fmt : Bool) (s : Nat) (hs : s ≤ 61) (sep : Char)
    (hsep : sep = '.' ∨ sep = ',') (f : List Char) (hf : ∀ ch ∈ f, DIGIT ch = true) :
    parse_dt [pad2 s ++ (sep :: f)] (if is_fmt then "%OS".toList else "OS".toList) is_fmt
      = .ok [some (dadd (yearStep (dadd ((s : Int) : ℚ) (floatFrac f)) 0 0) (d30 : ℚ))] := by
  have hz : dadd 0 ((s : Int) : ℚ) = ((s : Int) : ℚ) := dadd_zero_small _ (by omega) (by omega)
  cases is_fmt
  · have hl : "OS".toList.length = 1 + 1 := rfl
    have ho : "OS".toList = ['O', 'S'] := rfl
    simp only [parse_dt, parse_dt_entry, hl, Bool.false_eq_true, if_false]
    rw [ho, St.init, scanO_fieldO]
    simp only [field, Char.reduceEq, if_false, if_true, field_S_ext false s hs sep hsep f hf,
      List.tail_cons, scan_done, hz]
    simp [finish, skipNonDigits, checkMonth_zero]
  · have hl : "%OS".toList.length = 2 + 1 := rfl
    have ho : "%OS".toList = ['%', 'O', 'S'] := rfl
    simp only [parse_dt, parse_dt_entry, hl, if_true]
    rw [ho, St.init, scan_fieldO]
    simp only [field, Char.reduceEq, if_false, if_true, field_S_ext true s hs sep hsep f hf,
      List.tail_cons, scan_done, hz]
    simp [finish, checkMonth_zero]

theorem parse_hms_entry_S (ds : List Char) (hne : ds ≠ []) (hds : ∀ ch ∈ ds, DIGIT ch = true)
    (sep : Char) (hsep : sep = '.' ∨ sep = ',') (f : List Char)
    (hf : ∀ ch ∈ f, DIGIT ch = true) :
    parse_hms_entry "S".toList (ds ++ (sep :: f))
      = .ok (.unset, .unset, .val (dadd (parseNum 0 ds).1 (floatFrac f))) := by
  have ho : "S".toList = ['S'] := rfl
  have hsepd : DIGIT (cur (sep :: f)) = false := by
    rcases hsep with h | h <;> subst h
    · show DIGIT '.' = false
      decide
    · show DIGIT ',' = false
      decide
  have hsepb : (sep == '.' || sep == ',') = true := by
    rcases hsep with h | h <;> subst h <;> decide
  have hcur : DIGIT (cur (ds ++ (sep :: f))) = true := by
    cases ds with
    | nil => exact absurd rfl hne
    | cons a as => exact hds a (List.mem_cons_self _ _)
  have hS : ('S' : Char) ≠ NUL := by decide
  simp [parse_hms_entry, ho, skipNonDigits_digit _ hcur, hcur, hmsScan, hmsField, hS,
    parseNum_append ds hds 0 _ hsepd, hsepb, parseFrac_digits f hf, skipNonDigits]

theorem parse_hms_S (ds : List Char) (hne : ds ≠ []) (hds : ∀ ch ∈ ds, DIGIT ch = true)
    (sep : Char) (hsep : sep = '.' ∨ sep = ',') (f : List Char)
    (hf : ∀ ch ∈ f, DIGIT ch = true) :
    parse_hms [ds ++ (sep :: f)] "S".toList
      = .ok [.unset, .unset, .val (dadd (parseNum 0 ds).1 (floatFrac f))] := by
  simp only [parse_hms, parse_hms_entry_S ds hne hds sep hsep f hf]

theorem parseNum_value (ds : List Char) (hds : ∀ ch ∈ ds, DIGIT ch = true)
    (hlen : ds.length ≤ 15) : (parseNum 0 ds).1 = decValue ds := by
  have h := parseNum_digits ds hds hlen [] rfl
  rw [List.append_nil] at h
  rw [h]

theorem floatFrac_single (ch : Char) : floatFrac [ch] = dadd 0 (dmul (digitVal ch : ℚ) tenth) := by
  simp [floatFrac, tenthPow, List.range_succ]

/-- The fraction of `.5` is one half: the product `5 * 0.1` rounds to `0.5`. -/
theorem floatFrac_5 : floatFrac ['5'] = 1 / 2 := by
  have hd : (digitVal '5' : ℚ) = 5 := by
    have : digitVal '5' = 5 := by decide
    rw [this]; norm_num
  have h1 : dmul 5 tenth = 1 / 2 := by
    unfold dmul
    rw [tenth_eq, roundDouble_eval _ (-1) 4503599627370496 (by norm_num)
      (by norm_num [abs_of_pos]) (by norm_num [abs_of_pos])
      (roundHalfEven_near _ _ (by norm_num [abs_lt]))]
    norm_num
  have h2 : dadd 0 (1 / 2) = 1 / 2 := by
    unfold dadd
    have h := roundDouble_repr 1 (-1) (by norm_num) (by norm_num)
    norm_num at h ⊢
    exact h
  rw [floatFrac_single, hd, h1, h2]

/-- The fraction of `.3` is not three tenths: the product `3 * 0.1` is a tie between two
`double`s and rounds to the upper one, `0.30000000000000004`. -/
theorem floatFrac_3 : floatFrac ['3'] = 1351079888211149 / 4503599627370496 := by
  have hd : (digitVal '3' : ℚ) = 3 := by
    have : digitVal '3' = 3 := by decide
    rw [this]; norm_num
  have h1 : dmul 3 tenth = 1351079888211149 / 4503599627370496 := by
    unfold dmul
    have ht : (3 : ℚ) * (3602879701896397 / 36028797018963968) / 2 ^ ((-2 : Int) - 52)
        = ((5404319552844596 : Int) : ℚ) - 1 / 2 := by norm_num
    rw [tenth_eq, roundDouble_eval _ (-2) 5404319552844596 (by norm_num)
      (by norm_num [abs_of_pos]) (by norm_num [abs_of_pos])
      (by rw [ht]; exact roundHalfEven_tie_up _ (by decide))]
    norm_num
  have h2 : dadd 0 (1351079888211149 / 4503599627370496)
      = 1351079888211149 / 4503599627370496 := by
    unfold dadd
    have h := roundDouble_repr 1351079888211149 (-52) (by norm_num) (by norm_num)
    norm_num at h ⊢
    exact h
  rw [floatFrac_single, hd, h1, h2]

theorem hms_10_5 (sep : Char) (hsep : sep = '.' ∨ sep = ',') :
    parse_hms_entry "S".toList ("10".toList ++ (sep :: "5".toList))
      = .ok (.unset, .unset, .val (21 / 2)) := by
  have e := parse_hms_entry_S "10".toList (by decide) (by decide) sep hsep "5".toList (by decide)
  have hv : (parseNum 0 "10".toList).1 = 10 := by
    rw [parseNum_value _ (by decide) (by decide)]
    simp [decValue, digitVal]
    norm_num
  have hf : floatFrac "5".toList = 1 / 2 := floatFrac_5
  have hs : dadd 10 (1 / 2) = 21 / 2 := by
    unfold dadd
    have h := roundDouble_repr 21 (-1) (by norm_num) (by norm_num)
    norm_num at h ⊢
    exact h
  rw [e, hv, hf, hs]

theorem hms_0_3 :
    parse_hms_entry "S".toList "0.3".toList
      = .ok (.unset, .unset, .val (1351079888211149 / 4503599627370496)) := by
  have e := parse_hms_entry_S "0".toList (by decide) (by decide) '.' (Or.inl rfl) "3".toList
    (by decide)
  have hv : (parseNum 0 "0".toList).1 = 0 := by
    rw [parseNum_value _ (by decide) (by decide)]
    simp [decValue, digitVal]
  have hf : floatFrac "3".toList = 1351079888211149 / 4503599627370496 := floatFrac_3
  have hs : dadd 0 (1351079888211149 / 4503599627370496)
      = 1351079888211149 / 4503599627370496 := by
    unfold dadd
    have h := roundDouble_repr 1351079888211149 (-52) (by norm_num) (by norm_num)
    norm_num at h ⊢
    exact h
  have ht : "0.3".toList = "0".toList ++ ('.' :: "3".toList) := rfl
  rw [ht, e, hv, hf, hs]

/-- A half-integer below `2^52` in magnitude is a `double`. -/
theorem roundDouble_half (n : Int) (h1 : -9007199254740992 < n) (h2 : n < 9007199254740992) :
    roundDouble ((n : ℚ) / 2) = (n : ℚ) / 2 := by
  have h := roundDouble_repr n (-1) (abs_lt_53 _ h1 h2) (by norm_num)
  have e : (n : ℚ) * 2 ^ (-1 : Int) = (n : ℚ) / 2 := by
    rw [zpow_neg, zpow_one]; ring
  rw [e] at h
  exact h

theorem dadd_half (n b : Int) (q : ℚ) (hq : q = (b : ℚ))
    (h1 : -9007199254740992 < n + 2 * b) (h2 : n + 2 * b < 9007199254740992) :
    dadd ((n : ℚ) / 2) q = ((n + 2 * b : Int) : ℚ) / 2 := by
  unfold dadd
  have e : (n : ℚ) / 2 + q = ((n + 2 * b : Int) : ℚ) / 2 := by rw [hq]; push_cast; ring
  rw [e, roundDouble_half _ h1 h2]

/-- The year step and the epoch offset for year 0, month 0 on a half-integral accumulator. -/
theorem finish_year0_half (n : Int) (h1 : -1000000 < n) (h2 : n < 1000000) :
    dadd (yearStep ((n : ℚ) / 2) 0 0) (d30 : ℚ) = -62167219200 + (n : ℚ) / 2 := by
  have hw : wrap32 (0 - 2000) = -2000 := by decide
  have hl : leapOf 0 = true := by decide
  have hA : roundDouble (((-2000 * yearlen : Int)) : ℚ) = ((-63072000000 : Int) : ℚ) := by
    have : (-2000 * yearlen : Int) = -63072000000 := by decide
    rw [this, roundDouble_int _ (by norm_num)]
  have hB : wrap32 (Int.tdiv (-2000) 4 * daylen) = -43200000 := by decide
  have hC : wrap32 (wrap32 (Int.tdiv (-2000) 400 - Int.tdiv (-2000) 100) * daylen) = 1296000 := by
    decide
  have hd : d30 = 946684800 := rfl
  unfold yearStep
  simp only [hw, hl, hA, hB, hC]
  norm_num
  rw [dadd_half n (-63072000000) _ (by norm_num) (by omega) (by omega),
    dadd_half _ (-43200000) _ (by norm_num) (by omega) (by omega),
    dadd_half _ 1296000 _ (by norm_num) (by omega) (by omega),
    dadd_half _ d30 _ rfl (by omega) (by omega), hd]
  push_cast
  ring

/-- The run `9007199254740993` (`2^53 + 1`) is read as `2^53`: the last step of the digit
loop rounds. -/
theorem parseNum_2_53 : (parseNum 0 "9007199254740993".toList).1 = 9007199254740992 := by
  have ht : "9007199254740993".toList = "900719925474099".toList ++ ['3'] := rfl
  obtain ⟨v, e, hv⟩ := parseNum_int "900719925474099".toList (by decide) 0 (le_refl _)
    (by norm_num) ['3']
  have hv2 : (v : ℚ) = 900719925474099 := by
    rw [hv]
    simp [digitVal]
    norm_num
  have h0 : (0 : ℚ) = ((0 : Int) : ℚ) := by norm_num
  have hd : (digitVal '3' : ℚ) = 3 := by
    have : digitVal '3' = 3 := by decide
    rw [this]; norm_num
  have hD : DIGIT '3' = true := by decide
  rw [ht, h0, e, hv2]
  simp only [parseNum, hD, if_true, hd]
  have h1 : dmul 900719925474099 10 = 9007199254740990 := by
    have h := dmul_int 900719925474099 10 (by norm_num)
    norm_num at h ⊢
    exact h
  have h2 : dadd 9007199254740990 3 = 9007199254740992 := by
    unfold dadd
    have hq : ((9007199254740990 : ℚ) + 3) / 2 ^ ((53 : Int) - 52)
        = ((4503599627370496 : Int) : ℚ) + 1 / 2 := by norm_num
    rw [roundDouble_eval _ 53 4503599627370496 (by norm_num) (by norm_num [abs_of_pos])
      (by norm_num [abs_of_pos]) (by rw [hq]; exact roundHalfEven_tie_down _ (by decide))]
    norm_num
  rw [h1, h2]

theorem hms_2_53 :
    parse_hms_entry "S".toList "9007199254740993.0".toList
      = .ok (.unset, .unset, .val 9007199254740992) := by
  have e := parse_hms_entry_S "9007199254740993".toList (by decide) (by decide) '.' (Or.inl rfl)
    "0".toList (by decide)
  have hf : floatFrac "0".toList = 0 := by
    have hd : (digitVal '0' : ℚ) = 0 := by
      have : digitVal '0' = 0 := by decide
      rw [this]; norm_num
    have : "0".toList = ['0'] := rfl
    rw [this, floatFrac_single, hd]
    simp [dadd, dmul, roundDouble]
  have hs : dadd 9007199254740992 0 = 9007199254740992 := by
    unfold dadd
    have h := roundDouble_repr 1 53 (by norm_num) (by norm_num)
    norm_num at h ⊢
    exact h
  have ht : "9007199254740993.0".toList = "9007199254740993".toList ++ ('.' :: "0".toList) := rfl
  rw [ht, e, parseNum_2_53, hf, hs]

theorem parse_dt_single (text fmt : List Char) (is_fmt : Bool) (x : Option ℚ)
    (h : parse_dt [text] fmt is_fmt = .ok [x]) : parse_dt_entry fmt is_fmt text = .ok x := by
  cases he : parse_dt_entry fmt is_fmt text with
  | error e => simp [parse_dt, he] at h
  | ok v =>
    simp [parse_dt, he] at h
    rw [h]

/-- C6 (as stated, refuted): the second of `0.3` is not `0 + 3 * (1/10)` but the `double`
`0.30000000000000004` (the product `3 * 0.1` rounds up), and the second of
`9007199254740993.0` is not its integer part but `9007199254740992`. -/
theorem C6_counterexample :
    parse_hms ["0.3".toList] "S".toList
        = .ok [.unset, .unset, .val (1351079888211149 / 4503599627370496)] ∧
      (1351079888211149 / 4503599627370496 : ℚ) ≠ decValue "0".toList + fracValue "3".toList ∧
    parse_hms ["9007199254740993.0".toList] "S".toList
        = .ok [.unset, .unset, .val 9007199254740992] ∧
      (9007199254740992 : ℚ)
        ≠ decValue "9007199254740993".toList + fracValue "0".toList := by
  refine ⟨?_, ?_, ?_, ?_⟩
  · simp only [parse_hms, hms_0_3]
  · simp [decValue, fracValue, digitVal, List.range_succ]
    norm_num
  · simp only [parse_hms, hms_2_53]
  · simp [decValue, fracValue, digitVal, List.range_succ]
    norm_num

/-- C6 (amended): both decimal separators are equivalent, and the value is computed in
`double` arithmetic.  For a two-digit seconds text of value `s ≤ 61` and a digit text `f`,
`parse_dt` with the extended seconds field (strict format `%OS`, and likewise order `OS`)
returns on `s.f` and on `s,f` the same non-missing value: the seconds plus the fraction of
`f` summed in `double` arithmetic (`floatFrac`), followed by the year step for year 0 and
the epoch offset, each addition rounded.  For a non-empty digit text `ds`, `parse_hms` with
order `S` returns the same result on `ds.f` and on `ds,f`; when `ds` has at most 15 digits
the second is the rounded sum of the decimal value of `ds` and that fraction.  The texts
`10.5` and `10,5` give exactly 10.5 seconds with both functions. -/
theorem C6_decimal_separators_in_double (s : Nat) (hs : s ≤ 61) (ds f : List Char)
    (hne : ds ≠ []) (hds : ∀ ch ∈ ds, DIGIT ch = true) (hf : ∀ ch ∈ f, DIGIT ch = true) :
    (parse_dt [pad2 s ++ ('.' :: f)] "%OS".toList true
        = .ok [some (dadd (yearStep (dadd ((s : Int) : ℚ) (floatFrac f)) 0 0) (d30 : ℚ))] ∧
      parse_dt [pad2 s ++ (',' :: f)] "%OS".toList true
        = .ok [some (dadd (yearStep (dadd ((s : Int) : ℚ) (floatFrac f)) 0 0) (d30 : ℚ))]) ∧
    (parse_dt [pad2 s ++ ('.' :: f)] "OS".toList false
        = .ok [some (dadd (yearStep (dadd ((s : Int) : ℚ) (floatFrac f)) 0 0) (d30 : ℚ))] ∧
      parse_dt [pad2 s ++ (',' :: f)] "OS".toList false
        = .ok [some (dadd (yearStep (dadd ((s : Int) : ℚ) (floatFrac f)) 0 0) (d30 : ℚ))]) ∧
    parse_hms [ds ++ ('.' :: f)] "S".toList = parse_hms [ds ++ (',' :: f)] "S".toList ∧
    (ds.length ≤ 15 →
      parse_hms [ds ++ ('.' :: f)] "S".toList
          = .ok [.unset, .unset, .val (dadd (decValue ds) (floatFrac f))] ∧
        parse_hms [ds ++ (',' :: f)] "S".toList
          = .ok [.unset, .unset, .val (dadd (decValue ds) (floatFrac f))]) ∧
    parse_hms ["10.5".toList, "10,5".toList] "S".toList
      = .ok [.unset, .unset, .val (21 / 2), .unset, .unset, .val (21 / 2)] ∧
    parse_dt ["10.5".toList, "10,5".toList] "%OS".toList true
      = .ok [some (-62167219200 + 21 / 2), some (-62167219200 + 21 / 2)] := by
  refine ⟨⟨parse_dt_OS true s hs '.' (Or.inl rfl) f hf, parse_dt_OS true s hs ',' (Or.inr rfl) f hf⟩,
    ⟨parse_dt_OS false s hs '.' (Or.inl rfl) f hf, parse_dt_OS false s hs ',' (Or.inr rfl) f hf⟩,
    ?_, ?_, ?_, ?_⟩
  · rw [parse_hms_S ds hne hds '.' (Or.inl rfl) f hf, parse_hms_S ds hne hds ',' (Or.inr rfl) f hf]
  · intro hlen
    rw [parse_hms_S ds hne hds '.' (Or.inl rfl) f hf, parse_hms_S ds hne hds ',' (Or.inr rfl) f hf,
      parseNum_value ds hds hlen]
    exact ⟨rfl, rfl⟩
  · have e1 : "10.5".toList = "10".toList ++ ('.' :: "5".toList) := rfl
    have e2 : "10,5".toList = "10".toList ++ (',' :: "5".toList) := rfl
    simp only [parse_hms, e1, e2, hms_10_5 '.' (Or.inl rfl), hms_10_5 ',' (Or.inr rfl)]
  · have h1 := parse_dt_OS true 10 (by decide) '.' (Or.inl rfl) "5".toList (by decide)
    have h2 := parse_dt_OS true 10 (by decide) ',' (Or.inr rfl) "5".toList (by decide)
    have hv : dadd (yearStep (dadd (((10 : Nat) : Int) : ℚ) (floatFrac "5".toList)) 0 0) (d30 : ℚ)
        = -62167219200 + 21 / 2 := by
      have hf5 : floatFrac "5".toList = 1 / 2 := floatFrac_5
      have hs : dadd (((10 : Nat) : Int) : ℚ) (1 / 2) = ((21 : Int) : ℚ) / 2 := by
        unfold dadd
        have h := roundDouble_half 21 (by norm_num) (by norm_num)
        norm_num at h ⊢
        exact h
      rw [hf5, hs, finish_year0_half 21 (by norm_num) (by norm_num)]
      norm_num
    rw [hv] at h1 h2
    simp only [if_true] at h1 h2
    have e1 : "10.5".toList = pad2 10 ++ ('.' :: "5".toList) := rfl
    have e2 : "10,5".toList = pad2 10 ++ (',' :: "5".toList) := rfl
    have p1 := parse_dt_single _ _ _ _ h1
    have p2 := parse_dt_single _ _ _ _ h2
    simp only [parse_dt, e1, e2, p1, p2]

theorem C6_witness :
    (parse_dt [pad2 10 ++ ('.' :: ['5'])] "%OS".toList true
        = .ok [some (dadd (yearStep (dadd (((10 : Nat) : Int) : ℚ) (floatFrac ['5'])) 0 0)
            (d30 : ℚ))] ∧
      parse_dt [pad2 10 ++ (',' :: ['5'])] "%OS".toList true
        = .ok [some (dadd (yearStep (dadd (((10 : Nat) : Int) : ℚ) (floatFrac ['5'])) 0 0)
            (d30 : ℚ))]) ∧
    (parse_dt [pad2 10 ++ ('.' :: ['5'])] "OS".toList false
        = .ok [some (dadd (yearStep (dadd (((10 : Nat) : Int) : ℚ) (floatFrac ['5'])) 0 0)
            (d30 : ℚ))] ∧
      parse_dt [pad2 10 ++ (',' :: ['5'])] "OS".toList false
        = .ok [some (dadd (yearStep (dadd (((10 : Nat) : Int) : ℚ) (floatFrac ['5'])) 0 0)
            (d30 : ℚ))]) ∧
    parse_hms [['1', '0'] ++ ('.' :: ['5'])] "S".toList
      = parse_hms [['1', '0'] ++ (',' :: ['5'])] "S".toList ∧
    (parse_hms [['1', '0'] ++ ('.' :: ['5'])] "S".toList
        = .ok [.unset, .unset, .val (dadd (decValue ['1', '0']) (floatFrac ['5']))] ∧
      parse_hms [['1', '0'] ++ (',' :: ['5'])] "S".toList
        = .ok [.unset, .unset, .val (dadd (decValue ['1', '0']) (floatFrac ['5']))]) ∧
    parse_hms ["10.5".toList, "10,5".toList] "S".toList
      = .ok [.unset, .unset, .val (21 / 2), .unset, .unset, .val (21 / 2)] ∧
    parse_dt ["10.5".toList, "10,5".toList] "%OS".toList true
      = .ok [some (-62167219200 + 21 / 2), some (-62167219200 + 21 / 2)] :=
  have h := C6_decimal_separators_in_double 10 (by decide) ['1', '0'] ['5'] (by simp)
    (by decide) (by decide)
  ⟨h.1, h.2.1, h.2.2.1, h.2.2.2.1 (by decide), h.2.2.2.2.1, h.2.2.2.2.2⟩

theorem skipNonDigits_seps (s : List Char) (hs : IsSeparator s) (l : List Char) :
    skipNonDigits (s ++ l) = skipNonDigits l := by
  induction s with
  | nil => rfl
  | cons x xs ih =>
    have hx := hs x (List.mem_cons_self _ _)
    have hxs : IsSeparator xs := fun c hc => hs c (List.mem_cons_of_mem _ hc)
    rw [List.cons_append, skipNonDigits_sep _ _ hx.2 hx.1, ih hxs]

theorem skipNonDigits_cons_digit (ch : Char) (l : List Char) (h : DIGIT ch = true) :
    skipNonDigits (ch :: l) = ch :: l :=
  skipNonDigits_digit _ h

/-- Skipping separators brings two separator-equivalent texts to the same digit, or both
to their end. -/
theorem SepEq_skip (a b : List Char) (h : SepEq a b) :
    (skipNonDigits a = [] ∧ skipNonDigits b = []) ∨
    (∃ ch a2 b2, DIGIT ch = true ∧ skipNonDigits a = ch :: a2 ∧ skipNonDigits b = ch :: b2 ∧
      SepEq a2 b2) := by
  cases h with
  | nil => exact Or.inl ⟨rfl, rfl⟩
  | digit ch a b hd hab =>
    exact Or.inr ⟨ch, a, b, hd, skipNonDigits_cons_digit _ _ hd, skipNonDigits_cons_digit _ _ hd,
      hab⟩
  | sep s t ch a b _ _ hs ht hd hab =>
    refine Or.inr ⟨ch, a, b, hd, ?_, ?_, hab⟩
    · rw [skipNonDigits_seps s hs, skipNonDigits_cons_digit _ _ hd]
    · rw [skipNonDigits_seps t ht, skipNonDigits_cons_digit _ _ hd]

theorem SepEq_skip_rel (a b : List Char) (h : SepEq a b) :
    SepEq (skipNonDigits a) (skipNonDigits b) ∧
      cur (skipNonDigits a) = cur (skipNonDigits b) := by
  rcases SepEq_skip a b h with ⟨h1, h2⟩ | ⟨ch, a2, b2, hd, h1, h2, hab⟩
  · rw [h1, h2]; exact ⟨SepEq.nil, rfl⟩
  · rw [h1, h2]; exact ⟨SepEq.digit ch a2 b2 hd hab, rfl⟩

/-- `PARSENUM` reads the same number from separator-equivalent texts and leaves
separator-equivalent texts. -/
theorem SepEq_PARSENUM (n : Nat) (x : Int) (a b : List Char) (h : SepEq a b) :
    (PARSENUM n x a).1 = (PARSENUM n x b).1 ∧ SepEq (PARSENUM n x a).2 (PARSENUM n x b).2 := by
  induction n generalizing x a b with
  | zero => simpa [PARSENUM] using h
  | succ n ih =>
    cases h with
    | nil => simpa [PARSENUM] using SepEq.nil
    | digit ch a b hd hab =>
      simp only [PARSENUM, hd, if_true]
      exact ih _ a b hab
    | sep s t ch a b hs ht hss hts hd hab =>
      cases s with
      | nil => exact absurd rfl hs
      | cons s0 s1 =>
        cases t with
        | nil => exact absurd rfl ht
        | cons t0 t1 =>
          have h1 := (hss s0 (List.mem_cons_self _ _)).1
          have h2 := (hts t0 (List.mem_cons_self _ _)).1
          simp only [List.cons_append, PARSENUM, h1, h2]
          exact ⟨rfl, SepEq.sep (s0 :: s1) (t0 :: t1) ch a b hs ht hss hts hd hab⟩

theorem field_eq_Y (a b : Bool) (st : St) : field a b 'Y' st = .ok (field_Y st) := by
  simp [field]

theorem field_eq_y (a b : Bool) (st : St) : field a b 'y' st = .ok (field_y st) := by
  simp [field]

theorem field_eq_m (a b : Bool) (st : St) : field a b 'm' st = .ok (field_m st) := by
  simp [field]

theorem field_eq_d (a b : Bool) (st : St) : field a b 'd' st = .ok (field_d st) := by
  simp [field]

theorem field_eq_H (a b : Bool) (st : St) : field a b 'H' st = .ok (field_H st) := by
  simp [field]

theorem field_eq_M (a b : Bool) (st : St) : field a b 'M' st = .ok (field_M st) := by
  simp [field]

theorem field_eq_S (a b : Bool) (st : St) : field a b 'S' st = .ok (field_S a b st) := by
  simp [field]

/-- Every plain field handler acts in the same way on separator-equivalent states. -/
theorem field_plain_sim (L : Char) (hL : PlainLetter L) (st1 st2 : St) (h : StEq st1 st2) :
    ∃ r1 r2, field false false L st1 = .ok r1 ∧ field false false L st2 = .ok r2 ∧
      StEq r1 r2 := by
  obtain ⟨c1, o1, y1, m1, d1, H1, M1, S1, su1, se1⟩ := st1
  obtain ⟨c2, o2, y2, m2, d2, H2, M2, S2, su2, se2⟩ := st2
  simp only [StEq] at h
  obtain ⟨hc, ho, hy, hm, hd, hH, hM, hS, hsu, hse⟩ := h
  subst ho hy hm hd hH hM hS hsu hse
  rcases hL with h | h | h | h | h | h | h <;> subst h
  · have hp := SepEq_PARSENUM 4 y1 c1 c2 hc
    refine ⟨_, _, field_eq_Y _ _ _, field_eq_Y _ _ _, ?_⟩
    simp only [field_Y, hp.1]
    exact ⟨hp.2, rfl, rfl, rfl, rfl, rfl, rfl, rfl, rfl, rfl⟩
  · have hp := SepEq_PARSENUM 2 y1 c1 c2 hc
    refine ⟨_, _, field_eq_y _ _ _, field_eq_y _ _ _, ?_⟩
    simp only [field_y, hp.1]
    exact ⟨hp.2, rfl, rfl, rfl, rfl, rfl, rfl, rfl, rfl, rfl⟩
  · have hp := SepEq_PARSENUM 2 m1 c1 c2 hc
    refine ⟨_, _, field_eq_m _ _ _, field_eq_m _ _ _, ?_⟩
    simp only [field_m, hp.1]
    split_ifs <;> exact ⟨hp.2, rfl, rfl, rfl, rfl, rfl, rfl, rfl, rfl, rfl⟩
  · have hp := SepEq_PARSENUM 2 d1 c1 c2 hc
    refine ⟨_, _, field_eq_d _ _ _, field_eq_d _ _ _, ?_⟩
    simp only [field_d, hp.1]
    split_ifs <;> exact ⟨hp.2, rfl, rfl, rfl, rfl, rfl, rfl, rfl, rfl, rfl⟩
  · have hp := SepEq_PARSENUM 2 H1 c1 c2 hc
    refine ⟨_, _, field_eq_H _ _ _, field_eq_H _ _ _, ?_⟩
    simp only [field_H, hp.1]
    split_ifs <;> exact ⟨hp.2, rfl, rfl, rfl, rfl, rfl, rfl, rfl, rfl, rfl⟩
  · have hp := SepEq_PARSENUM 2 M1 c1 c2 hc
    refine ⟨_, _, field_eq_M _ _ _, field_eq_M _ _ _, ?_⟩
    simp only [field_M, hp.1]
    split_ifs <;> exact ⟨hp.2, rfl, rfl, rfl, rfl, rfl, rfl, rfl, rfl, rfl⟩
  · have hp := SepEq_PARSENUM 2 S1 c1 c2 hc
    refine ⟨_, _, field_eq_S _ _ _, field_eq_S _ _ _, ?_⟩
    simp only [field_S, Bool.false_and, Bool.false_eq_true, if_false, hp.1]
    split_ifs <;> exact ⟨hp.2, rfl, rfl, rfl, rfl, rfl, rfl, rfl, rfl, rfl⟩

theorem PlainLetter_ne (L : Char) (hL : PlainLetter L) :
    L ≠ 'O' ∧ L ≠ 'z' ∧ L ≠ NUL ∧ L ≠ '%' := by
  rcases hL with h | h | h | h | h | h | h <;> subst h <;> decide

theorem field_Y_o (st : St) : (field_Y st).o = st.o := rfl

theorem field_y_o (st : St) : (field_y st).o = st.o := rfl

theorem field_m_o (st : St) : (field_m st).o = st.o := by
  unfold field_m; simp only []; split_ifs <;> rfl

theorem field_d_o (st : St) : (field_d st).o = st.o := by
  unfold field_d; simp only []; split_ifs <;> rfl

theorem field_H_o (st : St) : (field_H st).o = st.o := by
  unfold field_H; simp only []; split_ifs <;> rfl

theorem field_M_o (st : St) : (field_M st).o = st.o := by
  unfold field_M; simp only []; split_ifs <;> rfl

theorem field_S_o (a b : Bool) (st : St) : (field_S a b st).o = st.o := by
  unfold field_S; simp only []; split_ifs <;> rfl

theorem field_u_o (b : Bool) (st : St) : (field_u b st).o = st.o := by
  unfold field_u; split_ifs <;> rfl

theorem field_z_o (a : Bool) (st : St) : (field_z a st).o = st.o := by
  unfold field_z; simp only []; split_ifs <;> rfl

theorem field_O_o (L : Char) (st : St) : (field_O L st).o = st.o := by
  unfold field_O; simp only []; split_ifs <;> rfl

/-- No field handler touches the format cursor. -/
theorem field_o (a b : Bool) (L : Char) (st r : St) (h : field a b L st = .ok r) :
    r.o = st.o := by
  unfold field at h
  by_cases h1 : L = 'Y'
  · rw [if_pos h1] at h; injection h with h; rw [← h]; exact field_Y_o _
  rw [if_neg h1] at h
  by_cases h2 : L = 'y'
  · rw [if_pos h2] at h; injection h with h; rw [← h]; exact field_y_o _
  rw [if_neg h2] at h
  by_cases h3 : L = 'm'
  · rw [if_pos h3] at h; injection h with h; rw [← h]; exact field_m_o _
  rw [if_neg h3] at h
  by_cases h4 : L = 'd'
  · rw [if_pos h4] at h; injection h with h; rw [← h]; exact field_d_o _
  rw [if_neg h4] at h
  by_cases h5 : L = 'H'
  · rw [if_pos h5] at h; injection h with h; rw [← h]; exact field_H_o _
  rw [if_neg h5] at h
  by_cases h6 : L = 'M'
  · rw [if_pos h6] at h; injection h with h; rw [← h]; exact field_M_o _
  rw [if_neg h6] at h
  by_cases h7 : L = 'S'
  · rw [if_pos h7] at h; injection h with h; rw [← h]; exact field_S_o _ _ _
  rw [if_neg h7] at h
  by_cases h8 : L = 'u'
  · rw [if_pos h8] at h; injection h with h; rw [← h]; exact field_u_o _ _
  rw [if_neg h8] at h
  by_cases h9 : L = 'z'
  · rw [if_pos h9] at h
    cases b
    · simp only [Bool.not_false, if_true] at h
      injection h with h; rw [← h]; exact field_z_o _ _
    · simp only [Bool.not_true, Bool.false_eq_true, if_false] at h
      injection h with h; rw [← h]; exact field_O_o _ _
  rw [if_neg h9] at h
  by_cases h10 : L = 'O' ∨ L = 'o'
  · rw [if_pos h10] at h
    cases b
    · simp only [Bool.false_eq_true, if_false] at h
      injection h
    · simp only [if_true] at h
      injection h with h; rw [← h]; exact field_O_o _ _
  rw [if_neg h10] at h
  injection h

/-- One iteration of the order-mode loop at a plain field letter. -/
theorem body_plain (st : St) (L : Char) (or : List Char) (ho : st.o = L :: or)
    (hL : PlainLetter L) :
    body false st =
      if DIGIT (cur (skipNonDigits st.c)) = true then
        match field false false L { st with c := skipNonDigits st.c } with
        | .error e => .error e
        | .ok st2 => .ok { st2 with o := st2.o.tail }
      else .ok { st with c := skipNonDigits st.c, succeed := false } := by
  obtain ⟨hO, hz, h0, _⟩ := PlainLetter_ne L hL
  have hLb : (L == 'O') = false := by simpa using hO
  by_cases hdig : DIGIT (cur (skipNonDigits st.c)) = true
  · simp [body, ho, hO, hz, hLb, hdig]
  · simp [body, ho, hO, hz, hLb, hdig]

/-- One iteration of the order-mode loop on separator-equivalent states. -/
theorem body_plain_sim (st1 st2 : St) (h : StEq st1 st2) (L : Char) (or : List Char)
    (ho : st1.o = L :: or) (hL : PlainLetter L) :
    ∃ r1 r2, body false st1 = .ok r1 ∧ body false st2 = .ok r2 ∧ StEq r1 r2 ∧
      (r1.o = or ∨ r1.o = L :: or) := by
  have ho2 : st2.o = L :: or := by rw [← h.2.1, ho]
  obtain ⟨hsk, hcur⟩ := SepEq_skip_rel st1.c st2.c h.1
  obtain ⟨hc, hoo, hy, hm, hd, hH, hM, hS, hsu, hse⟩ := h
  rw [body_plain st1 L or ho hL, body_plain st2 L or ho2 hL, ← hcur]
  by_cases hdig : DIGIT (cur (skipNonDigits st1.c)) = true
  · have hst : StEq { st1 with c := skipNonDigits st1.c } { st2 with c := skipNonDigits st2.c } :=
      ⟨hsk, hoo, hy, hm, hd, hH, hM, hS, hsu, hse⟩
    obtain ⟨r1, r2, e1, e2, hr⟩ := field_plain_sim L hL _ _ hst
    have ho1 := field_o _ _ _ _ _ e1
    simp only [hdig, if_true, e1, e2]
    refine ⟨_, _, rfl, rfl, ?_, ?_⟩
    · obtain ⟨rc, ro, ry, rm, rd, rH, rM, rS, rsu, rse⟩ := hr
      exact ⟨rc, by simp only [ro], ry, rm, rd, rH, rM, rS, rsu, rse⟩
    · left; simp only [ho1, ho, List.tail_cons]
  · simp only [hdig, if_false, Bool.false_eq_true]
    exact ⟨_, _, rfl, rfl, ⟨hsk, hoo, hy, hm, hd, hH, hM, hS, rfl, hse⟩, Or.inr ho⟩

/-- The order-mode loop over plain letters runs in lockstep on separator-equivalent
states. -/
theorem scan_plain_sim (n : Nat) (st1 st2 : St) (h : StEq st1 st2)
    (hall : ∀ L ∈ st1.o, PlainLetter L) :
    (∃ r1 r2, scan false n st1 = .ok r1 ∧ scan false n st2 = .ok r2 ∧ StEq r1 r2) ∨
    (scan false n st1 = .error .fuel ∧ scan false n st2 = .error .fuel) := by
  induction n generalizing st1 st2 with
  | zero =>
    have ho := h.2.1
    have hsu := h.2.2.2.2.2.2.2.2.1
    simp only [scan, ← ho, ← hsu]
    by_cases hc : (cur st1.o != NUL && st1.succeed) = true
    · right; simp only [hc, if_true, and_self]
    · left; simp only [hc, if_false, Bool.false_eq_true]; exact ⟨_, _, rfl, rfl, h⟩
  | succ n ih =>
    have ho := h.2.1
    have hsu := h.2.2.2.2.2.2.2.2.1
    simp only [scan, ← ho, ← hsu]
    by_cases hc : (cur st1.o != NUL && st1.succeed) = true
    · simp only [hc, if_true]
      cases hO : st1.o with
      | nil => rw [hO] at hc; simp at hc
      | cons L or =>
        have hL : PlainLetter L := hall L (by rw [hO]; exact List.mem_cons_self _ _)
        obtain ⟨r1, r2, e1, e2, hr, hro⟩ := body_plain_sim st1 st2 h L or hO hL
        simp only [e1, e2]
        apply ih r1 r2 hr
        intro K hK
        rcases hro with hro | hro
        · rw [hro] at hK; exact hall K (by rw [hO]; exact List.mem_cons_of_mem _ hK)
        · rw [hro] at hK; exact hall K (by rw [hO]; exact hK)
    · left; simp only [hc, if_false, Bool.false_eq_true]; exact ⟨_, _, rfl, rfl, h⟩

/-- The steps after the scan give the same result on separator-equivalent states. -/
theorem finish_sim (r1 r2 : St) (h : StEq r1 r2) : finish false r1 = finish false r2 := by
  obtain ⟨hc, ho, hy, hm, hd, hH, hM, hS, hsu, hse⟩ := h
  obtain ⟨_, hcur⟩ := SepEq_skip_rel r1.c r2.c hc
  simp only [finish, Bool.not_false, if_true, hcur, ho, hy, hm, hd, hsu, hse]

/-- Order mode with plain letters gives the same result on separator-equivalent
texts. -/
theorem parse_dt_entry_sim (ord a b : List Char) (hord : ∀ L ∈ ord, PlainLetter L)
    (hab : SepEq a b) : parse_dt_entry ord false a = parse_dt_entry ord false b := by
  have hst : StEq (St.init a ord) (St.init b ord) :=
    ⟨hab, rfl, rfl, rfl, rfl, rfl, rfl, rfl, rfl, rfl⟩
  unfold parse_dt_entry
  rcases scan_plain_sim ord.length _ _ hst hord with ⟨r1, r2, e1, e2, hr⟩ | ⟨e1, e2⟩
  · rw [e1, e2]
    simp only [finish_sim r1 r2 hr]
  · rw [e1, e2]

theorem SepEq_append_digits (D a b : List Char) (hD : IsDigits D) (hab : SepEq a b) :
    SepEq (D ++ a) (D ++ b) := by
  induction D with
  | nil => exact hab
  | cons x xs ih =>
    exact SepEq.digit x _ _ (hD x (List.mem_cons_self _ _))
      (ih (fun c hc => hD c (List.mem_cons_of_mem _ hc)))

theorem SepEq_refl_digits (D : List Char) (hD : IsDigits D) : SepEq D D := by
  have h := SepEq_append_digits D [] [] hD SepEq.nil
  simpa using h

/-- Texts built from the same (non-empty) digit runs with two families of non-empty
separators start with the same digit and are separator-equivalent after it. -/
theorem SepEq_joinRuns_aux (Ds ss ts : List (List Char)) (hne : Ds ≠ [])
    (hDs : ∀ D ∈ Ds, D ≠ [] ∧ IsDigits D)
    (hss : ∀ s ∈ ss, s ≠ [] ∧ IsSeparator s) (hts : ∀ t ∈ ts, t ≠ [] ∧ IsSeparator t)
    (hlen : ss.length = ts.length) :
    ∃ x a b, DIGIT x = true ∧ joinRuns Ds ss = x :: a ∧ joinRuns Ds ts = x :: b ∧
      SepEq a b := by
  induction Ds generalizing ss ts with
  | nil => exact absurd rfl hne
  | cons D Ds ih =>
    have hD := hDs D (List.mem_cons_self _ _)
    have hDs2 : ∀ E ∈ Ds, E ≠ [] ∧ IsDigits E := fun E hE => hDs E (List.mem_cons_of_mem _ hE)
    cases D with
    | nil => exact absurd rfl hD.1
    | cons x xs =>
      have hx : DIGIT x = true := hD.2 x (List.mem_cons_self _ _)
      have hxs : IsDigits xs := fun c hc => hD.2 c (List.mem_cons_of_mem _ hc)
      cases Ds with
      | nil => exact ⟨x, xs, xs, hx, rfl, rfl, SepEq_refl_digits xs hxs⟩
      | cons D2 Ds3 =>
        cases ss with
        | nil =>
          cases ts with
          | nil => exact ⟨x, xs, xs, hx, rfl, rfl, SepEq_refl_digits xs hxs⟩
          | cons t ts2 => simp at hlen
        | cons s ss2 =>
          cases ts with
          | nil => simp at hlen
          | cons t ts2 =>
            have hs := hss s (List.mem_cons_self _ _)
            have ht := hts t (List.mem_cons_self _ _)
            obtain ⟨x2, a2, b2, hx2, e1, e2, hab⟩ :=
              ih ss2 ts2 (by simp) hDs2 (fun z hz => hss z (List.mem_cons_of_mem _ hz))
                (fun z hz => hts z (List.mem_cons_of_mem _ hz)) (by simpa using hlen)
            refine ⟨x, xs ++ (s ++ x2 :: a2), xs ++ (t ++ x2 :: b2), hx, ?_, ?_, ?_⟩
            · simp only [joinRuns, e1, List.cons_append]
            · simp only [joinRuns, e2, List.cons_append]
            · exact SepEq_append_digits xs _ _ hxs
                (SepEq.sep s t x2 a2 b2 hs.1 ht.1 hs.2 ht.2 hx2 hab)

theorem SepEq_joinRuns (Ds ss ts : List (List Char))
    (hDs : ∀ D ∈ Ds, D ≠ [] ∧ IsDigits D)
    (hss : ∀ s ∈ ss, s ≠ [] ∧ IsSeparator s) (hts : ∀ t ∈ ts, t ≠ [] ∧ IsSeparator t)
    (hlen : ss.length = ts.length) :
    SepEq (joinRuns Ds ss) (joinRuns Ds ts) := by
  cases Ds with
  | nil => exact SepEq.nil
  | cons D Ds2 =>
    obtain ⟨x, a, b, hx, e1, e2, hab⟩ :=
      SepEq_joinRuns_aux (D :: Ds2) ss ts (by simp) hDs hss hts hlen
    rw [e1, e2]
    exact SepEq.digit x a b hx hab

theorem skip_seps_pad2 (s : List Char) (hs : IsSeparator s) (k : Nat) (l : List Char) :
    skipNonDigits (s ++ (pad2 k ++ l)) = pad2 k ++ l := by
  rw [skipNonDigits_seps s hs, skip_pad2]

theorem scanO_y2 (n k : Nat) (hk : k ≤ 99) (c cr or : List Char)
    (hsk : skipNonDigits c = pad2 k ++ cr) (m d H M S : Int) (secs : ℚ) :
    scan false (n + 1) ⟨c, 'y' :: or, 0, m, d, H, M, S, true, secs⟩
      = scan false n ⟨cr, or, (pivotYear k : Nat), m, d, H, M, S, true, secs⟩ := by
  rw [scanO_field _ _ (by decide) (by decide) (by decide) _ _ _ hsk (DIGIT_cur_pad2 _ _)]
  have h : (if k ≤ 68 then wrap32 ((k : Int) + 2000) else wrap32 ((k : Int) + 1900))
      = ((pivotYear k : Nat) : Int) := by
    unfold pivotYear
    by_cases h68 : k ≤ 68
    · simp only [h68, if_true]
      rw [wrap32_eq _ (by omega) (by omega)]
      push_cast; ring
    · simp only [h68, if_false]
      rw [wrap32_eq _ (by omega) (by omega)]
      push_cast; ring
  simp [field, field_y, PARSENUM_pad2 _ hk, h]

/-- The value of a date accepted by the day-of-month check, from the accumulator left by
the scan of a year, a month and a day. -/
theorem finish_date (Y m d : Nat) (hY : Y ≤ 9999) (hm : 1 ≤ m ∧ m ≤ 12)
    (hd : 1 ≤ d ∧ d ≤ daysInMonth Y m) :
    finish false ⟨[], [], Y, m, d, 0, 0, 0, true,
        dadd (dadd 0 ((sm.getD m 0 : Int) : ℚ)) ((((d : Int) - 1) * 86400 : Int) : ℚ)⟩
      = some ((86400 * daysFromEpoch Y m d : Int) : ℚ) := by
  have hd31 : d ≤ 31 := by
    have : daysInMonth Y m ≤ 31 := by
      unfold daysInMonth; split_ifs <;> omega
    omega
  have hsm := sm_range m
  rw [dadd_zero_small _ (by omega) (by omega), dadd_small _ _ (by omega) (by omega),
    finish_done false Y m d 0 0 0 _ (by omega) (by omega) (by omega) (by omega),
    checkMonth_eq Y m d hm]
  simp only [hd.2, decide_True, if_true]
  congr 1
  have h1 := epoch_secs Y m hY hm
  have h2 := daysFromEpoch_cast Y m d
  push_cast at h1 h2 ⊢
  linear_combination h1 - 86400 * h2

/-- Order `Ymd` on a date whose fields are separated by arbitrary separator texts. -/
theorem parse_Ymd_seps (Y m d : Nat) (hY : Y ≤ 9999) (hm : 1 ≤ m ∧ m ≤ 12)
    (hd : 1 ≤ d ∧ d ≤ daysInMonth Y m) (s1 s2 : List Char) (h1 : IsSeparator s1)
    (h2 : IsSeparator s2) :
    parse_dt [joinRuns [pad4 Y, pad2 m, pad2 d] [s1, s2]] "Ymd".toList false
      = .ok [some ((86400 * daysFromEpoch Y m d : Int) : ℚ)] := by
  have hd31 : d ≤ 31 := by
    have : daysInMonth Y m ≤ 31 := by
      unfold daysInMonth; split_ifs <;> omega
    omega
  have hlen : "Ymd".toList.length = 0 + 1 + 1 + 1 := rfl
  have ho : "Ymd".toList = ['Y', 'm', 'd'] := rfl
  have hj : joinRuns [pad4 Y, pad2 m, pad2 d] [s1, s2]
      = pad4 Y ++ (s1 ++ (pad2 m ++ (s2 ++ (pad2 d ++ [])))) := by
    simp [joinRuns]
  simp only [parse_dt, parse_dt_entry, hlen]
  rw [ho, hj, St.init, scanO_Y _ _ hY _ _ _ (skip_pad4 _ _),
    scanO_m _ _ hm _ _ _ (skip_seps_pad2 s1 h1 _ _),
    scanO_d _ _ ⟨hd.1, hd31⟩ _ _ _ (skip_seps_pad2 s2 h2 _ _), scan_done]
  simp only [finish_date Y m d hY hm hd]

/-- Order `ymd` on a date with a two-digit year whose fields are separated by arbitrary
separator texts. -/
theorem parse_ymd_seps (yy m d : Nat) (hy : yy ≤ 99) (hm : 1 ≤ m ∧ m ≤ 12)
    (hd : 1 ≤ d ∧ d ≤ daysInMonth (pivotYear yy) m) (s1 s2 : List Char) (h1 : IsSeparator s1)
    (h2 : IsSeparator s2) :
    parse_dt [joinRuns [pad2 yy, pad2 m, pad2 d] [s1, s2]] "ymd".toList false
      = .ok [some ((86400 * daysFromEpoch (pivotYear yy) m d : Int) : ℚ)] := by
  have hp : pivotYear yy ≤ 9999 := by unfold pivotYear; split_ifs <;> omega
  have hd31 : d ≤ 31 := by
    have : daysInMonth (pivotYear yy) m ≤ 31 := by
      unfold daysInMonth; split_ifs <;> omega
    omega
  have hlen : "ymd".toList.length = 0 + 1 + 1 + 1 := rfl
  have ho : "ymd".toList = ['y', 'm', 'd'] := rfl
  have hj : joinRuns [pad2 yy, pad2 m, pad2 d] [s1, s2]
      = pad2 yy ++ (s1 ++ (pad2 m ++ (s2 ++ (pad2 d ++ [])))) := by
    simp [joinRuns]
  simp only [parse_dt, parse_dt_entry, hlen]
  rw [ho, hj, St.init, scanO_y2 _ _ hy _ _ _ (skip_pad2 _ _),
    scanO_m _ _ hm _ _ _ (skip_seps_pad2 s1 h1 _ _),
    scanO_d _ _ ⟨hd.1, hd31⟩ _ _ _ (skip_seps_pad2 s2 h2 _ _), scan_done]
  simp only [finish_date (pivotYear yy) m d hp hm hd]

/-- The three texts `2013/04/16`, `2013-04-16`, `2013 04 16` under order `ymd`: the letter
`y` reads the two digits `20`, the letter `m` reads `13`, which is no month. -/
theorem ymd_2013_missing :
    parse_dt ["2013/04/16".toList] "ymd".toList false = .ok [none] ∧
    parse_dt ["2013-04-16".toList] "ymd".toList false = .ok [none] ∧
    parse_dt ["2013 04 16".toList] "ymd".toList false = .ok [none] :=
  ⟨by rfl, by rfl, by rfl⟩

/-- C7: order mode ignores which separators are used.  For every order string made only
of the letters Y, y, m, d, H, M, S, every list `D1..Dk` of non-empty digit texts and any two
lists `s1..s(k-1)`, `t1..t(k-1)` of non-empty texts of non-digit characters, `parse_dt` in
order mode returns the same result on `D1 s1 D2 ... s(k-1) Dk` as on
`D1 t1 D2 ... t(k-1) Dk`.  The separators really are skipped: a valid date `YYYY s1 mm s2 dd`
under order `Ymd`, and `yy s1 mm s2 dd` under order `ymd`, gets the epoch second of the date
whatever the separator texts `s1`, `s2` are.  The texts `2013/04/16`, `2013-04-16` and
`2013 04 16` under order `ymd` all get the same result, the missing value (`y` is a
two-digit year, so `m` reads `13`). -/
theorem C7_order_mode_ignores_separators (ord : List Char) (Ds ss ts : List (List Char))
    (hord : ∀ L ∈ ord, PlainLetter L)
    (hDs : ∀ D ∈ Ds, D ≠ [] ∧ IsDigits D)
    (hss : ∀ s ∈ ss, s ≠ [] ∧ IsSeparator s) (hts : ∀ t ∈ ts, t ≠ [] ∧ IsSeparator t)
    (hls : ss.length + 1 = Ds.length) (hlt : ts.length + 1 = Ds.length) :
    parse_dt [joinRuns Ds ss] ord false = parse_dt [joinRuns Ds ts] ord false ∧
    (∀ (Y m d : Nat) (s1 s2 : List Char), Y ≤ 9999 → 1 ≤ m ∧ m ≤ 12 →
      1 ≤ d ∧ d ≤ daysInMonth Y m → IsSeparator s1 → IsSeparator s2 →
      parse_dt [joinRuns [pad4 Y, pad2 m, pad2 d] [s1, s2]] "Ymd".toList false
        = .ok [some ((86400 * daysFromEpoch Y m d : Int) : ℚ)]) ∧
    (∀ (yy m d : Nat) (s1 s2 : List Char), yy ≤ 99 → 1 ≤ m ∧ m ≤ 12 →
      1 ≤ d ∧ d ≤ daysInMonth (pivotYear yy) m → IsSeparator s1 → IsSeparator s2 →
      parse_dt [joinRuns [pad2 yy, pad2 m, pad2 d] [s1, s2]] "ymd".toList false
        = .ok [some ((86400 * daysFromEpoch (pivotYear yy) m d : Int) : ℚ)]) ∧
    parse_dt ["2013/04/16".toList] "ymd".toList false = .ok [none] ∧
    parse_dt ["2013-04-16".toList] "ymd".toList false = .ok [none] ∧
    parse_dt ["2013 04 16".toList] "ymd".toList false = .ok [none] := by
  have h := parse_dt_entry_sim ord _ _ hord
    (SepEq_joinRuns Ds ss ts hDs hss hts (by omega))
  refine ⟨by simp only [parse_dt, h], ?_, ?_, ymd_2013_missing⟩
  · intro Y m d s1 s2 hY hm hd h1 h2
    exact parse_Ymd_seps Y m d hY hm hd s1 s2 h1 h2
  · intro yy m d s1 s2 hy hm hd h1 h2
    exact parse_ymd_seps yy m d hy hm hd s1 s2 h1 h2

theorem C7_witness :
    parse_dt [joinRuns ["2013".toList, "04".toList, "16".toList] ["/".toList, "/".toList]]
        "Ymd".toList false
      = parse_dt [joinRuns ["2013".toList, "04".toList, "16".toList] [" ".toList, "-".toList]]
        "Ymd".toList false ∧
    parse_dt [joinRuns [pad4 2013, pad2 4, pad2 16] ["/".toList, "/".toList]] "Ymd".toList false
      = .ok [some ((86400 * daysFromEpoch 2013 4 16 : Int) : ℚ)] ∧
    parse_dt [joinRuns [pad4 2013, pad2 4, pad2 16] [" ".toList, "-".toList]] "Ymd".toList false
      = .ok [some ((86400 * daysFromEpoch 2013 4 16 : Int) : ℚ)] ∧
    parse_dt [joinRuns [pad2 13, pad2 4, pad2 16] ["/".toList, "/".toList]] "ymd".toList false
      = .ok [some ((86400 * daysFromEpoch (pivotYear 13) 4 16 : Int) : ℚ)] :=
  ⟨(C7_order_mode_ignores_separators "Ymd".toList ["2013".toList, "04".toList, "16".toList]
      ["/".toList, "/".toList] [" ".toList, "-".toList]
      (by simp [PlainLetter]) (by simp [IsDigits]; decide) (by simp [IsSeparator]; decide)
      (by simp [IsSeparator]; decide) (by decide) (by decide)).1,
    (C7_order_mode_ignores_separators "Ymd".toList ["2013".toList, "04".toList, "16".toList]
      ["/".toList, "/".toList] [" ".toList, "-".toList]
      (by simp [PlainLetter]) (by simp [IsDigits]; decide) (by simp [IsSeparator]; decide)
      (by simp [IsSeparator]; decide) (by decide) (by decide)).2.1 2013 4 16 "/".toList
      "/".toList (by decide) (by decide) (by decide) (by simp [IsSeparator]; decide)
      (by simp [IsSeparator]; decide),
    (C7_order_mode_ignores_separators "Ymd".toList ["2013".toList, "04".toList, "16".toList]
      ["/".toList, "/".toList] [" ".toList, "-".toList]
      (by simp [PlainLetter]) (by simp [IsDigits]; decide) (by simp [IsSeparator]; decide)
      (by simp [IsSeparator]; decide) (by decide) (by decide)).2.1 2013 4 16 " ".toList
      "-".toList (by decide) (by decide) (by decide) (by simp [IsSeparator]; decide)
      (by simp [IsSeparator]; decide),
    (C7_order_mode_ignores_separators "Ymd".toList ["2013".toList, "04".toList, "16".toList]
      ["/".toList, "/".toList] [" ".toList, "-".toList]
      (by simp [PlainLetter]) (by simp [IsDigits]; decide) (by simp [IsSeparator]; decide)
      (by simp [IsSeparator]; decide) (by decide) (by decide)).2.2.1 13 4 16 "/".toList
      "/".toList (by decide) (by decide) (by decide) (by simp [IsSeparator]; decide)
      (by simp [IsSeparator]; decide)⟩

theorem cstr_nil_of_cur (l : List Char) (h : cur l = NUL) : cstr l = [] := by
  cases l with
  | nil => rfl
  | cons a as =>
    have ha : a = NUL := h
    simp [cstr, ha]

theorem cur_ne_NUL_of_cstr (l : List Char) (h : cstr l ≠ []) : cur l ≠ NUL := by
  intro h0
  exact h (cstr_nil_of_cur l h0)

/-- When the separator skip ends at the end of the text, the text had no digit left. -/
theorem no_digit_of_skip (l : List Char) (h : cur (skipNonDigits l) = NUL) :
    ∀ ch ∈ cstr l, DIGIT ch = false := by
  induction l with
  | nil => intro ch hch; simp [cstr] at hch
  | cons a as ih =>
    by_cases ha : a = NUL
    · intro ch hch; simp [cstr, ha] at hch
    · by_cases hd : DIGIT a = true
      · rw [skipNonDigits_cons_digit _ _ hd] at h
        exact absurd h ha
      · have hd' : DIGIT a = false := by simpa using hd
        rw [skipNonDigits_sep _ _ ha hd'] at h
        intro ch hch
        have : cstr (a :: as) = a :: cstr as := by simp [cstr, ha]
        rw [this] at hch
        rcases List.mem_cons.mp hch with h1 | h1
        · rw [h1]; exact hd'
        · exact ih h ch h1

/-- The order-mode scan of `Ymd` over `YYYY-mm-dd` followed by any text `t`. -/
theorem scanO_date (n Y m d : Nat) (hY : Y ≤ 9999) (hm : 1 ≤ m ∧ m ≤ 12)
    (hd : 1 ≤ d ∧ d ≤ 31) (t : List Char) :
    scan false (n + 3) (St.init (dateText Y m d ++ t) "Ymd".toList)
      = .ok ⟨t, [], Y, m, d, 0, 0, 0, true,
          ((sm.getD m 0 + ((d : Int) - 1) * 86400 : Int) : ℚ)⟩ := by
  have ho : "Ymd".toList = ['Y', 'm', 'd'] := rfl
  rw [ho, St.init, dateText_append]
  rw [scanO_Y _ _ hY _ _ _ (skip_pad4 _ _),
    scanO_m _ _ hm _ _ _ (skip_sep_pad2 _ (by decide) (by decide) _ _),
    scanO_d _ _ hd _ _ _ (skip_sep_pad2 _ (by decide) (by decide) _ _), scan_done]
  have hsm := sm_range m
  rw [dadd_zero_small _ (by omega) (by omega), dadd_small _ _ (by omega) (by omega)]

/-- A non-missing result means that both cursors were exhausted after the scan. -/
theorem parse_dt_some_exhausted (is_fmt : Bool) (fmt text : List Char) (v : ℚ)
    (h : parse_dt [text] fmt is_fmt = .ok [some v]) :
    ∃ st, scan is_fmt fmt.length (St.init text fmt) = .ok st ∧ cur st.o = NUL ∧
      st.succeed = true ∧
      (is_fmt = true → cstr st.c = []) ∧
      (is_fmt = false → ∀ ch ∈ cstr st.c, DIGIT ch = false) := by
  simp only [parse_dt, parse_dt_entry] at h
  cases hs : scan is_fmt fmt.length (St.init text fmt) with
  | error e => rw [hs] at h; simp at h
  | ok st =>
    rw [hs] at h
    simp only [Except.ok.injEq, List.cons.injEq, and_true] at h
    refine ⟨st, rfl, ?_⟩
    simp [finish] at h
    obtain ⟨⟨⟨hc, ho⟩, hsu⟩, _⟩ := h
    refine ⟨ho, hsu, ?_, ?_⟩
    · intro hf; subst hf
      exact cstr_nil_of_cur _ (by simpa using hc)
    · intro hf; subst hf
      exact no_digit_of_skip _ (by simpa using hc)

theorem finish_trailing_strict (t : List Char) (ht : cstr t ≠ []) (y m d H M S : Int)
    (secs : ℚ) : finish true ⟨t, [], y, m, d, H, M, S, true, secs⟩ = none := by
  have h := cur_ne_NUL_of_cstr t ht
  simp [finish, h]

theorem finish_trailing_order (t : List Char) (ht : ∃ ch ∈ cstr t, DIGIT ch = true)
    (y m d H M S : Int) (secs : ℚ) :
    finish false ⟨t, [], y, m, d, H, M, S, true, secs⟩ = none := by
  have h : cur (skipNonDigits t) ≠ NUL := by
    intro h0
    obtain ⟨ch, hch, hd⟩ := ht
    have := no_digit_of_skip t h0 ch hch
    rw [this] at hd
    exact absurd hd (by decide)
  simp [finish, h]

/-- C8: trailing input is never silently truncated by `parse_dt`.  For a valid zero-padded
date `YYYY-mm-dd` followed by a non-empty text `t`, strict mode with `%Y-%m-%d` yields the
missing value; order mode with `Ymd` yields the missing value whenever `t` contains a
digit; and in general a non-missing result implies that after the scan the format is
exhausted and no input character (strict mode) or no input digit (order mode) remains. -/
theorem C8_trailing_input_not_truncated (Y m d : Nat) (hY : Y ≤ 9999) (hm : 1 ≤ m ∧ m ≤ 12)
    (hd : 1 ≤ d ∧ d ≤ daysInMonth Y m) (t : List Char) :
    (cstr t ≠ [] → parse_dt [dateText Y m d ++ t] "%Y-%m-%d".toList true = .ok [none]) ∧
    ((∃ ch ∈ cstr t, DIGIT ch = true) →
      parse_dt [dateText Y m d ++ t] "Ymd".toList false = .ok [none]) ∧
    (∀ (is_fmt : Bool) (fmt text : List Char) (v : ℚ),
      parse_dt [text] fmt is_fmt = .ok [some v] →
      ∃ st, scan is_fmt fmt.length (St.init text fmt) = .ok st ∧ cur st.o = NUL ∧
        (is_fmt = true → cstr st.c = []) ∧
        (is_fmt = false → ∀ ch ∈ cstr st.c, DIGIT ch = false)) := by
  have hd31 : d ≤ 31 := by
    have : daysInMonth Y m ≤ 31 := by
      unfold daysInMonth; split_ifs <;> omega
    omega
  refine ⟨fun ht => ?_, fun ht => ?_, fun is_fmt fmt text v h => ?_⟩
  · have hlen : "%Y-%m-%d".toList.length = 3 + 5 := rfl
    simp only [parse_dt, parse_dt_entry, hlen, scan_date 3 Y m d hY hm ⟨hd.1, hd31⟩ t,
      finish_trailing_strict t ht]
  · have hlen : "Ymd".toList.length = 0 + 3 := rfl
    simp only [parse_dt, parse_dt_entry, hlen, scanO_date 0 Y m d hY hm ⟨hd.1, hd31⟩ t,
      finish_trailing_order t ht]
  · obtain ⟨st, h1, h2, _, h3, h4⟩ := parse_dt_some_exhausted is_fmt fmt text v h
    exact ⟨st, h1, h2, h3, h4⟩

theorem C8_witness :
    (cstr ['7'] ≠ [] →
      parse_dt [dateText 2013 4 16 ++ ['7']] "%Y-%m-%d".toList true = .ok [none]) ∧
    ((∃ ch ∈ cstr ['7'], DIGIT ch = true) →
      parse_dt [dateText 2013 4 16 ++ ['7']] "Ymd".toList false = .ok [none]) ∧
    (∀ (is_fmt : Bool) (fmt text : List Char) (v : ℚ),
      parse_dt [text] fmt is_fmt = .ok [some v] →
      ∃ st, scan is_fmt fmt.length (St.init text fmt) = .ok st ∧ cur st.o = NUL ∧
        (is_fmt = true → cstr st.c = []) ∧
        (is_fmt = false → ∀ ch ∈ cstr st.c, DIGIT ch = false)) :=
  C8_trailing_input_not_truncated 2013 4 16 (by decide) (by decide) (by decide) ['7']

theorem scan_stopped (is_fmt : Bool) (n : Nat) (st : St) (h : st.succeed = false) :
    scan is_fmt n st = .ok st := by
  cases n <;> simp [scan, h]

theorem finish_failed (is_fmt : Bool) (st : St) (h : st.succeed = false) :
    finish is_fmt st = none := by
  simp [finish, h]

/-- A literal format character that differs from the input character fails the entry. -/
theorem scan_lit_mismatch (n : Nat) (st : St) (hsu : st.succeed = true)
    (hp : cur st.o ≠ '%') (h0 : cur st.o ≠ NUL) (hne : cur st.c ≠ cur st.o) :
    scan true (n + 1) st = .ok { st with succeed := false } := by
  simp [scan, body, hsu, hp, h0, hne, scan_stopped]

/-- C9: strict-format mode matches literal characters exactly.  Whenever the scan in
strict mode is at a format character other than `%` and the current input character differs
from it (the end of the input included), the scan stops with the success flag cleared and
the entry yields the missing value; in particular `%Y-%m-%d` on `YYYY` + `x` + `mm-dd` yields
the missing value for every character `x` other than `-`. -/
theorem C9_strict_literal_must_match (Y m d : Nat) (hY : Y ≤ 9999) (x : Char) (hx : x ≠ '-') :
    (∀ (st : St) (n : Nat), st.succeed = true → cur st.o ≠ '%' → cur st.o ≠ NUL →
      cur st.c ≠ cur st.o →
      scan true (n + 1) st = .ok { st with succeed := false } ∧
        finish true { st with succeed := false } = none) ∧
    parse_dt [pad4 Y ++ (x :: (pad2 m ++ ('-' :: pad2 d)))] "%Y-%m-%d".toList true
      = .ok [none] := by
  refine ⟨fun st n hsu hp h0 hne =>
    ⟨scan_lit_mismatch n st hsu hp h0 hne, finish_failed _ _ rfl⟩, ?_⟩
  have hlen : "%Y-%m-%d".toList.length = 6 + 1 + 1 := rfl
  simp only [parse_dt, parse_dt_entry, hlen]
  rw [fmt_date, St.init, scan_Y _ _ hY]
  have h1 : ('-' : Char) ≠ '%' := by decide
  have h2 : ('-' : Char) ≠ NUL := by decide
  have hstep := scan_lit_mismatch 6
    ⟨x :: (pad2 m ++ ('-' :: pad2 d)), ['-', '%', 'm', '-', '%', 'd'], Y, 0, 0, 0, 0, 0, true, 0⟩
    rfl h1 h2 hx
  rw [hstep]
  simp only [finish_failed]

theorem C9_witness :
    (∀ (st : St) (n : Nat), st.succeed = true → cur st.o ≠ '%' → cur st.o ≠ NUL →
      cur st.c ≠ cur st.o →
      scan true (n + 1) st = .ok { st with succeed := false } ∧
        finish true { st with succeed := false } = none) ∧
    parse_dt [pad4 2013 ++ ('/' :: (pad2 4 ++ ('-' :: pad2 16)))] "%Y-%m-%d".toList true
      = .ok [none] :=
  C9_strict_literal_must_match 2013 4 16 (by decide) '/' (by decide)

/-- The `switch` reaches R's `error` on every letter it has no case for. -/
theorem field_unrecognised (a b : Bool) (L : Char) (hL : ¬ Recognised L) (st : St) :
    field a b L st = .error (.unrecognized L) := by
  unfold Recognised at hL
  simp only [not_or] at hL
  obtain ⟨h1, h2, h3, h4, h5, h6, h7, h8, h9, h10, h11⟩ := hL
  simp [field, h1, h2, h3, h4, h5, h6, h7, h8, h9, h10, h11]

/-- The only abort a field handler can raise is R's `error`. -/
theorem field_error (a b : Bool) (L : Char) (st : St) (e : Abort)
    (h : field a b L st = .error e) : e = .unrecognized L := by
  unfold field at h
  by_cases h1 : L = 'Y'
  · rw [if_pos h1] at h; injection h
  rw [if_neg h1] at h
  by_cases h2 : L = 'y'
  · rw [if_pos h2] at h; injection h
  rw [if_neg h2] at h
  by_cases h3 : L = 'm'
  · rw [if_pos h3] at h; injection h
  rw [if_neg h3] at h
  by_cases h4 : L = 'd'
  · rw [if_pos h4] at h; injection h
  rw [if_neg h4] at h
  by_cases h5 : L = 'H'
  · rw [if_pos h5] at h; injection h
  rw [if_neg h5] at h
  by_cases h6 : L = 'M'
  · rw [if_pos h6] at h; injection h
  rw [if_neg h6] at h
  by_cases h7 : L = 'S'
  · rw [if_pos h7] at h; injection h
  rw [if_neg h7] at h
  by_cases h8 : L = 'u'
  · rw [if_pos h8] at h; injection h
  rw [if_neg h8] at h
  by_cases h9 : L = 'z'
  · rw [if_pos h9] at h
    cases b
    · simp only [Bool.not_false, if_true] at h
      injection h
    · simp only [Bool.not_true, Bool.false_eq_true, if_false] at h
      injection h
  rw [if_neg h9] at h
  by_cases h10 : L = 'O' ∨ L = 'o'
  · rw [if_pos h10] at h
    cases b
    · simp only [Bool.false_eq_true, if_false] at h
      injection h with h; exact h.symm
    · simp only [if_true] at h
      injection h
  rw [if_neg h10] at h
  injection h with h; exact h.symm

theorem length_tail_le (l : List Char) : l.tail.length ≤ l.length := by
  cases l <;> simp

theorem length_tail_lt (l : List Char) (h : 0 < l.length) : l.tail.length < l.length := by
  cases l with
  | nil => simp at h
  | cons a as => simp

/-- Shape of an iteration that reads a field: a guard, then the `switch`, then `o++`. -/
theorem body_field_form (is_fmt : Bool) (st : St) (hlit : ¬ (is_fmt && cur st.o != '%') = true) :
    ∃ (c1 o2 : List Char) (b k : Bool), o2.length ≤ st.o.length ∧
      body is_fmt st =
        if k = true then .ok { st with c := c1, o := o2, succeed := false }
        else
          match field is_fmt b (cur o2) { st with c := c1, o := o2 } with
          | .error e => .error e
          | .ok st2 => .ok { st2 with o := st2.o.tail } := by
  unfold body
  rw [if_neg hlit]
  refine ⟨_, _, _, _, ?_, rfl⟩
  cases is_fmt
  · simp only [Bool.false_eq_true, if_false]
    split
    · exact length_tail_le _
    · exact le_refl _
  · simp only [if_true]
    split
    · exact le_trans (length_tail_le _) (length_tail_le _)
    · exact length_tail_le _

/-- One iteration of the loop either clears the success flag or shortens the format. -/
theorem body_progress (is_fmt : Bool) (st r : St) (hne : cur st.o ≠ NUL)
    (h : body is_fmt st = .ok r) : r.succeed = false ∨ r.o.length < st.o.length := by
  have hpos : 0 < st.o.length := by
    cases ho : st.o with
    | nil => rw [ho] at hne; exact absurd rfl hne
    | cons a as => simp
  by_cases hlit : (is_fmt && cur st.o != '%') = true
  · unfold body at h
    rw [if_pos hlit] at h
    by_cases hm : (cur st.c == cur st.o) = true
    · rw [if_pos hm] at h
      injection h with h; rw [← h]
      exact Or.inr (length_tail_lt _ hpos)
    · rw [if_neg hm] at h
      injection h with h; rw [← h]
      exact Or.inl rfl
  · obtain ⟨c1, o2, b, k, hlen, hb⟩ := body_field_form is_fmt st hlit
    rw [hb] at h
    by_cases hk : k = true
    · rw [if_pos hk] at h
      injection h with h; rw [← h]; exact Or.inl rfl
    · rw [if_neg hk] at h
      cases hf : field is_fmt b (cur o2) { st with c := c1, o := o2 } with
      | error e => rw [hf] at h; injection h
      | ok st2 =>
        rw [hf] at h
        injection h with h; rw [← h]
        have ho2 : st2.o = o2 := field_o _ _ _ _ _ hf
        right
        show st2.o.tail.length < st.o.length
        rw [ho2]
        by_cases ho2e : o2 = []
        · rw [ho2e]; exact hpos
        · have : 0 < o2.length := List.length_pos.mpr ho2e
          exact lt_of_lt_of_le (length_tail_lt _ this) hlen

/-- The only abort an iteration can raise is R's `error`. -/
theorem body_error (is_fmt : Bool) (st : St) (e : Abort) (h : body is_fmt st = .error e) :
    ∃ L, e = .unrecognized L := by
  by_cases hlit : (is_fmt && cur st.o != '%') = true
  · unfold body at h
    rw [if_pos hlit] at h
    by_cases hm : (cur st.c == cur st.o) = true
    · rw [if_pos hm] at h; injection h
    · rw [if_neg hm] at h; injection h
  · obtain ⟨c1, o2, b, k, _, hb⟩ := body_field_form is_fmt st hlit
    rw [hb] at h
    by_cases hk : k = true
    · rw [if_pos hk] at h; injection h
    · rw [if_neg hk] at h
      cases hf : field is_fmt b (cur o2) { st with c := c1, o := o2 } with
      | error e2 =>
        rw [hf] at h
        injection h with h
        exact ⟨_, h ▸ field_error _ _ _ _ _ hf⟩
      | ok st2 => rw [hf] at h; injection h

/-- The unrolling bound used by `parse_dt_entry` is never exhausted. -/
theorem scan_never_fuel (is_fmt : Bool) (n : Nat) (st : St) (hn : st.o.length ≤ n) :
    scan is_fmt n st ≠ .error .fuel := by
  induction n generalizing st with
  | zero =>
    have ho : st.o = [] := List.length_eq_zero.mp (Nat.le_zero.mp hn)
    simp [scan, ho]
  | succ n ih =>
    unfold scan
    by_cases hc : (cur st.o != NUL && st.succeed) = true
    · rw [if_pos hc]
      have hne : cur st.o ≠ NUL := by
        simp only [Bool.and_eq_true, bne_iff_ne] at hc
        exact hc.1
      cases hb : body is_fmt st with
      | error e =>
        simp only []
        obtain ⟨L, hL⟩ := body_error is_fmt st e hb
        rw [hL]
        simp
      | ok r =>
        simp only []
        rcases body_progress is_fmt st r hne hb with h | h
        · rw [scan_stopped _ _ _ h]; simp
        · exact ih r (by omega)
    · rw [if_neg hc]; simp

theorem parse_dt_entry_never_fuel (ord : List Char) (is_fmt : Bool) (c : List Char) :
    parse_dt_entry ord is_fmt c ≠ .error .fuel := by
  unfold parse_dt_entry
  have h := scan_never_fuel is_fmt ord.length (St.init c ord) (le_refl _)
  cases hs : scan is_fmt ord.length (St.init c ord) with
  | error e =>
    simp only []
    intro he
    injection he with he
    rw [he] at hs
    exact h hs
  | ok st => simp

/-- The call aborts exactly when the scan of some entry reaches R's `error`. -/
theorem parse_dt_error_iff (strs : List (List Char)) (ord : List Char) (fmt : Bool) :
    (∃ e, parse_dt strs ord fmt = .error e) ↔
      ∃ s ∈ strs, ∃ e, parse_dt_entry ord fmt s = .error e := by
  induction strs with
  | nil => simp [parse_dt]
  | cons s rest ih =>
    cases hs : parse_dt_entry ord fmt s with
    | error e =>
      simp only [parse_dt, hs]
      exact ⟨fun _ => ⟨s, List.mem_cons_self _ _, e, hs⟩, fun _ => ⟨e, rfl⟩⟩
    | ok v =>
      cases hr : parse_dt rest ord fmt with
      | error e =>
        simp only [parse_dt, hs, hr]
        obtain ⟨s2, hs2, e2, he2⟩ := ih.mp ⟨e, hr⟩
        exact ⟨fun _ => ⟨s2, List.mem_cons_of_mem _ hs2, e2, he2⟩, fun _ => ⟨e, rfl⟩⟩
      | ok vs =>
        simp only [parse_dt, hs, hr]
        constructor
        · rintro ⟨e, he⟩; injection he
        · rintro ⟨s2, hs2, e2, he2⟩
          rcases List.mem_cons.mp hs2 with h | h
          · rw [h, hs] at he2; injection he2
          · obtain ⟨e3, he3⟩ := ih.mpr ⟨s2, h, e2, he2⟩
            rw [hr] at he3; injection he3

/-- When the call returns, it returns the results of the entries, one per entry. -/
theorem parse_dt_ok_iff (strs : List (List Char)) (ord : List Char) (fmt : Bool)
    (vs : List (Option ℚ)) :
    parse_dt strs ord fmt = .ok vs ↔
      List.Forall₂ (fun s v => parse_dt_entry ord fmt s = .ok v) strs vs := by
  induction strs generalizing vs with
  | nil =>
    simp only [parse_dt, List.forall₂_nil_left_iff]
    constructor
    · intro h; injection h with h; exact h.symm
    · intro h; rw [h]
  | cons s rest ih =>
    cases hs : parse_dt_entry ord fmt s with
    | error e =>
      simp only [parse_dt, hs]
      constructor
      · intro h; injection h
      · intro h
        cases h with
        | cons h1 _ => rw [hs] at h1; injection h1
    | ok v =>
      cases hr : parse_dt rest ord fmt with
      | error e =>
        simp only [parse_dt, hs, hr]
        constructor
        · intro h; injection h
        · intro h
          cases h with
          | cons h1 h2 =>
            have := (ih _).mpr h2
            rw [hr] at this; injection this
      | ok ws =>
        simp only [parse_dt, hs, hr]
        constructor
        · intro h
          injection h with h
          rw [← h]
          exact List.Forall₂.cons hs ((ih ws).mp hr)
        · intro h
          cases h with
          | cons h1 h2 =>
            rw [hs] at h1
            injection h1 with h1
            have := (ih _).mpr h2
            rw [hr] at this
            injection this with this
            rw [h1, this]

/-- Order mode at an unrecognised letter. -/
theorem scan_unrecognised_order (L : Char) (hL : ¬ Recognised L) (hL0 : L ≠ NUL) (st : St)
    (or : List Char) (n : Nat) (hsu : st.succeed = true) (ho : st.o = L :: or) :
    scan false (n + 1) st =
      if DIGIT (cur (skipNonDigits st.c)) = true then .error (.unrecognized L)
      else .ok { st with c := skipNonDigits st.c, succeed := false } := by
  have hO : L ≠ 'O' := fun h => hL (by simp [Recognised, h])
  have hz : L ≠ 'z' := fun h => hL (by simp [Recognised, h])
  have hLb : (L == 'O') = false := by simpa using hO
  by_cases hd : DIGIT (cur (skipNonDigits st.c)) = true
  · simp [scan, body, ho, hsu, hL0, hO, hz, hLb, hd, field_unrecognised _ _ L hL]
  · simp [scan, body, ho, hsu, hL0, hO, hz, hLb, hd, scan_stopped]

/-- Strict mode at an unrecognised letter. -/
theorem scan_unrecognised_strict (L : Char) (hL : ¬ Recognised L) (st : St)
    (or : List Char) (n : Nat) (hsu : st.succeed = true) (ho : st.o = '%' :: L :: or) :
    scan true (n + 1) st =
      if DIGIT (cur st.c) = true then .error (.unrecognized L)
      else .ok { st with o := L :: or, succeed := false } := by
  have hO : L ≠ 'O' := fun h => hL (by simp [Recognised, h])
  have hz : L ≠ 'z' := fun h => hL (by simp [Recognised, h])
  have hLb : (L == 'O') = false := by simpa using hO
  have hp : ('%' : Char) ≠ NUL := by decide
  by_cases hd : DIGIT (cur st.c) = true
  · simp [scan, body, ho, hsu, hp, hO, hz, hLb, hd, field_unrecognised _ _ L hL]
  · simp [scan, body, ho, hsu, hp, hO, hz, hLb, hd, scan_stopped]

/-- C10 (as stated, refuted): with order `Yx` the entry `2013 5` reaches the letter `x` at
a digit, and with strict format `%Y-%q` the entry `2013-5` reaches `q` at a digit: the whole
call is aborted by R's `error`, and the entry `2013` of the same batch gets no result. -/
theorem C10_counterexample :
    parse_dt ["2013".toList, "2013 5".toList] "Yx".toList false = .error (.unrecognized 'x') ∧
    parse_dt ["2013".toList, "2013-5".toList] "%Y-%q".toList true
      = .error (.unrecognized 'q') := by
  constructor <;> rfl

/-- C10 (amended): an unrecognised format letter `L` (no `O` prefix) aborts the whole call
when the scan of an entry reaches it with the input cursor at a digit (in order mode: after
the separators were skipped): the scan raises R's `error`; when the input cursor is not at
a digit the scan only clears the success flag of that entry.  The call as a whole is
aborted exactly when the scan of some entry raises the error, and otherwise returns the
results of the entries, one per entry. -/
theorem C10_unrecognised_letter_aborts_at_digit (L : Char) (hL : ¬ Recognised L)
    (hL0 : L ≠ NUL) :
    (∀ (st : St) (or : List Char) (n : Nat), st.succeed = true → st.o = L :: or →
      scan false (n + 1) st =
        if DIGIT (cur (skipNonDigits st.c)) = true then .error (.unrecognized L)
        else .ok { st with c := skipNonDigits st.c, succeed := false }) ∧
    (∀ (st : St) (or : List Char) (n : Nat), st.succeed = true → st.o = '%' :: L :: or →
      scan true (n + 1) st =
        if DIGIT (cur st.c) = true then .error (.unrecognized L)
        else .ok { st with o := L :: or, succeed := false }) ∧
    (∀ (strs : List (List Char)) (ord : List Char) (fmt : Bool),
      (∃ e, parse_dt strs ord fmt = .error e) ↔
        ∃ s ∈ strs, ∃ e, parse_dt_entry ord fmt s = .error e) ∧
    (∀ (strs : List (List Char)) (ord : List Char) (fmt : Bool) (vs : List (Option ℚ)),
      parse_dt strs ord fmt = .ok vs ↔
        List.Forall₂ (fun s v => parse_dt_entry ord fmt s = .ok v) strs vs) :=
  ⟨fun st or n hsu ho => scan_unrecognised_order L hL hL0 st or n hsu ho,
    fun st or n hsu ho => scan_unrecognised_strict L hL st or n hsu ho,
    parse_dt_error_iff, parse_dt_ok_iff⟩

theorem C10_witness :
    (∀ (st : St) (or : List Char) (n : Nat), st.succeed = true → st.o = 'x' :: or →
      scan false (n + 1) st =
        if DIGIT (cur (skipNonDigits st.c)) = true then .error (.unrecognized 'x')
        else .ok { st with c := skipNonDigits st.c, succeed := false }) ∧
    (∀ (st : St) (or : List Char) (n : Nat), st.succeed = true → st.o = '%' :: 'x' :: or →
      scan true (n + 1) st =
        if DIGIT (cur st.c) = true then .error (.unrecognized 'x')
        else .ok { st with o := 'x' :: or, succeed := false }) ∧
    (∀ (strs : List (List Char)) (ord : List Char) (fmt : Bool),
      (∃ e, parse_dt strs ord fmt = .error e) ↔
        ∃ s ∈ strs, ∃ e, parse_dt_entry ord fmt s = .error e) ∧
    (∀ (strs : List (List Char)) (ord : List Char) (fmt : Bool) (vs : List (Option ℚ)),
      parse_dt strs ord fmt = .ok vs ↔
        List.Forall₂ (fun s v => parse_dt_entry ord fmt s = .ok v) strs vs) :=
  C10_unrecognised_letter_aborts_at_digit 'x' (by simp [Recognised]) (by decide)

/-- With order `Yx`, the entry `2013` alone reaches `x` at the end of the input: it gets the
missing value and no error is raised. -/
theorem order_Yx_no_digit :
    parse_dt ["2013".toList] "Yx".toList false = .ok [none] := by
  rfl

/-- A field handler that clears the success flag ends the strict scan. -/
theorem scan_field_fail (n : Nat) (L : Char) (hL : L ≠ 'O') (c or : List Char)
    (hc : DIGIT (cur c) = true ∨ L = 'z') (y m d H M S : Int) (secs : ℚ) (r : St)
    (hf : field true false L ⟨c, L :: or, y, m, d, H, M, S, true, secs⟩ = .ok r)
    (hr : r.succeed = false) :
    ∃ r2, scan true (n + 1) ⟨c, '%' :: L :: or, y, m, d, H, M, S, true, secs⟩ = .ok r2 ∧
      r2.succeed = false := by
  rw [scan_field _ _ hL _ _ hc, hf]
  exact ⟨_, scan_stopped _ _ _ hr, hr⟩

theorem scan_H_fail (n k : Nat) (hk : 24 < k) (hk99 : k ≤ 99) (cr or : List Char)
    (y m d M S : Int) (secs : ℚ) :
    ∃ r2, scan true (n + 1) ⟨pad2 k ++ cr, '%' :: 'H' :: or, y, m, d, 0, M, S, true, secs⟩
        = .ok r2 ∧ r2.succeed = false := by
  have h2 : ¬ (k : Int) < 25 := by omega
  apply scan_field_fail _ _ (by decide) _ _ (Or.inl (DIGIT_cur_pad2 _ _)) _ _ _ _ _ _ _ _
    (field_eq_H _ _ _)
  simp [field_H, PARSENUM_pad2 _ hk99, h2]

theorem scan_M_fail (n k : Nat) (hk : 60 < k) (hk99 : k ≤ 99) (cr or : List Char)
    (y m d H S : Int) (secs : ℚ) :
    ∃ r2, scan true (n + 1) ⟨pad2 k ++ cr, '%' :: 'M' :: or, y, m, d, H, 0, S, true, secs⟩
        = .ok r2 ∧ r2.succeed = false := by
  have h2 : ¬ (k : Int) < 61 := by omega
  apply scan_field_fail _ _ (by decide) _ _ (Or.inl (DIGIT_cur_pad2 _ _)) _ _ _ _ _ _ _ _
    (field_eq_M _ _ _)
  simp [field_M, PARSENUM_pad2 _ hk99, h2]

theorem scan_S_fail (n k : Nat) (hk : 61 < k) (hk99 : k ≤ 99) (cr or : List Char)
    (y m d H M : Int) (secs : ℚ) :
    ∃ r2, scan true (n + 1) ⟨pad2 k ++ cr, '%' :: 'S' :: or, y, m, d, H, M, 0, true, secs⟩
        = .ok r2 ∧ r2.succeed = false := by
  have h2 : ¬ (k : Int) < 62 := by omega
  apply scan_field_fail _ _ (by decide) _ _ (Or.inl (DIGIT_cur_pad2 _ _)) _ _ _ _ _ _ _ _
    (field_eq_S _ _ _)
  simp [field_S, PARSENUM_pad2 _ hk99, h2]

theorem fmt_time : "%H:%M:%S".toList = '%' :: 'H' :: ':' :: '%' :: 'M' :: ':' :: '%' :: 'S' :: [] :=
  rfl

/-- Strict `%H:%M:%S` on a two-digit time text. -/
theorem parse_time (H M S : Nat) (hH : H ≤ 99) (hM : M ≤ 99) (hS : S ≤ 99) :
    parse_dt [timeText H M S] "%H:%M:%S".toList true
      = .ok [if H ≤ 24 ∧ M ≤ 60 ∧ S ≤ 61 then
          some (-62167219200 + (3600 * (H : ℚ) + 60 * (M : ℚ) + (S : ℚ))) else none] := by
  have hlen : "%H:%M:%S".toList.length = 3 + 5 := rfl
  simp only [parse_dt, parse_dt_entry, hlen]
  rw [fmt_time, St.init, ← List.append_nil (timeText H M S)]
  by_cases h1 : H ≤ 24
  · by_cases h2 : M ≤ 60
    · by_cases h3 : S ≤ 61
      · rw [← Int.cast_zero (R := ℚ),
          scan_time _ _ _ _ h1 h2 h3 _ _ _ _ _ 0 (by omega) (by omega), scan_done]
        have hfin := finish_done true 0 0 0 H M S
          (0 + (H : Int) * 3600 + (M : Int) * 60 + (S : Int))
          (by omega) (by omega) (by omega) (by omega)
        simp only [hfin, checkMonth_zero, h1, h2, h3, and_self, if_true]
        refine congrArg (fun q => Except.ok [some q]) ?_
        have hb := base_value
        push_cast
        linear_combination hb
      · rw [timeText_append, scan_H _ _ h1, scan_lit _ _ (by decide) (by decide),
          scan_M _ _ h2, scan_lit _ _ (by decide) (by decide)]
        obtain ⟨r2, e, hr⟩ := scan_S_fail 3 S (by omega) hS [] []
          0 0 0 H M (dadd (dadd 0 (((H : Int) * 3600 : Int) : ℚ)) (((M : Int) * 60 : Int) : ℚ))
        rw [e]
        simp only [finish_failed _ _ hr, h3, and_false, if_false]
    · rw [timeText_append, scan_H _ _ h1, scan_lit _ _ (by decide) (by decide)]
      obtain ⟨r2, e, hr⟩ := scan_M_fail 5 M (by omega) hM (':' :: (pad2 S ++ []))
        (':' :: '%' :: 'S' :: []) 0 0 0 H 0 (dadd 0 (((H : Int) * 3600 : Int) : ℚ))
      rw [e]
      simp only [finish_failed _ _ hr, h2, false_and, and_false, if_false]
  · rw [timeText_append]
    obtain ⟨r2, e, hr⟩ := scan_H_fail 7 H (by omega) hH
      (':' :: (pad2 M ++ (':' :: (pad2 S ++ []))))
      (':' :: '%' :: 'M' :: ':' :: '%' :: 'S' :: []) 0 0 0 0 0 0
    rw [e]
    simp only [finish_failed _ _ hr, h1, false_and, if_false]

/-- C15: local range checks of the time fields.  For all two-digit texts `HH`, `MM`, `SS`,
strict mode with `%H:%M:%S` on `HH:MM:SS` returns a non-missing value exactly when
`HH ≤ 24`, `MM ≤ 60` and `SS ≤ 61`, and that value exceeds the value `v0` of `00:00:00` by
`3600*HH + 60*MM + SS`. -/
theorem C15_time_field_ranges (H M S : Nat) (hH : H ≤ 99) (hM : M ≤ 99) (hS : S ≤ 99) :
    ∃ v0 : ℚ,
      parse_dt [timeText 0 0 0] "%H:%M:%S".toList true = .ok [some v0] ∧
      ((H ≤ 24 ∧ M ≤ 60 ∧ S ≤ 61) →
        parse_dt [timeText H M S] "%H:%M:%S".toList true
          = .ok [some (v0 + (3600 * (H : ℚ) + 60 * (M : ℚ) + (S : ℚ)))]) ∧
      (¬ (H ≤ 24 ∧ M ≤ 60 ∧ S ≤ 61) →
        parse_dt [timeText H M S] "%H:%M:%S".toList true = .ok [none]) := by
  refine ⟨-62167219200, ?_, fun h => ?_, fun h => ?_⟩
  · rw [parse_time 0 0 0 (by omega) (by omega) (by omega)]
    simp
  · rw [parse_time H M S hH hM hS, if_pos h]
  · rw [parse_time H M S hH hM hS, if_neg h]

theorem C15_witness :
    ∃ v0 : ℚ,
      parse_dt [timeText 0 0 0] "%H:%M:%S".toList true = .ok [some v0] ∧
      ((24 ≤ 24 ∧ 60 ≤ 60 ∧ 61 ≤ 61) →
        parse_dt [timeText 24 60 61] "%H:%M:%S".toList true
          = .ok [some (v0 + (3600 * ((24 : Nat) : ℚ) + 60 * ((60 : Nat) : ℚ) + ((61 : Nat) : ℚ)))]) ∧
      (¬ (24 ≤ 24 ∧ 60 ≤ 60 ∧ 61 ≤ 61) →
        parse_dt [timeText 24 60 61] "%H:%M:%S".toList true = .ok [none]) :=
  C15_time_field_ranges 24 60 61 (by decide) (by decide) (by decide)

theorem checkMonth_day_zero (Y m : Nat) (hm : m ≤ 12) : checkMonth (Y : Int) (m : Int) 0 = true := by
  interval_cases m <;> cases hL : leapOf (Y : Int) <;> simp [checkMonth, mdays, hL]

/-- The epoch second of the first day of a year, from the year arithmetic alone. -/
theorem year_value (Y : Nat) (hY : Y ≤ 9999) :
    (0 : ℚ) + yearSecs Y 0 + (d30 : ℚ) = ((86400 * daysFromEpoch Y 1 1 : Int) : ℚ) := by
  have h := yearSecs_eq Y hY 0
  simp only [Nat.cast_zero] at h
  rw [h]
  have h2 := daysFromEpoch_cast Y 1 1
  simp only [daysBeforeMonth, Nat.cast_zero, Nat.cast_one] at h2
  simp only [d30]
  push_cast at h2 ⊢
  rw [h2]
  have h3 : ¬ ((3 : Int) ≤ 0) := by decide
  simp only [h3, and_false, if_false]
  ring

/-- The epoch second of the first day of a month. -/
theorem month_value (Y m : Nat) (hY : Y ≤ 9999) (hm : 1 ≤ m ∧ m ≤ 12) :
    (0 : ℚ) + ((sm.getD m 0 : Int) : ℚ) + yearSecs Y m + (d30 : ℚ)
      = ((86400 * daysFromEpoch Y m 1 : Int) : ℚ) := by
  have h1 := epoch_secs Y m hY hm
  have h2 := daysFromEpoch_cast Y m 1
  push_cast at h1 h2 ⊢
  linear_combination h1 - 86400 * h2

/-- C18: omitted fields default to the start of the period.  For every year 0..9999 and
month 1..12, strict mode with `%Y` on `YYYY` returns the epoch second of
`Y-01-01T00:00:00`, and with `%Y-%m` on `YYYY-mm` that of `Y-m-01T00:00:00`. -/
theorem C18_omitted_fields_start_of_period (Y m : Nat) (hY : Y ≤ 9999) (hm : 1 ≤ m ∧ m ≤ 12) :
    parse_dt [pad4 Y] "%Y".toList true = .ok [some ((86400 * daysFromEpoch Y 1 1 : Int) : ℚ)] ∧
    parse_dt [pad4 Y ++ ('-' :: pad2 m)] "%Y-%m".toList true
      = .ok [some ((86400 * daysFromEpoch Y m 1 : Int) : ℚ)] := by
  constructor
  · have hlen : "%Y".toList.length = 1 + 1 := rfl
    have hf : "%Y".toList = '%' :: 'Y' :: [] := rfl
    simp only [parse_dt, parse_dt_entry, hlen]
    rw [hf, St.init, ← List.append_nil (pad4 Y), scan_Y _ _ hY, scan_done]
    have hck := checkMonth_day_zero Y 0 (by omega)
    simp only [Nat.cast_zero] at hck
    have hfin := finish_done true Y 0 0 0 0 0 0 (by omega) (by omega) (by omega) (by omega)
    rw [Int.cast_zero] at hfin
    simp only [hfin, hck, if_true, year_value Y hY]
  · have hlen : "%Y-%m".toList.length = 2 + 1 + 1 + 1 := rfl
    have hf : "%Y-%m".toList = '%' :: 'Y' :: '-' :: '%' :: 'm' :: [] := rfl
    simp only [parse_dt, parse_dt_entry, hlen]
    rw [hf, St.init, ← List.append_nil (pad2 m), scan_Y _ _ hY,
      scan_lit _ _ (by decide) (by decide), scan_m _ _ hm, scan_done]
    have hsm := sm_range m
    rw [dadd_zero_small _ (by omega) (by omega)]
    have hfin := finish_done true Y m 0 0 0 0 (sm.getD m 0) (by omega) (by omega) (by omega)
      (by omega)
    simp only [hfin, checkMonth_day_zero Y m hm.2, if_true]
    refine congrArg (fun q => Except.ok [some q]) ?_
    have h := month_value Y m hY hm
    rw [zero_add] at h
    exact h

theorem C18_witness :
    parse_dt [pad4 1996] "%Y".toList true
      = .ok [some ((86400 * daysFromEpoch 1996 1 1 : Int) : ℚ)] ∧
    parse_dt [pad4 1996 ++ ('-' :: pad2 3)] "%Y-%m".toList true
      = .ok [some ((86400 * daysFromEpoch 1996 3 1 : Int) : ℚ)] :=
  C18_omitted_fields_start_of_period 1996 3 (by decide) (by decide)

/-- C17 (as stated, refuted): 2000-02-29 is accepted although the day 29 is neither 0 nor
strictly less than 29, the bound the claim gives for February of a leap year. -/
theorem C17_counterexample :
    (∃ v, parse_dt ["2000-02-29".toList] "%Y-%m-%d".toList true = .ok [some v]) ∧
    leapOf 2000 = true ∧ checkMonth 2000 2 29 = true ∧
    ¬ ((29 : Int) = 0 ∨ (29 : Int) < 29) := by
  refine ⟨?_, by decide, by decide, by decide⟩
  have h := parse_date 2000 2 29 (by decide) (by decide) (by decide)
  rw [if_pos (by decide)] at h
  exact ⟨_, h⟩

theorem finish_isSome (is_fmt : Bool) (st : St) (hsu : st.succeed = true)
    (ho : cur st.o = NUL) (hc : cur (if is_fmt = true then st.c else skipNonDigits st.c) = NUL) :
    (finish is_fmt st).isSome = checkMonth st.y st.m st.d := by
  cases is_fmt
  · simp only [Bool.false_eq_true, if_false] at hc
    simp [finish, hsu, ho, hc]
    cases checkMonth st.y st.m st.d <;> simp
  · simp only [if_true] at hc
    simp [finish, hsu, ho, hc]
    cases checkMonth st.y st.m st.d <;> simp

/-- C17 (amended): post-scan day validation.  An entry whose scan succeeded with both
cursors exhausted is accepted exactly when, for month 2, the day is at most 29 in a leap
year and at most 28 otherwise (the code tests `d < 30` and `d < 29`; day 0, no day field,
is accepted), and for any other month the day is at most the days-in-month table value. -/
theorem C17_post_scan_day_validation (is_fmt : Bool) (st : St) (hsu : st.succeed = true)
    (ho : cur st.o = NUL) (hc : cur (if is_fmt = true then st.c else skipNonDigits st.c) = NUL) :
    (∃ v, finish is_fmt st = some v) ↔
      ((st.m = 2 → st.d ≤ (if leapOf st.y = true then 29 else 28)) ∧
        (st.m ≠ 2 → st.d ≤ mdays.getD st.m.toNat 0)) := by
  have h := finish_isSome is_fmt st hsu ho hc
  rw [← Option.isSome_iff_exists, h]
  unfold checkMonth
  by_cases hm : st.m = 2
  · cases hL : leapOf st.y
    · simp only [hm, if_true, Bool.false_eq_true, if_false, decide_eq_true_eq, true_implies,
        ne_eq, not_true_eq_false, false_implies, and_true]
      omega
    · simp only [hm, if_true, decide_eq_true_eq, true_implies, ne_eq, not_true_eq_false,
        false_implies, and_true]
      omega
  · simp only [hm, if_false, decide_eq_true_eq, false_implies, ne_eq, not_false_eq_true,
      true_implies, true_and]

theorem C17_witness :
    (∃ v, finish true ⟨[], [], 2000, 2, 29, 0, 0, 0, true, 0⟩ = some v) ↔
      (((2 : Int) = 2 → (29 : Int) ≤ (if leapOf 2000 = true then 29 else 28)) ∧
        ((2 : Int) ≠ 2 → (29 : Int) ≤ mdays.getD (2 : Int).toNat 0)) :=
  C17_post_scan_day_validation true ⟨[], [], 2000, 2, 29, 0, 0, 0, true, 0⟩ rfl rfl rfl

theorem HMSLetter_ne_NUL (L : Char) (hL : HMSLetter L) : L ≠ NUL := by
  rcases hL with h | h | h <;> subst h <;> decide

/-- The separator skip always stops at a digit or at the end of the text. -/
theorem skip_digit_or_end (l : List Char) :
    DIGIT (cur (skipNonDigits l)) = true ∨ cur (skipNonDigits l) = NUL := by
  induction l with
  | nil => right; rfl
  | cons a as ih =>
    by_cases ha : a = NUL
    · right; simp [skipNonDigits, ha]
    · by_cases hd : DIGIT a = true
      · left; rw [skipNonDigits_cons_digit _ _ hd]; exact hd
      · have hd2 : DIGIT a = false := by simpa using hd
        rw [skipNonDigits_sep _ _ ha hd2]; exact ih

theorem DIGIT_NUL : DIGIT NUL = false := by decide

/-- What one `switch` of `parse_hms` does on a letter of the order string. -/
theorem hmsField_spec (L : Char) (hL : HMSLetter L) (st : HSt) :
    ∃ st2, hmsField L st = .ok st2 ∧ st2.o = st.o ∧
      (∀ K, HMSLetter K → K ≠ L → st2.slot K = st.slot K) ∧
      (DIGIT (cur st.c) = true → ∃ v, st2.slot L = .val v) ∧
      (DIGIT (cur st.c) = false → st2.slot L = .na ∧ st2.c = st.c) := by
  rcases hL with h | h | h <;> subst h
  · by_cases hd : DIGIT (cur st.c) = true
    · refine ⟨⟨(parseInt st.H st.c).2, st.o, (parseInt st.H st.c).1, st.M, st.S,
          .val ((parseInt st.H st.c).1 : ℚ), st.dM, st.dS⟩, by simp [hmsField, hd], rfl, ?_, ?_, ?_⟩
      · intro K hK0 hK; simp [HSt.slot, hK]
      · intro _; exact ⟨_, rfl⟩
      · intro h; rw [hd] at h; exact absurd h (by decide)
    · refine ⟨{ st with dH := .na }, by simp [hmsField, hd], rfl, ?_, ?_, ?_⟩
      · intro K hK0 hK; simp [HSt.slot, hK]
      · intro h; exact absurd h hd
      · intro _; exact ⟨by simp [HSt.slot], rfl⟩
  · by_cases hd : DIGIT (cur st.c) = true
    · refine ⟨⟨(parseInt st.M st.c).2, st.o, st.H, (parseInt st.M st.c).1, st.S,
          st.dH, .val ((parseInt st.M st.c).1 : ℚ), st.dS⟩, by simp [hmsField, hd], rfl, ?_, ?_, ?_⟩
      · intro K hK0 hK; by_cases hKH : K = 'H' <;> simp [HSt.slot, hK, hKH]
      · intro _; exact ⟨_, rfl⟩
      · intro h; rw [hd] at h; exact absurd h (by decide)
    · refine ⟨{ st with dM := .na }, by simp [hmsField, hd], rfl, ?_, ?_, ?_⟩
      · intro K hK0 hK; by_cases hKH : K = 'H' <;> simp [HSt.slot, hK, hKH]
      · intro h; exact absurd h hd
      · intro _; exact ⟨by simp [HSt.slot], rfl⟩
  · by_cases hd : DIGIT (cur st.c) = true
    · by_cases hsep :
          (cur (parseNum st.S st.c).2 == '.' || cur (parseNum st.S st.c).2 == ',') = true
      · refine ⟨⟨(parseFrac 0 tenth (parseNum st.S st.c).2.tail).2, st.o, st.H, st.M,
            dadd (parseNum st.S st.c).1 (parseFrac 0 tenth (parseNum st.S st.c).2.tail).1,
            st.dH, st.dM,
            .val (dadd (parseNum st.S st.c).1
              (parseFrac 0 tenth (parseNum st.S st.c).2.tail).1)⟩, ?_, rfl, ?_, ?_, ?_⟩
        · simp only [hmsField]
          simp [hd, hsep]
        · intro K hK0 hK
          rcases hK0 with h | h | h <;> subst h <;> first | rfl | exact absurd rfl hK
        · intro _; exact ⟨_, rfl⟩
        · intro h; rw [hd] at h; exact absurd h (by decide)
      · refine ⟨⟨(parseNum st.S st.c).2, st.o, st.H, st.M, (parseNum st.S st.c).1,
            st.dH, st.dM, .val (parseNum st.S st.c).1⟩, ?_, rfl, ?_, ?_, ?_⟩
        · simp only [hmsField]
          simp [hd, hsep]
        · intro K hK0 hK
          rcases hK0 with h | h | h <;> subst h <;> first | rfl | exact absurd rfl hK
        · intro _; exact ⟨_, rfl⟩
        · intro h; rw [hd] at h; exact absurd h (by decide)
    · refine ⟨{ st with dS := .na }, by simp [hmsField, hd], rfl, ?_, ?_, ?_⟩
      · intro K hK0 hK
        rcases hK0 with h | h | h <;> subst h <;> first | rfl | exact absurd rfl hK
      · intro h; exact absurd h hd
      · intro _; exact ⟨by simp [HSt.slot], rfl⟩

theorem hmsScan_cons (L : Char) (h0 : L ≠ NUL) (rest : List Char) (st : HSt) :
    hmsScan (L :: rest) st =
      match hmsField L st with
      | .error e => .error e
      | .ok st2 => hmsScan rest { st2 with c := skipNonDigits st2.c, o := rest } := by
  rw [hmsScan, if_neg h0]

/-- Over the letters H, M, S the loop of `parse_hms` always terminates normally; it
leaves the order cursor at the end and does not touch the cells of absent letters. -/
theorem hmsScan_total (ord : List Char) (hord : ∀ L ∈ ord, HMSLetter L) (st : HSt) :
    ∃ r, hmsScan ord st = .ok r ∧ (st.o = ord → r.o = []) ∧
      (∀ K, HMSLetter K → K ∉ ord → r.slot K = st.slot K) := by
  induction ord generalizing st with
  | nil => exact ⟨st, rfl, fun h => h, fun _ _ _ => rfl⟩
  | cons L rest ih =>
    have hL := hord L (List.mem_cons_self _ _)
    obtain ⟨st2, e2, _, hk, _, _⟩ := hmsField_spec L hL st
    obtain ⟨r, er, hro, hrk⟩ :=
      ih (fun K hK => hord K (List.mem_cons_of_mem _ hK))
        { st2 with c := skipNonDigits st2.c, o := rest }
    refine ⟨r, ?_, fun _ => hro rfl, ?_⟩
    · rw [hmsScan_cons L (HMSLetter_ne_NUL L hL), e2]
      exact er
    · intro K hK hKn
      have h1 : K ≠ L := fun h => hKn (by rw [h]; exact List.mem_cons_self _ _)
      have h2 : K ∉ rest := fun h => hKn (List.mem_cons_of_mem _ h)
      rw [hrk K hK h2]
      exact hk K hK h1

/-- The `int` digit loop reads the decimal value of a run of at most 9 digits. -/
theorem parseInt_digits (ds : List Char) (hds : IsDigits ds) (x : Int) (hx0 : 0 ≤ x)
    (hb : (x + 1) * 10 ^ ds.length ≤ 2147483648) (rest : List Char)
    (hr : DIGIT (cur rest) = false) :
    ∃ v : Int, parseInt x (ds ++ rest) = (v, rest) ∧
      (v : ℚ) = ds.foldl (fun a ch => a * 10 + (digitVal ch : ℚ)) (x : ℚ) := by
  induction ds generalizing x with
  | nil =>
    refine ⟨x, ?_, rfl⟩
    cases rest with
    | nil => rfl
    | cons r rs =>
      have hr2 : DIGIT r = false := hr
      simp [parseInt, hr2]
  | cons ch ds ih =>
    have h1 : DIGIT ch = true := hds ch (List.mem_cons_self _ _)
    have h2 : IsDigits ds := fun c hc => hds c (List.mem_cons_of_mem _ hc)
    obtain ⟨hv0, hv9⟩ := digitVal_range ch h1
    have hp0 : (0 : Int) < 10 ^ ds.length := by positivity
    have hp : (1 : Int) ≤ 10 ^ ds.length := by omega
    have hb2 : (x + 1) * 10 * 10 ^ ds.length ≤ 2147483648 := by
      have : (x + 1) * 10 ^ (ch :: ds).length = (x + 1) * 10 * 10 ^ ds.length := by
        simp only [List.length_cons, pow_succ]; ring
      rw [← this]; exact hb
    have hb3 : (x * 10 + digitVal ch + 1) * 10 ^ ds.length ≤ 2147483648 := by
      have h3 : (x * 10 + digitVal ch + 1) * 10 ^ ds.length ≤ (x + 1) * 10 * 10 ^ ds.length := by
        apply mul_le_mul_of_nonneg_right _ (by omega)
        omega
      omega
    have hlt : x * 10 + digitVal ch < 2147483648 := by
      have h3 : (x * 10 + digitVal ch + 1) * 1 ≤ (x * 10 + digitVal ch + 1) * 10 ^ ds.length := by
        apply mul_le_mul_of_nonneg_left hp (by omega)
      omega
    obtain ⟨v, e, hv⟩ := ih h2 (x * 10 + digitVal ch) (by omega) hb3
    refine ⟨v, ?_, ?_⟩
    · simp only [List.cons_append, parseInt, h1, if_true]
      rw [wrap32_eq _ (by omega) hlt]
      exact e
    · rw [hv]
      simp only [List.foldl_cons]
      push_cast
      rfl

theorem parseInt_run (ds : List Char) (hds : IsDigits ds) (hlen : ds.length ≤ 9)
    (rest : List Char) (hr : DIGIT (cur rest) = false) :
    ∃ v : Int, parseInt 0 (ds ++ rest) = (v, rest) ∧ (v : ℚ) = decValue ds := by
  have hp : (10 : Int) ^ ds.length ≤ 10 ^ 9 := pow_le_pow_right₀ (by norm_num) hlen
  obtain ⟨v, e, hv⟩ := parseInt_digits ds hds 0 (le_refl _) (by norm_num at hp ⊢; omega) rest hr
  exact ⟨v, e, by rw [hv]; simp [decValue]⟩

theorem cur_append_ne (a l : List Char) (h : a ≠ []) : cur (a ++ l) = cur a := by
  cases a with
  | nil => exact absurd rfl h
  | cons x xs => rfl

/-- One iteration of `parse_hms` on a run of digits: the cell of the letter receives the
decimal value of the run. -/
theorem hms_step (L : Char) (hL : HMSLetter L) (st : HSt) (r rest : List Char) (hr : r ≠ [])
    (hrd : IsDigits r) (hlen : r.length ≤ 9) (hc : st.c = r ++ rest)
    (hrest : DIGIT (cur rest) = false) (hS : L = 'S' → cur rest ≠ '.' ∧ cur rest ≠ ',')
    (hfresh : st.fresh L) :
    ∃ st2, hmsField L st = .ok st2 ∧ st2.c = rest ∧ st2.slot L = .val (decValue r) ∧
      (∀ K, HMSLetter K → K ≠ L → st2.slot K = st.slot K ∧ (st.fresh K → st2.fresh K)) := by
  have hcur : DIGIT (cur st.c) = true := by
    rw [hc, cur_append_ne _ _ hr]
    cases r with
    | nil => exact absurd rfl hr
    | cons x xs => exact hrd x (List.mem_cons_self _ _)
  have hcur2 : DIGIT (cur (r ++ rest)) = true := by rw [← hc]; exact hcur
  rcases hL with h | h | h <;> subst h
  · have hf : st.H = 0 := hfresh
    obtain ⟨v, e, hv⟩ := parseInt_run r hrd hlen rest hrest
    refine ⟨⟨rest, st.o, v, st.M, st.S, .val (decValue r), st.dM, st.dS⟩, ?_, rfl, rfl, ?_⟩
    · simp [hmsField, hcur2, hf, hc, e, hv]
    · intro K hK hKL
      rcases hK with h | h | h <;> subst h
      · exact absurd rfl hKL
      · exact ⟨rfl, fun h => h⟩
      · exact ⟨rfl, fun h => h⟩
  · have hf : st.M = 0 := hfresh
    obtain ⟨v, e, hv⟩ := parseInt_run r hrd hlen rest hrest
    refine ⟨⟨rest, st.o, st.H, v, st.S, st.dH, .val (decValue r), st.dS⟩, ?_, rfl, rfl, ?_⟩
    · simp [hmsField, hcur2, hf, hc, e, hv]
    · intro K hK hKL
      rcases hK with h | h | h <;> subst h
      · exact ⟨rfl, fun h => h⟩
      · exact absurd rfl hKL
      · exact ⟨rfl, fun h => h⟩
  · have hf : st.S = 0 := hfresh
    have e := parseNum_digits r hrd (by omega) rest hrest
    obtain ⟨hs1, hs2⟩ := hS rfl
    have hsep : (cur rest == '.' || cur rest == ',') = false := by
      simp [hs1, hs2]
    refine ⟨⟨rest, st.o, st.H, st.M, decValue r, st.dH, st.dM, .val (decValue r)⟩, ?_, rfl, rfl, ?_⟩
    · simp only [hmsField]
      simp [hcur2, hf, hc, e, hsep]
    · intro K hK hKL
      rcases hK with h | h | h <;> subst h
      · exact ⟨rfl, fun h => h⟩
      · exact ⟨rfl, fun h => h⟩
      · exact absurd rfl hKL

theorem skip_seps_run (a r rest : List Char) (ha : IsSeparator a) (hr : r ≠ [])
    (hrd : IsDigits r) : skipNonDigits (a ++ (r ++ rest)) = r ++ rest := by
  rw [skipNonDigits_seps a ha]
  apply skipNonDigits_digit
  rw [cur_append_ne _ _ hr]
  cases r with
  | nil => exact absurd rfl hr
  | cons x xs => exact hrd x (List.mem_cons_self _ _)

theorem DIGIT_cur_sep (a l : List Char) (hne : a ≠ []) (ha : IsSeparator a) :
    DIGIT (cur (a ++ l)) = false := by
  rw [cur_append_ne _ _ hne]
  cases a with
  | nil => exact absurd rfl hne
  | cons x xs => exact (ha x (List.mem_cons_self _ _)).1

/-- Three digit runs with two separators under an order of three distinct letters: each
run lands in the cell of the letter at its position. -/
theorem hms_three (L1 L2 L3 : Char) (h1 : HMSLetter L1) (h2 : HMSLetter L2) (h3 : HMSLetter L3)
    (d12 : L1 ≠ L2) (d13 : L1 ≠ L3) (d23 : L2 ≠ L3) (r1 a r2 b r3 : List Char)
    (hr1 : r1 ≠ [] ∧ IsDigits r1 ∧ r1.length ≤ 9) (hr2 : r2 ≠ [] ∧ IsDigits r2 ∧ r2.length ≤ 9)
    (hr3 : r3 ≠ [] ∧ IsDigits r3 ∧ r3.length ≤ 9) (ha : a ≠ [] ∧ IsSeparator a)
    (hb : b ≠ [] ∧ IsSeparator b) (p1 : L1 = 'S' → cur a ≠ '.' ∧ cur a ≠ ',')
    (p2 : L2 = 'S' → cur b ≠ '.' ∧ cur b ≠ ',') :
    ∃ res, parse_hms_entry [L1, L2, L3] (r1 ++ (a ++ (r2 ++ (b ++ r3)))) = .ok res ∧
      slotOf L1 res = .val (decValue r1) ∧ slotOf L2 res = .val (decValue r2) ∧
      slotOf L3 res = .val (decValue r3) := by
  have hd0 : DIGIT (cur (r1 ++ (a ++ (r2 ++ (b ++ r3))))) = true := by
    rw [cur_append_ne _ _ hr1.1]
    cases r1 with
    | nil => exact absurd rfl hr1.1
    | cons x xs => exact hr1.2.1 x (List.mem_cons_self _ _)
  have hsk0 := skipNonDigits_digit _ hd0
  -- first letter
  obtain ⟨s1, e1, c1, v1, k1⟩ := hms_step L1 h1
    ⟨r1 ++ (a ++ (r2 ++ (b ++ r3))), [L1, L2, L3], 0, 0, 0, .unset, .unset, .unset⟩
    r1 (a ++ (r2 ++ (b ++ r3))) hr1.1 hr1.2.1 hr1.2.2 rfl (DIGIT_cur_sep _ _ ha.1 ha.2)
    (fun h => by rw [cur_append_ne _ _ ha.1]; exact p1 h)
    (by unfold HSt.fresh; split_ifs <;> rfl)
  have hf0 : ∀ K, (⟨r1 ++ (a ++ (r2 ++ (b ++ r3))), [L1, L2, L3], 0, 0, 0, .unset, .unset,
      .unset⟩ : HSt).fresh K := by
    intro K; unfold HSt.fresh; split_ifs <;> rfl
  -- second letter
  obtain ⟨s2, e2, c2, v2, k2⟩ := hms_step L2 h2
    { s1 with c := skipNonDigits s1.c, o := [L2, L3] }
    r2 (b ++ r3) hr2.1 hr2.2.1 hr2.2.2
    (by show skipNonDigits s1.c = _; rw [c1, skip_seps_run a r2 _ ha.2 hr2.1 hr2.2.1])
    (DIGIT_cur_sep _ _ hb.1 hb.2)
    (fun h => by rw [cur_append_ne _ _ hb.1]; exact p2 h)
    ((k1 L2 h2 (Ne.symm d12)).2 (hf0 L2))
  -- third letter
  obtain ⟨s3, e3, c3, v3, k3⟩ := hms_step L3 h3
    { s2 with c := skipNonDigits s2.c, o := [L3] }
    r3 [] hr3.1 hr3.2.1 hr3.2.2
    (by
      show skipNonDigits s2.c = _
      have := skip_seps_run b r3 [] hb.2 hr3.1 hr3.2.1
      rw [List.append_nil] at this
      rw [c2, List.append_nil, this])
    DIGIT_NUL (fun _ => ⟨by decide, by decide⟩)
    ((k2 L3 h3 (Ne.symm d23)).2 ((k1 L3 h3 (Ne.symm d13)).2 (hf0 L3)))
  have hscan : hmsScan [L1, L2, L3]
      ⟨r1 ++ (a ++ (r2 ++ (b ++ r3))), [L1, L2, L3], 0, 0, 0, .unset, .unset, .unset⟩
      = .ok { s3 with c := skipNonDigits s3.c, o := [] } := by
    rw [hmsScan_cons L1 (HMSLetter_ne_NUL L1 h1), e1]
    simp only []
    rw [hmsScan_cons L2 (HMSLetter_ne_NUL L2 h2), e2]
    simp only []
    rw [hmsScan_cons L3 (HMSLetter_ne_NUL L3 h3), e3]
    rfl
  refine ⟨(s3.dH, s3.dM, s3.dS), ?_, ?_, ?_, ?_⟩
  · unfold parse_hms_entry
    simp only [hsk0, hd0, if_true, hscan, c3, skipNonDigits, cur_nil]
    simp
  · show s3.slot L1 = _
    rw [(k3 L1 h1 d13).1]
    show s2.slot L1 = _
    rw [(k2 L1 h1 d12).1]
    exact v1
  · show s3.slot L2 = _
    rw [(k3 L2 h2 d23).1]
    exact v2
  · exact v3

theorem hms_perm_cases (L1 L2 L3 : Char) (hp : List.Perm [L1, L2, L3] ['H', 'M', 'S']) :
    HMSLetter L1 ∧ HMSLetter L2 ∧ HMSLetter L3 ∧ L1 ≠ L2 ∧ L1 ≠ L3 ∧ L2 ≠ L3 := by
  have hm : ∀ K, K ∈ [L1, L2, L3] → HMSLetter K := by
    intro K hK
    have := hp.subset hK
    simpa [HMSLetter] using this
  have hnd : [L1, L2, L3].Nodup := hp.nodup_iff.mpr (by decide)
  simp only [List.nodup_cons, List.mem_cons, List.mem_singleton, not_or, List.not_mem_nil,
    not_false_eq_true, List.nodup_nil, and_true] at hnd
  exact ⟨hm L1 (by simp), hm L2 (by simp), hm L3 (by simp), hnd.1.1, hnd.1.2, hnd.2⟩

/-- C11: `parse_hms` assigns digit runs to fields in order.  For non-empty digit texts
`h`, `m`, `s` of at most 9 digits and non-empty separator texts `a`, `b`, order `HMS` on
`h a m b s` returns (value `h`, value `m`, value `s`); and for any permutation `L1 L2 L3` of
the letters H, M, S the i-th digit run is returned in the cell of the i-th order letter,
provided the separator after the run assigned to S does not begin with `.` or `,`. -/
theorem C11_hms_runs_in_order (h m s a b : List Char)
    (hh : h ≠ [] ∧ IsDigits h ∧ h.length ≤ 9) (hm : m ≠ [] ∧ IsDigits m ∧ m.length ≤ 9)
    (hs : s ≠ [] ∧ IsDigits s ∧ s.length ≤ 9) (ha : a ≠ [] ∧ IsSeparator a)
    (hb : b ≠ [] ∧ IsSeparator b) :
    parse_hms [h ++ (a ++ (m ++ (b ++ s)))] "HMS".toList
      = .ok [.val (decValue h), .val (decValue m), .val (decValue s)] ∧
    (∀ L1 L2 L3 : Char, List.Perm [L1, L2, L3] ['H', 'M', 'S'] →
      (L1 = 'S' → cur a ≠ '.' ∧ cur a ≠ ',') → (L2 = 'S' → cur b ≠ '.' ∧ cur b ≠ ',') →
      ∃ x y z, parse_hms [h ++ (a ++ (m ++ (b ++ s)))] [L1, L2, L3] = .ok [x, y, z] ∧
        slotOf L1 (x, y, z) = .val (decValue h) ∧ slotOf L2 (x, y, z) = .val (decValue m) ∧
        slotOf L3 (x, y, z) = .val (decValue s)) := by
  constructor
  · obtain ⟨res, e, v1, v2, v3⟩ := hms_three 'H' 'M' 'S' (Or.inl rfl) (Or.inr (Or.inl rfl))
      (Or.inr (Or.inr rfl)) (by decide) (by decide) (by decide) h a m b s hh hm hs ha hb
      (fun h => absurd h (by decide)) (fun h => absurd h (by decide))
    obtain ⟨x, y, z⟩ := res
    have ho : "HMS".toList = ['H', 'M', 'S'] := rfl
    have hx : x = .val (decValue h) := v1
    have hy : y = .val (decValue m) := v2
    have hz : z = .val (decValue s) := v3
    simp only [parse_hms, ho, e, hx, hy, hz]
  · intro L1 L2 L3 hp p1 p2
    obtain ⟨h1, h2, h3, d12, d13, d23⟩ := hms_perm_cases L1 L2 L3 hp
    obtain ⟨res, e, v1, v2, v3⟩ := hms_three L1 L2 L3 h1 h2 h3 d12 d13 d23 h a m b s hh hm hs ha
      hb p1 p2
    obtain ⟨x, y, z⟩ := res
    exact ⟨x, y, z, by simp only [parse_hms, e], v1, v2, v3⟩

theorem C11_witness :
    parse_hms ["12".toList ++ (":".toList ++ ("30".toList ++ (" ".toList ++ "45".toList)))]
        "HMS".toList
      = .ok [.val (decValue "12".toList), .val (decValue "30".toList),
          .val (decValue "45".toList)] ∧
    (∀ L1 L2 L3 : Char, List.Perm [L1, L2, L3] ['H', 'M', 'S'] →
      (L1 = 'S' → cur ":".toList ≠ '.' ∧ cur ":".toList ≠ ',') →
      (L2 = 'S' → cur " ".toList ≠ '.' ∧ cur " ".toList ≠ ',') →
      ∃ x y z, parse_hms
          ["12".toList ++ (":".toList ++ ("30".toList ++ (" ".toList ++ "45".toList)))]
          [L1, L2, L3] = .ok [x, y, z] ∧
        slotOf L1 (x, y, z) = .val (decValue "12".toList) ∧
        slotOf L2 (x, y, z) = .val (decValue "30".toList) ∧
        slotOf L3 (x, y, z) = .val (decValue "45".toList)) :=
  C11_hms_runs_in_order "12".toList "30".toList "45".toList ":".toList " ".toList
    ⟨by simp, by simp [IsDigits]; decide, by decide⟩
    ⟨by simp, by simp [IsDigits]; decide, by decide⟩
    ⟨by simp, by simp [IsDigits]; decide, by decide⟩
    ⟨by simp, by simp [IsSeparator]; decide⟩ ⟨by simp, by simp [IsSeparator]; decide⟩

theorem hms_12_45 :
    parse_hms ["12::45".toList] "HMS".toList = .ok [.val 12, .val 45, .na] := by
  rfl

/-- Two digit runs around one separator run under the order `HMS`: the second run is the
minute, and the second is missing because the input is exhausted. -/
theorem hms_two_runs (h m a : List Char) (hh : h ≠ [] ∧ IsDigits h ∧ h.length ≤ 9)
    (hm : m ≠ [] ∧ IsDigits m ∧ m.length ≤ 9) (ha : a ≠ [] ∧ IsSeparator a) :
    parse_hms_entry ['H', 'M', 'S'] (h ++ (a ++ m))
      = .ok (.val (decValue h), .val (decValue m), .na) := by
  have hd0 : DIGIT (cur (h ++ (a ++ m))) = true := by
    rw [cur_append_ne _ _ hh.1]
    cases h with
    | nil => exact absurd rfl hh.1
    | cons x xs => exact hh.2.1 x (List.mem_cons_self _ _)
  have hsk0 := skipNonDigits_digit _ hd0
  obtain ⟨s1, e1, c1, v1, k1⟩ := hms_step 'H' (Or.inl rfl)
    ⟨h ++ (a ++ m), ['H', 'M', 'S'], 0, 0, 0, .unset, .unset, .unset⟩
    h (a ++ m) hh.1 hh.2.1 hh.2.2 rfl (DIGIT_cur_sep _ _ ha.1 ha.2)
    (fun h => absurd h (by decide)) rfl
  obtain ⟨s2, e2, c2, v2, k2⟩ := hms_step 'M' (Or.inr (Or.inl rfl))
    { s1 with c := skipNonDigits s1.c, o := ['M', 'S'] }
    m [] hm.1 hm.2.1 hm.2.2
    (by
      show skipNonDigits s1.c = _
      have := skip_seps_run a m [] ha.2 hm.1 hm.2.1
      rw [List.append_nil] at this
      rw [c1, List.append_nil, this])
    DIGIT_NUL (fun h => absurd h (by decide))
    ((k1 'M' (Or.inr (Or.inl rfl)) (by decide)).2 rfl)
  obtain ⟨s3, e3, _, k3, _, n3⟩ := hmsField_spec 'S' (Or.inr (Or.inr rfl))
    { s2 with c := skipNonDigits s2.c, o := ['S'] }
  have hc2 : skipNonDigits s2.c = [] := by rw [c2]; rfl
  obtain ⟨v3, c3⟩ := n3 (by show DIGIT (cur (skipNonDigits s2.c)) = false; rw [hc2]; rfl)
  have hscan : hmsScan ['H', 'M', 'S']
      ⟨h ++ (a ++ m), ['H', 'M', 'S'], 0, 0, 0, .unset, .unset, .unset⟩
      = .ok { s3 with c := skipNonDigits s3.c, o := [] } := by
    rw [hmsScan_cons 'H' (by decide), e1]
    simp only []
    rw [hmsScan_cons 'M' (by decide), e2]
    simp only []
    rw [hmsScan_cons 'S' (by decide), e3]
    rfl
  have hc3 : s3.c = [] := by rw [c3]; exact hc2
  have w1 : s3.dH = .val (decValue h) := by
    have := (k3 'H' (Or.inl rfl) (by decide))
    have t2 := (k2 'H' (Or.inl rfl) (by decide)).1
    exact this.trans (t2.trans v1)
  have w2 : s3.dM = .val (decValue m) := (k3 'M' (Or.inr (Or.inl rfl)) (by decide)).trans v2
  have w3 : s3.dS = .na := v3
  unfold parse_hms_entry
  simp only [hsk0, hd0, if_true, hscan, hc3, skipNonDigits, cur_nil, w1, w2, w3]
  simp

/-- C12 (as the code behaves): the input `12::45` with order `HMS` is not the claimed
hour 12, minute missing, second 45. -/
theorem C12_counterexample :
    parse_hms ["12::45".toList] "HMS".toList ≠ .ok [.val 12, .na, .val 45] := by
  rw [hms_12_45]
  intro h
  have h2 := Except.ok.inj h
  simp at h2

/-- C12 (amended): a separator run of any length is one gap.  For non-empty digit texts
`h`, `m` of at most 9 digits and a non-empty separator text `a`, order `HMS` on `h a m`
returns hour `h`, minute `m` and a missing second; in particular `12::45` gives hour 12,
minute 45, second missing. -/
theorem C12_separator_run_is_one_gap (h m a : List Char)
    (hh : h ≠ [] ∧ IsDigits h ∧ h.length ≤ 9) (hm : m ≠ [] ∧ IsDigits m ∧ m.length ≤ 9)
    (ha : a ≠ [] ∧ IsSeparator a) :
    parse_hms [h ++ (a ++ m)] "HMS".toList
        = .ok [.val (decValue h), .val (decValue m), .na] ∧
      parse_hms ["12::45".toList] "HMS".toList = .ok [.val 12, .val 45, .na] := by
  refine ⟨?_, hms_12_45⟩
  have ho : "HMS".toList = ['H', 'M', 'S'] := rfl
  simp only [parse_hms, ho, hms_two_runs h m a hh hm ha]

theorem C12_witness :
    parse_hms ["12".toList ++ ("::".toList ++ "45".toList)] "HMS".toList
        = .ok [.val (decValue "12".toList), .val (decValue "45".toList), .na] ∧
      parse_hms ["12::45".toList] "HMS".toList = .ok [.val 12, .val 45, .na] :=
  C12_separator_run_is_one_gap "12".toList "45".toList "::".toList
    ⟨by simp, by simp [IsDigits]; decide, by decide⟩
    ⟨by simp, by simp [IsDigits]; decide, by decide⟩
    ⟨by simp, by simp [IsSeparator]; decide⟩

theorem slotOf_state (K : Char) (r : HSt) : slotOf K (r.dH, r.dM, r.dS) = r.slot K := rfl

theorem hms_12_30 :
    parse_hms ["12:30".toList] "HM".toList = .ok [.val 12, .val 30, .unset] := by
  rfl

/-- The entry result of `parse_hms` in terms of the loop result. -/
theorem parse_hms_entry_of_scan (ord text : List Char) (r : HSt)
    (hd : DIGIT (cur (skipNonDigits text)) = true)
    (hr : hmsScan ord ⟨skipNonDigits text, ord, 0, 0, 0, .unset, .unset, .unset⟩ = .ok r) :
    parse_hms_entry ord text =
      if cur r.c != NUL || cur r.o != NUL then .ok (.na, .na, .na) else .ok (r.dH, r.dM, r.dS) := by
  unfold parse_hms_entry
  simp only [hd, if_true, hr]

theorem parse_hms_entry_no_digit (ord text : List Char)
    (hd : DIGIT (cur (skipNonDigits text)) = false) :
    parse_hms_entry ord text =
      if cur ord != NUL then .ok (.na, .na, .na) else .ok (.unset, .unset, .unset) := by
  have hc : cur (skipNonDigits text) = NUL := by
    rcases skip_digit_or_end text with h | h
    · rw [hd] at h; exact absurd h (by decide)
    · exact h
  unfold parse_hms_entry
  simp only [hd, Bool.false_eq_true, if_false]
  by_cases ho : cur ord = NUL <;> simp [hc, ho]

theorem parse_hms_single (ord text : List Char) (res : Slot × Slot × Slot)
    (h : parse_hms_entry ord text = .ok res) :
    parse_hms [text] ord = .ok [res.1, res.2.1, res.2.2] := by
  obtain ⟨x, y, z⟩ := res
  simp only [parse_hms, h]

/-- C13 (as the code behaves): order `HM` on `12:30` does not return a missing second;
the cell of the second is never written. -/
theorem C13_counterexample :
    parse_hms ["12:30".toList] "HM".toList ≠ .ok [.val 12, .val 30, .na] := by
  rw [hms_12_30]
  intro h
  have h2 := Except.ok.inj h
  simp at h2

/-- C13 (amended): for every input text and every order string over the letters H, M, S
the entry is either invalidated as a whole (three missing values) or every cell whose
letter does not occur in the order string is left as allocated, never assigned; for
example order `HM` on `12:30` returns hour 12, minute 30 and an unassigned second. -/
theorem C13_absent_fields_left_unassigned (text ord : List Char)
    (hord : ∀ L ∈ ord, HMSLetter L) :
    (∃ res, parse_hms_entry ord text = .ok res ∧
      (res = (.na, .na, .na) ∨ ∀ K, HMSLetter K → K ∉ ord → slotOf K res = .unset)) ∧
    parse_hms ["12:30".toList] "HM".toList = .ok [.val 12, .val 30, .unset] := by
  refine ⟨?_, hms_12_30⟩
  by_cases hd : DIGIT (cur (skipNonDigits text)) = true
  · obtain ⟨r, er, _, hk⟩ := hmsScan_total ord hord
      ⟨skipNonDigits text, ord, 0, 0, 0, .unset, .unset, .unset⟩
    rw [parse_hms_entry_of_scan ord text r hd er]
    by_cases hc : (cur r.c != NUL || cur r.o != NUL) = true
    · rw [if_pos hc]; exact ⟨_, rfl, Or.inl rfl⟩
    · rw [if_neg hc]
      refine ⟨_, rfl, Or.inr ?_⟩
      intro K hK hKo
      rw [slotOf_state, hk K hK hKo]
      unfold HSt.slot; split_ifs <;> rfl
  · have hd2 : DIGIT (cur (skipNonDigits text)) = false := by simpa using hd
    rw [parse_hms_entry_no_digit ord text hd2]
    by_cases hc : (cur ord != NUL) = true
    · rw [if_pos hc]; exact ⟨_, rfl, Or.inl rfl⟩
    · rw [if_neg hc]
      refine ⟨_, rfl, Or.inr ?_⟩
      intro K _ _
      unfold slotOf; split_ifs <;> rfl

theorem C13_witness :
    (∃ res, parse_hms_entry "HM".toList "12:30".toList = .ok res ∧
      (res = (.na, .na, .na) ∨
        ∀ K, HMSLetter K → K ∉ "HM".toList → slotOf K res = .unset)) ∧
    parse_hms ["12:30".toList] "HM".toList = .ok [.val 12, .val 30, .unset] :=
  C13_absent_fields_left_unassigned "12:30".toList "HM".toList
    (by intro L hL; simp at hL; rcases hL with rfl | rfl <;> simp [HMSLetter])

theorem skip_no_digit (text : List Char) (h : ∀ ch ∈ cstr text, DIGIT ch = false) :
    DIGIT (cur (skipNonDigits text)) = false := by
  induction text with
  | nil => rfl
  | cons a as ih =>
    by_cases ha : a = NUL
    · simp [skipNonDigits, ha, DIGIT_NUL]
    · have hc : cstr (a :: as) = a :: cstr as := by simp [cstr, ha]
      have hda : DIGIT a = false := h a (by rw [hc]; exact List.mem_cons_self _ _)
      rw [skipNonDigits_sep _ _ ha hda]
      exact ih (fun ch hch => h ch (by rw [hc]; exact List.mem_cons_of_mem _ hch))

theorem hms_12_30_45_HM :
    parse_hms ["12:30:45".toList] "HM".toList = .ok [.na, .na, .na] := by
  rfl

theorem hms_empty_order :
    parse_hms ["".toList] "".toList = .ok [.unset, .unset, .unset] := by
  rfl

/-- C14 (as the code behaves): with an empty order string an input without any digit is
not turned into three missing values; the three cells are never written. -/
theorem C14_counterexample :
    (∀ ch ∈ cstr "".toList, DIGIT ch = false) ∧
      parse_hms ["".toList] "".toList ≠ .ok [.na, .na, .na] := by
  refine ⟨by intro ch hch; simp [cstr] at hch, ?_⟩
  rw [hms_empty_order]
  intro h
  have h2 := Except.ok.inj h
  simp at h2

/-- C14 (amended): whenever the loop of `parse_hms` ends with input characters left, all
three cells of the entry are the missing value, whatever was parsed before (for example
`12:30:45` with order `HM`); and an input without any digit yields three missing values
when the order string is not empty. -/
theorem C14_trailing_content_invalidates (text ord : List Char) :
    (∀ r, DIGIT (cur (skipNonDigits text)) = true →
      hmsScan ord ⟨skipNonDigits text, ord, 0, 0, 0, .unset, .unset, .unset⟩ = .ok r →
      cur r.c ≠ NUL → parse_hms [text] ord = .ok [.na, .na, .na]) ∧
    parse_hms ["12:30:45".toList] "HM".toList = .ok [.na, .na, .na] ∧
    ((∀ ch ∈ cstr text, DIGIT ch = false) → cur ord ≠ NUL →
      parse_hms [text] ord = .ok [.na, .na, .na]) := by
  refine ⟨?_, hms_12_30_45_HM, ?_⟩
  · intro r hd hr hc
    have e := parse_hms_entry_of_scan ord text r hd hr
    rw [if_pos (by simp [hc])] at e
    exact parse_hms_single ord text _ e
  · intro hno ho
    have e := parse_hms_entry_no_digit ord text (skip_no_digit text hno)
    rw [if_pos (by simp [ho])] at e
    exact parse_hms_single ord text _ e

theorem C14_witness :
    parse_hms ["1:2".toList] "H".toList = .ok [.na, .na, .na] ∧
      parse_hms ["12:30:45".toList] "HM".toList = .ok [.na, .na, .na] ∧
      parse_hms ["a:b".toList] "H".toList = .ok [.na, .na, .na] :=
  ⟨(C14_trailing_content_invalidates "1:2".toList "H".toList).1
      ⟨"2".toList, [], 1, 0, 0, .val 1, .unset, .unset⟩ (by decide) (by rfl) (by decide),
    (C14_trailing_content_invalidates "1:2".toList "H".toList).2.1,
    (C14_trailing_content_invalidates "a:b".toList "H".toList).2.2
      (by intro ch hch; simp [cstr, NUL] at hch; rcases hch with rfl | rfl | rfl <;> decide)
      (by decide)⟩

theorem fieldLetters_end (b : Bool) (o : List Char) (h : cur o = NUL) : fieldLetters b o = [] := by
  cases o with
  | nil => cases b <;> rfl
  | cons a as =>
    have ha : a = NUL := h
    subst ha
    cases b <;> (rw [fieldLetters.eq_def]; simp)

theorem fieldLetters_lit (a : Char) (as : List Char) (h0 : a ≠ NUL) (hp : a ≠ '%') :
    fieldLetters true (a :: as) = fieldLetters true as := by
  conv_lhs => rw [fieldLetters.eq_def]
  simp [h0, hp]

theorem fieldLetters_strict_plain (L : Char) (rest : List Char) (h0 : L ≠ NUL) (hO : L ≠ 'O') :
    fieldLetters true ('%' :: L :: rest) = L :: fieldLetters true rest := by
  have hp : ('%' : Char) ≠ NUL := by decide
  conv_lhs => rw [fieldLetters.eq_def]
  simp [h0, hO, hp]

theorem fieldLetters_strict_O (L : Char) (rest : List Char) (h0 : L ≠ NUL) :
    fieldLetters true ('%' :: 'O' :: L :: rest) = L :: fieldLetters true rest := by
  have hp : ('%' : Char) ≠ NUL := by decide
  have hO : ('O' : Char) ≠ NUL := by decide
  conv_lhs => rw [fieldLetters.eq_def]
  simp [h0, hO, hp]

theorem fieldLetters_order_plain (L : Char) (rest : List Char) (h0 : L ≠ NUL) (hO : L ≠ 'O') :
    fieldLetters false (L :: rest) = L :: fieldLetters false rest := by
  conv_lhs => rw [fieldLetters.eq_def]
  simp [h0, hO]

theorem fieldLetters_order_O (L : Char) (rest : List Char) (h0 : L ≠ NUL) :
    fieldLetters false ('O' :: L :: rest) = L :: fieldLetters false rest := by
  have hO : ('O' : Char) ≠ NUL := by decide
  conv_lhs => rw [fieldLetters.eq_def]
  simp [h0, hO]

/-- One field iteration takes exactly one letter off the list of field letters. -/
theorem fieldLetters_step (is_fmt : Bool) (o : List Char) (h0 : cur o ≠ NUL)
    (hp : is_fmt = true → cur o = '%')
    (h2 : cur (if (cur (if is_fmt = true then o.tail else o) == 'O') = true
            then (if is_fmt = true then o.tail else o).tail
            else (if is_fmt = true then o.tail else o)) ≠ NUL) :
    fieldLetters is_fmt o =
      cur (if (cur (if is_fmt = true then o.tail else o) == 'O') = true
            then (if is_fmt = true then o.tail else o).tail
            else (if is_fmt = true then o.tail else o)) ::
        fieldLetters is_fmt
          (if (cur (if is_fmt = true then o.tail else o) == 'O') = true
            then (if is_fmt = true then o.tail else o).tail
            else (if is_fmt = true then o.tail else o)).tail := by
  cases o with
  | nil => exact absurd rfl h0
  | cons a as =>
    cases is_fmt
    · simp only [Bool.false_eq_true, if_false] at h2 ⊢
      by_cases hO : a = 'O'
      · subst hO
        simp only [cur_cons, beq_self_eq_true, if_true, List.tail_cons] at h2 ⊢
        cases as with
        | nil => exact absurd rfl h2
        | cons L rest =>
          simp only [cur_cons, List.tail_cons] at h2 ⊢
          exact fieldLetters_order_O L rest h2
      · have hb : (a == 'O') = false := by simpa using hO
        simp only [cur_cons, hb, Bool.false_eq_true, if_false, List.tail_cons] at h2 ⊢
        exact fieldLetters_order_plain a as h2 hO
    · have ha : a = '%' := hp rfl
      subst ha
      simp only [if_true, List.tail_cons] at h2 ⊢
      cases as with
      | nil => exact absurd rfl h2
      | cons L rest =>
        by_cases hO : L = 'O'
        · subst hO
          simp only [cur_cons, beq_self_eq_true, if_true, List.tail_cons] at h2 ⊢
          cases rest with
          | nil => exact absurd rfl h2
          | cons L2 rest3 =>
            simp only [cur_cons, List.tail_cons] at h2 ⊢
            exact fieldLetters_strict_O L2 rest3 h2
        · have hb : (L == 'O') = false := by simpa using hO
          simp only [cur_cons, hb, Bool.false_eq_true, if_false, List.tail_cons] at h2 ⊢
          exact fieldLetters_strict_plain L rest h2 hO

theorem field_Y_md (st : St) : (field_Y st).m = st.m ∧ (field_Y st).d = st.d := ⟨rfl, rfl⟩

theorem field_y_md (st : St) : (field_y st).m = st.m ∧ (field_y st).d = st.d := ⟨rfl, rfl⟩

theorem field_m_d (st : St) : (field_m st).d = st.d := by
  unfold field_m; simp only []; split_ifs <;> rfl

theorem field_d_m (st : St) : (field_d st).m = st.m := by
  unfold field_d; simp only []; split_ifs <;> rfl

theorem field_d_pos (st : St) (h : (field_d st).succeed = true) : 1 ≤ (field_d st).d := by
  unfold field_d at h ⊢
  simp only [] at h ⊢
  split_ifs at h ⊢ with hr
  exact hr.1

theorem field_H_md (st : St) : (field_H st).m = st.m ∧ (field_H st).d = st.d := by
  unfold field_H; simp only []; split_ifs <;> exact ⟨rfl, rfl⟩

theorem field_M_md (st : St) : (field_M st).m = st.m ∧ (field_M st).d = st.d := by
  unfold field_M; simp only []; split_ifs <;> exact ⟨rfl, rfl⟩

theorem field_S_md (a b : Bool) (st : St) :
    (field_S a b st).m = st.m ∧ (field_S a b st).d = st.d := by
  unfold field_S; simp only []; split_ifs <;> exact ⟨rfl, rfl⟩

theorem field_u_md (b : Bool) (st : St) : (field_u b st).m = st.m ∧ (field_u b st).d = st.d := by
  unfold field_u; split_ifs <;> exact ⟨rfl, rfl⟩

theorem field_z_md (a : Bool) (st : St) : (field_z a st).m = st.m ∧ (field_z a st).d = st.d := by
  unfold field_z; simp only []; split_ifs <;> exact ⟨rfl, rfl⟩

theorem field_O_md (L : Char) (st : St) :
    (field_O L st).m = st.m ∧ (field_O L st).d = st.d := by
  unfold field_O; simp only []; split_ifs <;> exact ⟨rfl, rfl⟩

/-- Only the `m` handler writes the month and only the `d` handler writes the day; a
day handler that succeeds leaves a day of at least 1.  The terminator is no letter of
the `switch`. -/
theorem field_md (a b : Bool) (L : Char) (st r : St) (h : field a b L st = .ok r) :
    L ≠ NUL ∧ (L ≠ 'm' → r.m = st.m) ∧ (L ≠ 'd' → r.d = st.d) ∧
      (L = 'd' → r.succeed = true → 1 ≤ r.d) := by
  have hN : L ≠ NUL := by
    intro h0
    rw [h0, field_unrecognised a b NUL (by unfold Recognised; decide) st] at h
    injection h
  refine ⟨hN, ?_⟩
  unfold field at h
  by_cases h1 : L = 'Y'
  · rw [if_pos h1] at h; injection h with h; rw [← h]; subst h1
    exact ⟨fun _ => (field_Y_md _).1, fun _ => (field_Y_md _).2, fun hc => absurd hc (by decide)⟩
  rw [if_neg h1] at h
  by_cases h2 : L = 'y'
  · rw [if_pos h2] at h; injection h with h; rw [← h]; subst h2
    exact ⟨fun _ => (field_y_md _).1, fun _ => (field_y_md _).2, fun hc => absurd hc (by decide)⟩
  rw [if_neg h2] at h
  by_cases h3 : L = 'm'
  · rw [if_pos h3] at h; injection h with h; rw [← h]; subst h3
    exact ⟨fun hc => absurd rfl hc, fun _ => field_m_d _, fun hc => absurd hc (by decide)⟩
  rw [if_neg h3] at h
  by_cases h4 : L = 'd'
  · rw [if_pos h4] at h; injection h with h; rw [← h]; subst h4
    exact ⟨fun _ => field_d_m _, fun hc => absurd rfl hc, fun _ hs => field_d_pos _ hs⟩
  rw [if_neg h4] at h
  by_cases h5 : L = 'H'
  · rw [if_pos h5] at h; injection h with h; rw [← h]
    exact ⟨fun _ => (field_H_md _).1, fun _ => (field_H_md _).2, fun hc => absurd hc h4⟩
  rw [if_neg h5] at h
  by_cases h6 : L = 'M'
  · rw [if_pos h6] at h; injection h with h; rw [← h]
    exact ⟨fun _ => (field_M_md _).1, fun _ => (field_M_md _).2, fun hc => absurd hc h4⟩
  rw [if_neg h6] at h
  by_cases h7 : L = 'S'
  · rw [if_pos h7] at h; injection h with h; rw [← h]
    exact ⟨fun _ => (field_S_md _ _ _).1, fun _ => (field_S_md _ _ _).2, fun hc => absurd hc h4⟩
  rw [if_neg h7] at h
  by_cases h8 : L = 'u'
  · rw [if_pos h8] at h; injection h with h; rw [← h]
    exact ⟨fun _ => (field_u_md _ _).1, fun _ => (field_u_md _ _).2, fun hc => absurd hc h4⟩
  rw [if_neg h8] at h
  by_cases h9 : L = 'z'
  · rw [if_pos h9] at h
    cases b
    · simp only [Bool.not_false, if_true] at h
      injection h with h; rw [← h]
      exact ⟨fun _ => (field_z_md _ _).1, fun _ => (field_z_md _ _).2, fun hc => absurd hc h4⟩
    · simp only [Bool.not_true, Bool.false_eq_true, if_false] at h
      injection h with h; rw [← h]
      exact ⟨fun _ => (field_O_md _ _).1, fun _ => (field_O_md _ _).2, fun hc => absurd hc h4⟩
  rw [if_neg h9] at h
  by_cases h10 : L = 'O' ∨ L = 'o'
  · rw [if_pos h10] at h
    cases b
    · simp only [Bool.false_eq_true, if_false] at h
      injection h
    · simp only [if_true] at h
      injection h with h; rw [← h]
      exact ⟨fun _ => (field_O_md _ _).1, fun _ => (field_O_md _ _).2, fun hc => absurd hc h4⟩
  rw [if_neg h10] at h
  injection h

/-- One iteration of the scanning loop that keeps the success flag either matches a
literal (field letters, month and day unchanged) or reads the first field letter. -/
theorem body_letters (is_fmt : Bool) (st r : St) (hne : cur st.o ≠ NUL)
    (h : body is_fmt st = .ok r) (hs : r.succeed = true) :
    (fieldLetters is_fmt st.o = fieldLetters is_fmt r.o ∧ r.m = st.m ∧ r.d = st.d) ∨
    (∃ L, fieldLetters is_fmt st.o = L :: fieldLetters is_fmt r.o ∧ (L ≠ 'm' → r.m = st.m) ∧
      (L ≠ 'd' → r.d = st.d) ∧ (L = 'd' → 1 ≤ r.d)) := by
  by_cases hlit : (is_fmt && cur st.o != '%') = true
  · left
    have hfmt : is_fmt = true := by
      cases is_fmt
      · simp at hlit
      · rfl
    subst hfmt
    have hp : cur st.o ≠ '%' := by simpa using hlit
    unfold body at h
    rw [if_pos hlit] at h
    by_cases hm : (cur st.c == cur st.o) = true
    · rw [if_pos hm] at h
      injection h with h; rw [← h]
      refine ⟨?_, rfl, rfl⟩
      cases ho : st.o with
      | nil => rw [ho] at hne; exact absurd rfl hne
      | cons a as =>
        rw [ho] at hne hp
        exact fieldLetters_lit a as hne hp
    · rw [if_neg hm] at h
      injection h with h; rw [← h] at hs
      exact absurd hs (by simp)
  · right
    have hp : is_fmt = true → cur st.o = '%' := by
      intro hf
      subst hf
      simpa using hlit
    unfold body at h
    rw [if_neg hlit] at h
    simp only [] at h
    have hstep := fieldLetters_step is_fmt st.o hne hp
    generalize hO2 : (if (cur (if is_fmt = true then st.o.tail else st.o) == 'O') = true
            then (if is_fmt = true then st.o.tail else st.o).tail
            else (if is_fmt = true then st.o.tail else st.o)) = o2 at h hstep
    generalize (cur (if is_fmt = true then st.o.tail else st.o) == 'O') = B at h
    generalize (if is_fmt = true then st.c
              else if (cur st.o != 'O' && cur st.o != 'z') = true then skipNonDigits st.c
              else st.c) = c1 at h
    by_cases hg : (!(DIGIT (cur c1) || B || cur o2 == 'z')) = true
    · rw [if_pos hg] at h
      injection h with h; rw [← h] at hs
      exact absurd hs (by simp)
    · rw [if_neg hg] at h
      cases hf : field is_fmt B (cur o2) { st with c := c1, o := o2 } with
      | error e => rw [hf] at h; injection h
      | ok st2 =>
        rw [hf] at h
        injection h with h
        obtain ⟨hN, hm, hd, hpos⟩ := field_md _ _ _ _ _ hf
        have ho : st2.o = o2 := field_o _ _ _ _ _ hf
        refine ⟨cur o2, ?_, ?_, ?_, ?_⟩
        · rw [hstep hN, ← h]
          show _ = _ :: fieldLetters is_fmt st2.o.tail
          rw [ho]
        · intro hL; rw [← h]; exact hm hL
        · intro hL; rw [← h]; exact hd hL
        · intro hL; rw [← h] at hs ⊢; exact hpos hL hs

/-- The invariant of the scanning loop for a format with a day field and no month field:
when the loop ends successfully at the end of the format, the month is still 0 and the
day is at least 1. -/
theorem scan_day_without_month (is_fmt : Bool) (n : Nat) (st r : St)
    (h : scan is_fmt n st = .ok r) (hm0 : st.m = 0) (hnm : 'm' ∉ fieldLetters is_fmt st.o)
    (hday : 1 ≤ st.d ∨ 'd' ∈ fieldLetters is_fmt st.o) (hs : r.succeed = true)
    (hend : cur r.o = NUL) : r.m = 0 ∧ 1 ≤ r.d := by
  induction n generalizing st with
  | zero =>
    unfold scan at h
    by_cases hc : (cur st.o != NUL && st.succeed) = true
    · rw [if_pos hc] at h; injection h
    · rw [if_neg hc] at h
      injection h with h
      subst h
      refine ⟨hm0, ?_⟩
      rcases hday with hd | hd
      · exact hd
      · rw [fieldLetters_end is_fmt st.o hend] at hd
        exact absurd hd (List.not_mem_nil _)
  | succ n ih =>
    unfold scan at h
    by_cases hc : (cur st.o != NUL && st.succeed) = true
    · rw [if_pos hc] at h
      have hne : cur st.o ≠ NUL := by
        intro h0
        simp [h0] at hc
      cases hb : body is_fmt st with
      | error e => rw [hb] at h; injection h
      | ok st2 =>
        rw [hb] at h
        simp only [] at h
        by_cases hs2 : st2.succeed = true
        · rcases body_letters is_fmt st st2 hne hb hs2 with ⟨hF, hm, hd⟩ | ⟨L, hF, hm, hd, hpos⟩
          · rw [hF] at hnm hday
            exact ih st2 h (by rw [hm]; exact hm0) hnm (by rw [hd]; exact hday)
          · rw [hF] at hnm hday
            have hLm : L ≠ 'm' := fun hL => hnm (by rw [hL]; exact List.mem_cons_self _ _)
            have hnm2 : 'm' ∉ fieldLetters is_fmt st2.o :=
              fun hx => hnm (List.mem_cons_of_mem _ hx)
            refine ih st2 h (by rw [hm hLm]; exact hm0) hnm2 ?_
            by_cases hLd : L = 'd'
            · exact Or.inl (hpos hLd)
            · rcases hday with hd1 | hd1
              · exact Or.inl (by rw [hd hLd]; exact hd1)
              · rcases List.mem_cons.mp hd1 with hx | hx
                · exact absurd hx.symm hLd
                · exact Or.inr hx
        · have hs3 : st2.succeed = false := by simpa using hs2
          rw [scan_stopped is_fmt n st2 hs3] at h
          injection h with h
          rw [← h, hs3] at hs
          exact absurd hs (by simp)
    · rw [if_neg hc] at h
      injection h with h
      subst h
      refine ⟨hm0, ?_⟩
      rcases hday with hd | hd
      · exact hd
      · rw [fieldLetters_end is_fmt st.o hend] at hd
        exact absurd hd (List.not_mem_nil _)

theorem checkMonth_no_month (y d : Int) (hd : 1 ≤ d) : checkMonth y 0 d = false := by
  simp [checkMonth, mdays]
  omega

theorem finish_day_without_month (is_fmt : Bool) (r : St) (hm : r.m = 0) (hd : 1 ≤ r.d) :
    finish is_fmt r = none := by
  unfold finish
  simp only []
  rw [hm, checkMonth_no_month r.y r.d hd]
  simp

theorem entry_day_without_month (text fmt : List Char) (is_fmt : Bool)
    (hd : 'd' ∈ fieldLetters is_fmt fmt) (hm : 'm' ∉ fieldLetters is_fmt fmt) (v : ℚ) :
    parse_dt_entry fmt is_fmt text ≠ .ok (some v) := by
  unfold parse_dt_entry
  cases hsc : scan is_fmt fmt.length (St.init text fmt) with
  | error e => simp
  | ok r =>
    simp only []
    intro hv
    injection hv with hv
    by_cases hs : r.succeed = true
    · by_cases hend : cur r.o = NUL
      · obtain ⟨h1, h2⟩ := scan_day_without_month is_fmt fmt.length (St.init text fmt) r hsc
          rfl hm (Or.inr hd) hs hend
        rw [finish_day_without_month is_fmt r h1 h2] at hv
        exact absurd hv (by simp)
      · simp [finish, hend] at hv
    · have hs3 : r.succeed = false := by simpa using hs
      rw [finish_failed is_fmt r hs3] at hv
      exact absurd hv (by simp)

theorem fieldLetters_order_mem_aux (L : Char) (hL : L ≠ 'O') (n : Nat) :
    ∀ ord : List Char, ord.length ≤ n → (L ∈ fieldLetters false ord ↔ L ∈ cstr ord) := by
  induction n with
  | zero =>
    intro ord hn
    have : ord = [] := List.length_eq_zero.mp (Nat.le_zero.mp hn)
    subst this
    simp [fieldLetters, cstr]
  | succ n ih =>
    intro ord hn
    cases ord with
    | nil => simp [fieldLetters, cstr]
    | cons a as =>
      have hlen : as.length ≤ n := by simpa using hn
      by_cases ha : a = NUL
      · subst ha
        rw [fieldLetters_end false (NUL :: as) rfl, cstr_nil_of_cur (NUL :: as) rfl]
      · have hc : cstr (a :: as) = a :: cstr as := by simp [cstr, ha]
        by_cases hO : a = 'O'
        · subst hO
          cases as with
          | nil =>
            rw [fieldLetters.eq_def]
            simp [cstr, NUL, hL]
          | cons b bs =>
            by_cases hb : b = NUL
            · subst hb
              rw [fieldLetters.eq_def]
              simp [cstr, NUL, hL]
            · have hc2 : cstr (b :: bs) = b :: cstr bs := by simp [cstr, hb]
              have hlen2 : bs.length ≤ n := by
                have : bs.length + 1 ≤ n := by simpa using hlen
                omega
              rw [fieldLetters_order_O b bs hb, hc, hc2, List.mem_cons, List.mem_cons,
                List.mem_cons, ih bs hlen2]
              constructor
              · intro h; exact Or.inr h
              · intro h
                rcases h with h | h
                · exact absurd h hL
                · exact h
        · rw [fieldLetters_order_plain a as ha hO, hc, List.mem_cons, List.mem_cons, ih as hlen]

/-- In order mode the field letters other than `O` are the characters of the order
string. -/
theorem fieldLetters_order_mem (L : Char) (hL : L ≠ 'O') (ord : List Char) :
    L ∈ fieldLetters false ord ↔ L ∈ cstr ord :=
  fieldLetters_order_mem_aux L hL ord.length ord (le_refl _)

/-- Every value in the result of `parse_dt` is the result of one entry. -/
theorem parse_dt_mem (texts : List (List Char)) (fmt : List Char) (is_fmt : Bool)
    (vs : List (Option ℚ)) (h : parse_dt texts fmt is_fmt = .ok vs) :
    ∀ x ∈ vs, ∃ s ∈ texts, parse_dt_entry fmt is_fmt s = .ok x := by
  have hf := (parse_dt_ok_iff texts fmt is_fmt vs).mp h
  induction hf with
  | nil => intro x hx; exact absurd hx (List.not_mem_nil _)
  | cons hsv _ ih =>
    intro x hx
    rcases List.mem_cons.mp hx with hx | hx
    · subst hx
      exact ⟨_, List.mem_cons_self _ _, hsv⟩
    · obtain ⟨s, hs, he⟩ := ih ((parse_dt_ok_iff _ fmt is_fmt _).mpr (by assumption)) x hx
      exact ⟨s, List.mem_cons_of_mem _ hs, he⟩

/-- C19: a day without a month can never parse.  For every list of input texts and every
format or order string whose field letters (the letters the `switch` is dispatched on)
include `d` but not `m`, every entry of a result of `parse_dt` is the missing value, in
strict and in order mode; in order mode the field letters `d` and `m` are the characters
`d` and `m` of the order string. -/
theorem C19_day_without_month_never_parses (texts : List (List Char)) (fmt : List Char)
    (is_fmt : Bool) :
    ('d' ∈ fieldLetters is_fmt fmt → 'm' ∉ fieldLetters is_fmt fmt →
      ∀ vs, parse_dt texts fmt is_fmt = .ok vs → ∀ x ∈ vs, x = none) ∧
    ('d' ∈ cstr fmt → 'm' ∉ cstr fmt →
      ∀ vs, parse_dt texts fmt false = .ok vs → ∀ x ∈ vs, x = none) := by
  have key : ∀ b : Bool, 'd' ∈ fieldLetters b fmt → 'm' ∉ fieldLetters b fmt →
      ∀ vs, parse_dt texts fmt b = .ok vs → ∀ x ∈ vs, x = none := by
    intro b hd hm vs h x hx
    obtain ⟨s, _, he⟩ := parse_dt_mem texts fmt b vs h x hx
    cases x with
    | none => rfl
    | some v => exact absurd he (entry_day_without_month s fmt b hd hm v)
  constructor
  · exact key is_fmt
  · intro hd hm
    have hd2 := (fieldLetters_order_mem 'd' (by decide) fmt).mpr hd
    have hm2 : 'm' ∉ fieldLetters false fmt :=
      fun hx => hm ((fieldLetters_order_mem 'm' (by decide) fmt).mp hx)
    exact key false hd2 hm2

theorem C19_witness :
    ('d' ∈ fieldLetters true "%Y-%d".toList ∧ 'm' ∉ fieldLetters true "%Y-%d".toList ∧
      parse_dt ["2013-16".toList] "%Y-%d".toList true = .ok [none]) ∧
    (∀ vs, parse_dt ["2013-16".toList] "%Y-%d".toList true = .ok vs → ∀ x ∈ vs, x = none) ∧
    ('d' ∈ cstr "Yd".toList ∧ 'm' ∉ cstr "Yd".toList) ∧
    (∀ vs, parse_dt ["2013-16".toList] "Yd".toList false = .ok vs → ∀ x ∈ vs, x = none) :=
  ⟨⟨by decide, by decide, by rfl⟩,
    (C19_day_without_month_never_parses ["2013-16".toList] "%Y-%d".toList true).1
      (by decide) (by decide),
    ⟨by decide, by decide⟩,
    (C19_day_without_month_never_parses ["2013-16".toList] "Yd".toList false).2
      (by decide) (by decide)⟩

end Tparse
